import Mathlib

/-
Verification of the bytecode emission core of the hhbbc backend
(src/unnamed/part_001, `emit.cpp`): block layout, instruction
serialization, branch fixup, stack/FPI depth tracking, exception-region
flattening, and the defcls offset map.

The embedding mirrors the source function by function.  Fatal
assertions (`assert`, `always_assert`) are modelled as `Option`
failures: a run that would trip an assertion returns `none`.
Ghost journal fields (named `g...`) record events (branch sites,
expected-depth calls, FPI closes, ...) and do not influence emission.
-/

/- Offsets into the emitted bytecode stream (`Offset` in the source)
are plain `Nat`s; `kInvalidOffset` is modelled as `Option.none`. -/

/-- One item appended to the `UnitEmitter` byte stream, together with
its byte size per the wire format (opcode tag = 1 byte, int32 = 4,
int64/double = 8, IVA = 1 byte if the value fits in 7 bits else 4,
repo-auth-type = an opaque blob of at least one byte). -/
inductive Item where
  | opTag (t : Nat)
  | byteItem (b : Nat)
  | int32 (v : Nat)
  | int64 (v : Nat)
  | dblItem (bits : Nat)
  | ivaItem (v : Nat)
  | ratItem (sz : Nat)
deriving DecidableEq, Repr

def Item.size : Item → Nat
  | .opTag _ => 1
  | .byteItem _ => 1
  | .int32 _ => 4
  | .int64 _ => 8
  | .dblItem _ => 8
  | .ivaItem v => if v < 128 then 1 else 4
  | .ratItem sz => sz + 1

/-- Two's-complement 32-bit image of an integer, as stored by
`emitInt32`. -/
def enc32 (v : Int) : Nat := (v % (2 ^ 32 : Int)).toNat

/-- Two's-complement 64-bit image of an integer, as stored by
`emitInt64`. -/
def enc64 (v : Int) : Nat := (v % (2 ^ 64 : Int)).toNat

/-- The `UnitEmitter` sink: the byte stream (each item tagged with the
offset at which it was emitted), the current position `bcPos`, the
literal-string and array interning tables, and recorded source
locations. -/
structure UE where
  bcItems : List (Nat × Item) := []
  bcPos : Nat := 0
  litstrs : List Nat := []
  arrays : List Nat := []
  srcLocRecs : List (Nat × Nat) := []
deriving DecidableEq, Repr

def UE.emit (ue : UE) (it : Item) : UE :=
  { ue with bcItems := ue.bcItems ++ [(ue.bcPos, it)], bcPos := ue.bcPos + it.size }

/-- Rewrite of one stream item by a back-patch at `off`: an int32
emitted at `off` is replaced, everything else is untouched. -/
def patchItem (off : Nat) (v : Nat) (p : Nat × Item) : Nat × Item :=
  match p.2 with
  | Item.int32 _ => if p.1 = off then (p.1, Item.int32 v) else p
  | _ => p

/-- `emitInt32(val, atOffset)`: overwrite the int32 previously emitted
at `off` (used for forward-jump back-patching). -/
def UE.patch32 (ue : UE) (off : Nat) (v : Nat) : UE :=
  { ue with bcItems := ue.bcItems.map (patchItem off v) }

/-- The item emitted at a given stream offset, if any. -/
def UE.itemAt (ue : UE) (off : Nat) : Option Item :=
  (ue.bcItems.find? (fun p => p.1 = off)).map (·.2)

/-- `mergeLitstr`: intern a string (represented by a numeric handle)
and return its 32-bit id. -/
def UE.mergeLitstr (ue : UE) (s : Nat) : Nat × UE :=
  match ue.litstrs.indexOf? s with
  | some i => (i, ue)
  | none => (ue.litstrs.length, { ue with litstrs := ue.litstrs ++ [s] })

/-- `mergeArray`: intern an array literal and return its 32-bit id. -/
def UE.mergeArray (ue : UE) (a : Nat) : Nat × UE :=
  match ue.arrays.indexOf? a with
  | some i => (i, ue)
  | none => (ue.arrays.length, { ue with arrays := ue.arrays ++ [a] })

/-- A member key (`MKey`) as built by `make_member_key`. -/
inductive MKeyM where
  | mec (idx : Nat)
  | mpc (idx : Nat)
  | mel (loc : Nat)
  | mpl (loc : Nat)
  | met (str : Nat)
  | mpt (str : Nat)
  | mqt (str : Nat)
  | mei (v : Int)
  | mw
deriving DecidableEq, Repr

/-- An immediate of a bytecode instruction, by kind (the `IMM_*` macro
table of the source). -/
inductive Imm where
  | bla (targets : List Nat)
  | sla (targets : List (Nat × Nat))
  | ila (iterTab : List (Nat × Nat))
  | iva (v : Nat)
  | i64a (v : Int)
  | la (locId : Nat)
  | ia (iterId : Nat)
  | car (slot : Nat)
  | caw (slot : Nat)
  | da (bits : Nat)
  | sa (str : Nat)
  | rata (sz : Nat)
  | aa (arr : Nat)
  | oa (sub : Nat)
  | ba (target : Nat)
  | vsa (keys : List Nat)
  | ka (mkey : MKeyM)
  | lar (first : Nat) (cnt : Nat)
deriving DecidableEq, Repr

/-- Modelled from the spec: opcode classification.  The opcode schema
table (`OPCODES` in `hhbc.h`) is not part of src/; an opcode is
characterized by its tag byte and the classification flags the emitter
consults (`isRet`, `isFPush`, `isFCallStar`, the `TF` flag, `FCall` /
`FCallD` for `containsCalls`, `DefCls`, `DefClsNop`, `Nop`). -/
structure OpSig where
  tag : Nat
  isNop : Bool := false
  isRet : Bool := false
  isFPush : Bool := false
  isFCallStar : Bool := false
  isTF : Bool := false
  isFCallOrD : Bool := false
  isDefCls : Bool := false
  isDefClsNop : Bool := false
deriving DecidableEq, Repr

/-- Modelled from the spec: one instruction (`Bytecode` in the IR),
carrying its opcode signature, immediates in schema order, the
declared pop and push counts, and a source-location index. -/
structure Bc where
  sig : OpSig
  imms : List Imm := []
  pops : Nat := 0
  pushes : Nat := 0
  srcLocIx : Int := -1
deriving DecidableEq, Repr

/-- `inst.DefCls.arg1`: the class id immediate of a `DefCls` /
`DefClsNop` (the source reads `DefCls.arg1` for both, relying on the
identical immediate layout). -/
def Bc.defClsId (b : Bc) : Nat :=
  match b.imms with
  | Imm.iva n :: _ => n
  | _ => 0

/-- A function-local variable: optional name, post-DCE `killed` flag,
and the id assigned by `emit_init_func`. -/
structure LocalT where
  name : Option Nat := none
  killed : Bool := false
  id : Nat := 0
deriving DecidableEq, Repr

/-- An exception-tree node (`php::ExnNode`), stored in a per-function
arena and referenced by index; `parent` is an index or none, `depth`
is the path length from the root, `entryBlock` is the catch or fault
entry block. -/
structure ExnNodeT where
  depth : Nat
  parent : Option Nat := none
  isCatch : Bool := false
  entryBlock : Nat := 0
  iterId : Int := -1
  itRef : Bool := false
deriving DecidableEq, Repr

/-- A basic block (`php::Block`): id, instructions, section
(0 = Main, 1 = Fault), fallthrough successor and its no-surprise flag,
and the exception-node reference. -/
structure Block where
  id : Nat
  hhbcs : List Bc := []
  sect : Nat := 0
  fallthrough : Option Nat := none
  fallthroughNS : Bool := false
  exnNode : Option Nat := none
deriving DecidableEq, Repr

/-- A function (`php::Func`).  `rpoMain` and `rpoWithDVs` stand for
the results of `rpoSortFromMain` and `rpoSortAddDVs`, which live in
`cfg.cpp` outside src/ (modelled from the spec as the reverse
postorder from the main entry, and the reverse postorder additionally
seeded with every DV entry block). -/
structure Func where
  locals : List LocalT := []
  blocks : List Block := []
  exnNodes : List ExnNodeT := []
  rpoMain : List Nat := []
  rpoWithDVs : List Nat := []
deriving DecidableEq, Repr

/-- The section of a block, looked up by id (0 when out of range). -/
def sectOf (f : Func) (bid : Nat) : Nat :=
  match f.blocks[bid]? with
  | some b => b.sect
  | none => 0

/-- Insert into a key-sorted list, before the first element whose key
is not smaller (stable insertion). -/
def insortKey (key : α → Nat) (x : α) : List α → List α
  | [] => [x]
  | y :: l => if key x ≤ key y then x :: y :: l else y :: insortKey key x l

/-- Stable sort by a numeric key (`std::stable_sort` with comparator
`key a < key b`). -/
def stableSortByKey (key : α → Nat) : List α → List α
  | [] => []
  | x :: l => insortKey key x (stableSortByKey key l)

/-- Modelled from the spec: `is_single_nop` (from `unit-util.h`, not
in src/): the block contains exactly one instruction and it is a plain
`Nop`. -/
def is_single_nop (b : Block) : Bool :=
  match b.hhbcs with
  | [i] => i.sig.isNop
  | _ => false

/-- The `EntryNop` instruction substituted by `order_blocks`. -/
def entryNopBc : Bc := { sig := { tag := 1 } }

/-- `order_blocks`: reverse postorder from the main entry, followed by
the prefix of the DV-seeded reverse postorder that precedes the main
entry (`withDVs.erase(find(withDVs, sorted.front()), end)`), the whole
list stable-sorted by section; if the resulting first block is a
single plain `Nop` its body is replaced by `EntryNop`.  Returns the
layout (block ids) and the possibly updated function. -/
def order_blocks (f : Func) : Option (List Nat × Func) := do
  let sorted := f.rpoMain
  let hd ← sorted.head?
  let dvBlocks := f.rpoWithDVs.takeWhile (fun x => x ≠ hd)
  let sorted2 := sorted ++ dvBlocks
  let sorted3 := stableSortByKey (sectOf f) sorted2
  let fstId ← sorted3.head?
  let fb ← f.blocks[fstId]?
  if is_single_nop fb then
    let f2 := { f with blocks := f.blocks.set fstId { fb with hhbcs := [entryNopBc] } }
    some (sorted3, f2)
  else
    some (sorted3, f)

/-- An in-progress or closed FPI region (`EmitBcInfo::FPI`):
`fpiEndOff` is none while the region is still on the stack
(`kInvalidOffset` in the source). -/
structure FPI where
  fpushOff : Nat
  fpiEndOff : Option Nat := none
  fpDelta : Int := 0
deriving DecidableEq, Repr

/-- Ghost tag: which code path closed an FPI region (`end_fpi` called
from the `fcall` hook, from the block-entry drain loop, or from the
end-of-function drain loop). -/
inductive CloseKind where
  | byFCall
  | byBlockEntry
  | byFuncEnd
deriving DecidableEq, Repr

/-- A pending forward-jump fixup (`EmitBcInfo::JmpFixup`). -/
structure JmpFixup where
  instrOff : Nat
  jmpImmedOff : Nat
deriving DecidableEq, Repr

/-- Per-block emission info (`EmitBcInfo::BlockInfo`). -/
structure BlockInfo where
  offset : Option Nat := none
  past : Option Nat := none
  regionsToPop : Nat := 0
  forwardJumps : List JmpFixup := []
  expectedStackDepth : Option Int := none
  expectedFPIDepth : Option Nat := none
deriving DecidableEq, Repr

/-- Ghost record of one `emit_branch` call: the branching opcode's
start offset, the offset of its 32-bit immediate, and the target
block. -/
structure BranchRec where
  instrOff : Nat
  jmpImmedOff : Nat
  target : Nat
deriving DecidableEq, Repr

/-- The state threaded through `emit_bytecode`: the sink, the
per-block info, the stack/FPI depth tracker, `lastOff`, the
unit-level `defClsMap`, and ghost journals (`g...`). -/
structure EmitState where
  ue : UE := {}
  blockInfo : List BlockInfo := []
  curDepth : Int := 0
  maxStackDepth : Int := 0
  fpiStack : List FPI := []
  maxFpiDepth : Nat := 0
  containsCalls : Bool := false
  fpiRegions : List FPI := []
  lastOff : Nat := 0
  defClsMap : List (Option Nat) := []
  gBranches : List BranchRec := []
  gDepthSets : List (Nat × Int) := []
  gFpiSets : List (Nat × Nat) := []
  gEntryDepths : List (Nat × Int) := []
  gFpiEntries : List (Nat × Nat) := []
  gDepths : List Int := []
  gRetDepths : List Int := []
  gDefCls : List (Nat × Nat) := []
  gCloses : List (FPI × CloseKind) := []
deriving DecidableEq, Repr

/-- `map_local`: rewrite a raw local id through the assignment done by
`emit_init_func`; asserts the local is not killed and that the
assigned id is not larger than the raw id. -/
def map_local (f : Func) (id : Nat) : Option Nat := do
  let loc ← f.locals[id]?
  if loc.killed then none
  else if loc.id ≤ id then some loc.id
  else none

/-- `end_fpi(off)`: close the top FPI region at `off` and append it to
the function's FPI region list (the `CloseKind` argument is ghost). -/
def end_fpi (k : CloseKind) (off : Nat) (s : EmitState) : Option EmitState :=
  match s.fpiStack with
  | [] => none
  | fpi :: rest =>
    let closed : FPI := { fpi with fpiEndOff := some off }
    some { s with fpiStack := rest,
                  fpiRegions := s.fpiRegions ++ [closed],
                  gCloses := s.gCloses ++ [(closed, k)] }

/-- The expected-stack-depth half of `set_expected_depth`: assert
equality when set, record when not. -/
def updExpStack (cur : Int) (info : BlockInfo) : Option BlockInfo :=
  match info.expectedStackDepth with
  | some d => if d = cur then some info else none
  | none => some { info with expectedStackDepth := some cur }

/-- The expected-FPI-depth half of `set_expected_depth`. -/
def updExpFpi (fd : Nat) (info : BlockInfo) : Option BlockInfo :=
  match info.expectedFPIDepth with
  | some d => if d = fd then some info else none
  | none => some { info with expectedFPIDepth := some fd }

/-- `set_expected_depth`: record (or assert equal) the expected stack
depth and expected FPI depth of a branch / fall-through target. -/
def set_expected_depth (bid : Nat) (s : EmitState) : Option EmitState := do
  let info ← s.blockInfo[bid]?
  let info ← updExpStack s.curDepth info
  let info ← updExpFpi s.fpiStack.length info
  some { s with blockInfo := s.blockInfo.set bid info,
                gDepthSets := s.gDepthSets ++ [(bid, s.curDepth)],
                gFpiSets := s.gFpiSets ++ [(bid, s.fpiStack.length)] }

/-- `emit_branch`: if the target's offset is known emit
`offset − startOffset` as a 32-bit immediate, otherwise emit a
placeholder `0` and record a forward-jump fixup on the target. -/
def emit_branch (startOffset : Nat) (bid : Nat) (s : EmitState) : Option EmitState := do
  let s ← set_expected_depth bid s
  let info ← s.blockInfo[bid]?
  match info.offset with
  | some o =>
      let jPos := s.ue.bcPos
      some { s with ue := s.ue.emit (Item.int32 (enc32 ((o : Int) - (startOffset : Int)))),
                    gBranches := s.gBranches ++ [⟨startOffset, jPos, bid⟩] }
  | none =>
      let jPos := s.ue.bcPos
      let info2 := { info with forwardJumps := info.forwardJumps ++ [⟨startOffset, jPos⟩] }
      let s := { s with blockInfo := s.blockInfo.set bid info2 }
      some { s with ue := s.ue.emit (Item.int32 (enc32 0)),
                    gBranches := s.gBranches ++ [⟨startOffset, jPos, bid⟩] }

/-- `pop(n)`: decrease the tracked stack depth, asserting it stays
non-negative; the new depth is journalled. -/
def popD (n : Nat) (s : EmitState) : Option EmitState :=
  if s.curDepth - (n : Int) < 0 then none
  else some { s with curDepth := s.curDepth - (n : Int),
                     gDepths := s.gDepths ++ [s.curDepth - (n : Int)] }

/-- `push(n)`: increase the tracked stack depth and the running
maximum; the new depth is journalled. -/
def pushD (n : Nat) (s : EmitState) : EmitState :=
  let d := s.curDepth + (n : Int)
  { s with curDepth := d,
           maxStackDepth := if d > s.maxStackDepth then d else s.maxStackDepth,
           gDepths := s.gDepths ++ [d] }

/-- `fpush`: open an FPI region at the current instruction and update
the peak FPI depth. -/
def fpushF (startOffset : Nat) (s : EmitState) : EmitState :=
  let st := ({ fpushOff := startOffset, fpiEndOff := none, fpDelta := s.curDepth } : FPI) :: s.fpiStack
  { s with fpiStack := st, maxFpiDepth := max s.maxFpiDepth st.length }

/-- `defcls` / `defclsnop`: record the opcode's start offset for the
class id, asserting (`always_assert`) that no offset was recorded
before. -/
def defclsF (id : Nat) (startOffset : Nat) (s : EmitState) : Option EmitState := do
  let cur ← s.defClsMap[id]?
  match cur with
  | some _ => none
  | none =>
      some { s with defClsMap := s.defClsMap.set id (some startOffset),
                    gDefCls := s.gDefCls ++ [(id, startOffset)] }

/-- `ret_assert`: assert the tracked depth is exactly 1 before a
return-family opcode; the depth at the site is journalled. -/
def ret_assert (s : EmitState) : Option EmitState :=
  if s.curDepth = 1 then some { s with gRetDepths := s.gRetDepths ++ [s.curDepth] } else none

/-- `emit_srcloc`: record the source location of the instruction when
its srcloc index is valid. -/
def emit_srcloc (inst : Bc) (startOffset : Nat) (s : EmitState) : EmitState :=
  if 0 ≤ inst.srcLocIx then
    { s with ue := { s.ue with srcLocRecs := s.ue.srcLocRecs ++ [(inst.srcLocIx.toNat, startOffset)] } }
  else s

def emitIt (it : Item) (s : EmitState) : EmitState := { s with ue := s.ue.emit it }

def emitI32 (v : Int) (s : EmitState) : EmitState := emitIt (Item.int32 (enc32 v)) s

/-- `ue.emitInt32(ue.mergeLitstr(s))`. -/
def emitLitstrId (str : Nat) (s : EmitState) : EmitState :=
  let (i, ue) := s.ue.mergeLitstr str
  emitI32 (i : Int) { s with ue := ue }

/-- `ue.emitInt32(ue.mergeArray(a))`. -/
def emitArrayId (a : Nat) (s : EmitState) : EmitState :=
  let (i, ue) := s.ue.mergeArray a
  emitI32 (i : Int) { s with ue := ue }

def emit_branches (startOffset : Nat) : List Nat → EmitState → Option EmitState
  | [], s => some s
  | t :: ts, s => do emit_branches startOffset ts (← emit_branch startOffset t s)

def emit_sswitch_cases (startOffset : Nat) : List (Nat × Nat) → EmitState → Option EmitState
  | [], s => some s
  | (str, t) :: ts, s => do
      emit_sswitch_cases startOffset ts (← emit_branch startOffset t (emitLitstrId str s))

/-- `emit_sswitch`: count, then all but the last ⟨string id, branch⟩
pair, then the `-1` sentinel and the default branch.  An empty table
would read out of bounds in the source and is a failure here. -/
def emit_sswitch (startOffset : Nat) (targets : List (Nat × Nat)) (s : EmitState) :
    Option EmitState :=
  match targets.getLast? with
  | none => none
  | some lastT => do
      let s := emitI32 (targets.length : Int) s
      let s ← emit_sswitch_cases startOffset targets.dropLast s
      let s := emitI32 (-1) s
      emit_branch startOffset lastT.2 s

def emit_switch (startOffset : Nat) (targets : List Nat) (s : EmitState) : Option EmitState :=
  emit_branches startOffset targets (emitI32 (targets.length : Int) s)

def emit_itertab (tab : List (Nat × Nat)) (s : EmitState) : EmitState :=
  let s := emitI32 (tab.length : Int) s
  tab.foldl (fun s kv => emitI32 (kv.2 : Int) (emitI32 (kv.1 : Int) s)) s

def emit_vsa (keys : List Nat) (s : EmitState) : EmitState :=
  let s := emitI32 (keys.length : Int) s
  keys.foldl (fun s k => emitLitstrId k s) s

/-- `make_member_key`: rewrite local-based member keys through
`map_local`. -/
def make_member_key (f : Func) (mk : MKeyM) : Option MKeyM :=
  match mk with
  | .mel l => (map_local f l).map MKeyM.mel
  | .mpl l => (map_local f l).map MKeyM.mpl
  | x => some x

/-- Modelled from the spec: `encode_member_key` (from `member-key.h`,
not in src/): a tag byte, then the variant payload (stack slot or
local as IVA, literal string as interned 32-bit id, literal int as
fixed 64-bit, no payload for the new-element key). -/
def encode_member_key (mk : MKeyM) (s : EmitState) : EmitState :=
  match mk with
  | .mec idx => emitIt (.ivaItem idx) (emitIt (.byteItem 0) s)
  | .mpc idx => emitIt (.ivaItem idx) (emitIt (.byteItem 5) s)
  | .mel l => emitIt (.ivaItem l) (emitIt (.byteItem 1) s)
  | .mpl l => emitIt (.ivaItem l) (emitIt (.byteItem 6) s)
  | .met str => emitLitstrId str (emitIt (.byteItem 2) s)
  | .mpt str => emitLitstrId str (emitIt (.byteItem 7) s)
  | .mqt str => emitLitstrId str (emitIt (.byteItem 8) s)
  | .mei v => emitIt (.int64 (enc64 v)) (emitIt (.byteItem 3) s)
  | .mw => emitIt (.byteItem 4) s

/-- `emit_lar`: assert the range lies inside the locals vector and
that the mapped locals are contiguous, then emit IVA first and IVA
restCount. -/
def emit_lar (f : Func) (first : Nat) (cnt : Nat) (s : EmitState) : Option EmitState := do
  if first + cnt < f.locals.length then
    let m1 ← map_local f first
    let m2 ← map_local f (first + cnt)
    if (m2 : Int) - (m1 : Int) = (cnt : Int) then
      some (emitIt (Item.ivaItem cnt) (emitIt (Item.ivaItem m1) s))
    else none
  else none

/-- Emission of a single immediate (the `IMM_*` macro table). -/
def emit_imm (f : Func) (startOffset : Nat) (im : Imm) (s : EmitState) : Option EmitState :=
  match im with
  | .bla targets => emit_switch startOffset targets s
  | .sla targets => emit_sswitch startOffset targets s
  | .ila tab => some (emit_itertab tab s)
  | .iva v => some (emitIt (.ivaItem v) s)
  | .i64a v => some (emitIt (.int64 (enc64 v)) s)
  | .la l => do
      let m ← map_local f l
      some (emitIt (.ivaItem m) s)
  | .ia i => some (emitIt (.ivaItem i) s)
  | .car slot => some (emitIt (.ivaItem slot) s)
  | .caw slot => some (emitIt (.ivaItem slot) s)
  | .da bits => some (emitIt (.dblItem bits) s)
  | .sa str => some (emitLitstrId str s)
  | .rata sz => some (emitIt (.ratItem sz) s)
  | .aa a => some (emitArrayId a s)
  | .oa b => some (emitIt (.byteItem b) s)
  | .ba t => emit_branch startOffset t s
  | .vsa keys => some (emit_vsa keys s)
  | .ka mk => do
      let mk2 ← make_member_key f mk
      some (encode_member_key mk2 s)
  | .lar first cnt => emit_lar f first cnt s

def emit_imms (f : Func) (startOffset : Nat) : List Imm → EmitState → Option EmitState
  | [], s => some s
  | im :: rest, s => do emit_imms f startOffset rest (← emit_imm f startOffset im s)

/-- `emit_inst`: one instruction.  `lastOff` is updated for every
instruction; the per-opcode body (defcls hooks, ret assertion, opcode
byte, pops, pushes, immediates, fpush/fcall hooks, terminal depth
reset, containsCalls, srcloc) is skipped entirely for `Nop`
(`if (Op::opcode != Op::Nop)` in the dispatch switch). -/
def emit_inst (f : Func) (inst : Bc) (s : EmitState) : Option EmitState :=
  let startOffset := s.ue.bcPos
  let s := { s with lastOff := startOffset }
  if inst.sig.isNop then some s
  else do
    let s ← (if inst.sig.isDefCls then defclsF inst.defClsId startOffset s else some s)
    let s ← (if inst.sig.isDefClsNop then defclsF inst.defClsId startOffset s else some s)
    let s ← (if inst.sig.isRet then ret_assert s else some s)
    let s := emitIt (Item.opTag inst.sig.tag) s
    let s ← popD inst.pops s
    let s := pushD inst.pushes s
    let s ← emit_imms f startOffset inst.imms s
    let s := if inst.sig.isFPush then fpushF startOffset s else s
    let s ← (if inst.sig.isFCallStar then end_fpi CloseKind.byFCall startOffset s else some s)
    let s := if inst.sig.isTF then { s with curDepth := 0, gDepths := s.gDepths ++ [0] } else s
    let s := if inst.sig.isFCallOrD then { s with containsCalls := true } else s
    some (emit_srcloc inst startOffset s)

def emit_insts (f : Func) : List Bc → EmitState → Option EmitState
  | [], s => some s
  | i :: rest, s => do emit_insts f rest (← emit_inst f i s)

/-- One step of the `while (entry(eh1) == entry(eh2))` loop of
`handleEquivalent`; a null dereference in the source (exactly one
side exhausted) is a failure. -/
def handleEqLoop (f : Func) : Nat → Nat → Nat → Option Bool
  | 0, _, _ => none
  | fuel + 1, a, b => do
      let na ← f.exnNodes[a]?
      let nb ← f.exnNodes[b]?
      if na.entryBlock = nb.entryBlock then
        match na.parent, nb.parent with
        | none, none => some true
        | some pa, some pb => handleEqLoop f fuel pa pb
        | _, _ => none
      else some false

/-- `handleEquivalent`: equal depth and equal entry blocks along every
ancestor step until both chains end. -/
def handleEquivalent (f : Func) (a b : Option Nat) : Option Bool :=
  match a, b with
  | none, none => some true
  | some ai, some bi => do
      let na ← f.exnNodes[ai]?
      let nb ← f.exnNodes[bi]?
      if na.depth ≠ nb.depth then some false
      else handleEqLoop f (f.exnNodes.length + 1) ai bi
  | _, _ => some false

/-- `while (node.depth > tgt) node = node.parent`. -/
def ascendToDepth (f : Func) : Nat → Nat → Nat → Option Nat
  | 0, _, _ => none
  | fuel + 1, a, tgt => do
      let na ← f.exnNodes[a]?
      if na.depth > tgt then
        match na.parent with
        | some p => ascendToDepth f fuel p tgt
        | none => none
      else some a

/-- The `while (!handleEquivalent(eh1, eh2))` loop of `commonParent`. -/
def commonParentLoop (f : Func) : Nat → Option Nat → Option Nat → Option (Option Nat)
  | 0, _, _ => none
  | fuel + 1, a, b => do
      let h ← handleEquivalent f a b
      if h then some a
      else
        match a, b with
        | some ai, some bi => do
            let na ← f.exnNodes[ai]?
            let nb ← f.exnNodes[bi]?
            commonParentLoop f fuel na.parent nb.parent
        | _, _ => none

/-- `commonParent`: ascend the deeper node until depths match, then
ascend both until handle-equivalent. -/
def commonParent (f : Func) (a0 b0 : Option Nat) : Option (Option Nat) :=
  match a0, b0 with
  | none, _ => some none
  | _, none => some none
  | some ai, some bi => do
      let nb ← f.exnNodes[bi]?
      let ai2 ← ascendToDepth f (f.exnNodes.length + 1) ai nb.depth
      let na ← f.exnNodes[ai2]?
      let bi2 ← ascendToDepth f (f.exnNodes.length + 1) bi na.depth
      commonParentLoop f (f.exnNodes.length + 1) (some ai2) (some bi2)

/-- `parent ? parent->depth : 0`. -/
def exnDepth (f : Func) (n : Option Nat) : Option Nat :=
  match n with
  | none => some 0
  | some i => (f.exnNodes[i]?).map (·.depth)

/-- The block-entry FPI drain:
`while (*info.expectedFPIDepth < fpiStack.size()) end_fpi(lastOff)`. -/
def drainFpi (k : Nat) (off : Nat) (s : EmitState) : Option EmitState :=
  match k with
  | 0 => some s
  | k + 1 => do drainFpi k off (← end_fpi CloseKind.byBlockEntry off s)

def setBlockPast (bid : Nat) (p : Nat) (s : EmitState) : Option EmitState := do
  let info ← s.blockInfo[bid]?
  some { s with blockInfo := s.blockInfo.set bid { info with past := some p } }

def setRegionsToPop (bid : Nat) (n : Nat) (s : EmitState) : Option EmitState := do
  let info ← s.blockInfo[bid]?
  some { s with blockInfo := s.blockInfo.set bid { info with regionsToPop := n } }

/-- `bc::Jmp { target }` as synthesized for fall-through (an
unconditional jump is flagged TF). -/
def mkJmp (t : Nat) : Bc := { sig := { tag := 2, isTF := true }, imms := [Imm.ba t] }

/-- `bc::JmpNS { target }` as synthesized for no-surprise
fall-through. -/
def mkJmpNS (t : Nat) : Bc := { sig := { tag := 3, isTF := true }, imms := [Imm.ba t] }

/-- Emission of one block of the layout: set its offset, patch its
pending forward jumps, establish the entry stack/FPI depth (0 when
never set), drain FPI regions ended by terminal instructions, emit the
instructions, record `past`, and synthesize the fall-through jump
(with `regionsToPop`) when the next block of the layout is not the
fall-through target. -/
def emit_block (f : Func) (b : Block) (next : Option Nat) (s : EmitState) : Option EmitState := do
  let info ← s.blockInfo[b.id]?
  let off := s.ue.bcPos
  let ue := info.forwardJumps.foldl
      (fun ue fx => ue.patch32 fx.jmpImmedOff (enc32 ((off : Int) - (fx.instrOff : Int)))) s.ue
  let expected := info.expectedStackDepth.getD 0
  let expectedF := info.expectedFPIDepth.getD 0
  let info2 := { info with offset := some off,
                           expectedStackDepth := some expected,
                           expectedFPIDepth := some expectedF }
  let s := { s with ue := ue,
                    blockInfo := s.blockInfo.set b.id info2,
                    curDepth := expected,
                    gEntryDepths := s.gEntryDepths ++ [(b.id, expected)],
                    gFpiEntries := s.gFpiEntries ++ [(b.id, expectedF)] }
  if expectedF > s.fpiStack.length then none
  else do
    let s ← drainFpi (s.fpiStack.length - expectedF) s.lastOff s
    let s ← emit_insts f b.hhbcs s
    let s ← setBlockPast b.id s.ue.bcPos s
    match b.fallthrough with
    | none => some s
    | some ft => do
        let s ← set_expected_depth ft s
        if next = some ft then some s
        else do
          let s ← emit_inst f (if b.fallthroughNS then mkJmpNS ft else mkJmp ft) s
          let ftBlk ← f.blocks[ft]?
          let parent ← commonParent f ftBlk.exnNode b.exnNode
          match b.exnNode with
          | none => setRegionsToPop b.id 0 s
          | some bn => do
              let bd ← (f.exnNodes[bn]?).map (·.depth)
              let pd ← exnDepth f parent
              if bd < pd then none else setRegionsToPop b.id (bd - pd) s

def emit_blocks (f : Func) : List Nat → EmitState → Option EmitState
  | [], s => some s
  | bid :: rest, s => do
      let b ← f.blocks[bid]?
      let s ← emit_block f b rest.head? s
      emit_blocks f rest s

/-- The end-of-function drain:
`while (fpiStack.size()) end_fpi(lastOff)`. -/
def drainAllFpi : Nat → EmitState → Option EmitState
  | 0, s => some s
  | k + 1, s =>
      match s.fpiStack with
      | [] => some s
      | _ :: _ => do drainAllFpi k (← end_fpi CloseKind.byFuncEnd s.lastOff s)

def initState (ue0 : UE) (dcm : List (Option Nat)) (g : List (Nat × Nat)) (f : Func) :
    EmitState :=
  { ue := ue0, blockInfo := List.replicate f.blocks.length {}, defClsMap := dcm, gDefCls := g }

/-- `emit_bytecode`: order the blocks, emit them in layout order, and
close any still-open FPI regions at `lastOff`.  Takes the sink and the
unit-level `defClsMap` (plus its ghost journal); returns the layout,
the possibly-updated function, and the final state. -/
def emit_bytecode (ue0 : UE) (dcm : List (Option Nat)) (g0 : List (Nat × Nat)) (f : Func) :
    Option (List Nat × Func × EmitState) := do
  let (layout, f2) ← order_blocks f
  let s ← emit_blocks f2 layout (initState ue0 dcm g0 f2)
  let s ← drainAllFpi s.fpiStack.length s
  some (layout, f2, s)

/-- `INT_MAX`, the sentinel id assigned to killed locals. -/
def intMaxSentinel : Nat := 2147483647

/-- The local-id assignment loop of `emit_init_func`: killed locals
get the sentinel, live locals get dense ids in order. -/
def assign_ids : List LocalT → Nat → List LocalT
  | [], _ => []
  | loc :: rest, nextId =>
      if loc.killed then { loc with id := intMaxSentinel } :: assign_ids rest nextId
      else { loc with id := nextId } :: assign_ids rest (nextId + 1)

/-- `emit_init_func` (the part relevant to locals): assign local ids
by compacting out killed locals. -/
def emit_init_func (f : Func) : Func := { f with locals := assign_ids f.locals 0 }

/-- A unit, reduced to what the defcls bookkeeping needs: the class
count and the functions emitted in order (pseudomain, methods,
top-level functions all alike). -/
structure UnitM where
  numClasses : Nat := 0
  funcs : List Func := []
deriving DecidableEq, Repr

/-- The outcome of `emit_unit`: the sink, the per-class offsets
written into the pre-class entries, and the ghost defcls journal. -/
structure UnitResult where
  ue : UE
  preClassOff : List (Option Nat)
  gDefCls : List (Nat × Nat)
deriving DecidableEq, Repr

def emit_unit_funcs : List Func → UE → List (Option Nat) → List (Nat × Nat) →
    Option (UE × List (Option Nat) × List (Nat × Nat))
  | [], ue, dcm, g => some (ue, dcm, g)
  | f :: rest, ue, dcm, g => do
      let (_, _, s) ← emit_bytecode ue dcm g (emit_init_func f)
      emit_unit_funcs rest s.ue s.defClsMap s.gDefCls

/-- `emit_unit`, reduced to the defcls pipeline: initialize
`defClsMap` with invalid offsets, emit every function, then copy each
recorded offset into the class's pre-class entry. -/
def emit_unit (u : UnitM) : Option UnitResult := do
  let (ue, dcm, g) ← emit_unit_funcs u.funcs {} (List.replicate u.numClasses none) []
  let pre := (List.range u.numClasses).map (fun i =>
    match dcm[i]? with
    | some (some off) => some off
    | _ => none)
  some { ue := ue, preClassOff := pre, gDefCls := g }

/-- A function with a fault block and a DV-only block, exercising the
block orderer. -/
def exC2Func : Func := {
  blocks := [
    { id := 0, sect := 0 },
    { id := 1, sect := 1 },
    { id := 2, sect := 0 },
    { id := 3, sect := 0 } ],
  rpoMain := [0, 1, 2],
  rpoWithDVs := [3, 0, 1, 2]
}

/-- Well-formedness of the sink stream: item offsets strictly
increase, and every item ends at or before the current position. -/
def UEwf (ue : UE) : Prop :=
  ue.bcItems.Pairwise (fun a b => a.1 < b.1) ∧
  ∀ p ∈ ue.bcItems, p.1 + p.2.size ≤ ue.bcPos


/-- The value of a branch immediate as tracked by the invariant: the
ghost branch record is either already resolved (target offset known,
stream holds `offset − instrOff`) or pending (placeholder `0` in the
stream and a fixup recorded on the target block). -/
def branchResolved (s : EmitState) (r : BranchRec) : Prop :=
  ∃ bi, s.blockInfo[r.target]? = some bi ∧
    ((∃ o, bi.offset = some o ∧
        s.ue.itemAt r.jmpImmedOff =
          some (Item.int32 (enc32 ((o : Int) - (r.instrOff : Int))))) ∨
     (bi.offset = none ∧ (⟨r.instrOff, r.jmpImmedOff⟩ : JmpFixup) ∈ bi.forwardJumps ∧
        s.ue.itemAt r.jmpImmedOff = some (Item.int32 (enc32 0))))

/-- The closing offset of an FPI region (its own start while open). -/
def endOf (r : FPI) : Nat := r.fpiEndOff.getD r.fpushOff

/-- Two FPI regions nest or are disjoint (no partial overlap); stated
for `a` closed no later than `b`. -/
def fpiNest (a b : FPI) : Prop :=
  (b.fpushOff ≤ a.fpushOff ∧ endOf a ≤ endOf b) ∨ endOf a ≤ b.fpushOff

/-- Branch-fixup invariant: the stream is well formed, every ghost
branch record is resolved or pending, immediate positions strictly
increase, and every recorded fixup corresponds to a ghost branch
record. -/
structure InvBr (s : EmitState) : Prop where
  ueWF : UEwf s.ue
  brs : ∀ r ∈ s.gBranches, branchResolved s r
  brsPos : ∀ r ∈ s.gBranches, r.jmpImmedOff + 4 ≤ s.ue.bcPos
  brsInc : s.gBranches.Pairwise (fun a b => a.jmpImmedOff < b.jmpImmedOff)
  fixMem : ∀ (b : Nat) (bi : BlockInfo), s.blockInfo[b]? = some bi →
      ∀ fx ∈ bi.forwardJumps,
      (⟨fx.instrOff, fx.jmpImmedOff, b⟩ : BranchRec) ∈ s.gBranches
  fixInc : ∀ (b : Nat) (bi : BlockInfo), s.blockInfo[b]? = some bi →
      bi.forwardJumps.Pairwise (fun a b => a.jmpImmedOff < b.jmpImmedOff)

/-- Expected-depth invariant: every `set_expected_depth` call and
every block-entry record agree with the target's stored expected
depth; a stored depth originates from a set call or from the
0 default at emission; tracked depths are non-negative and return
sites saw depth 1. -/
structure InvDepth (s : EmitState) : Prop where
  dset : ∀ pr ∈ s.gDepthSets, ∃ bi, s.blockInfo[pr.1]? = some bi ∧
      bi.expectedStackDepth = some pr.2
  dent : ∀ pr ∈ s.gEntryDepths, ∃ bi, s.blockInfo[pr.1]? = some bi ∧
      bi.expectedStackDepth = some pr.2
  dorigin : ∀ (b : Nat) (bi : BlockInfo) (d : Int), s.blockInfo[b]? = some bi →
      bi.expectedStackDepth = some d →
      (b, d) ∈ s.gDepthSets ∨ (d = 0 ∧ (b, d) ∈ s.gEntryDepths)
  fset : ∀ pr ∈ s.gFpiSets, ∃ bi, s.blockInfo[pr.1]? = some bi ∧
      bi.expectedFPIDepth = some pr.2
  fent : ∀ pr ∈ s.gFpiEntries, ∃ bi, s.blockInfo[pr.1]? = some bi ∧
      bi.expectedFPIDepth = some pr.2
  forigin : ∀ (b : Nat) (bi : BlockInfo) (d : Nat), s.blockInfo[b]? = some bi →
      bi.expectedFPIDepth = some d →
      (b, d) ∈ s.gFpiSets ∨ (d = 0 ∧ (b, d) ∈ s.gFpiEntries)
  curNN : 0 ≤ s.curDepth
  expNN : ∀ (b : Nat) (bi : BlockInfo) (d : Int), s.blockInfo[b]? = some bi →
      bi.expectedStackDepth = some d → 0 ≤ d
  depNN : ∀ d ∈ s.gDepths, 0 ≤ d
  retOne : ∀ d ∈ s.gRetDepths, d = 1

/-- FPI invariant: open regions are stacked with strictly increasing
start offsets, closed regions are properly closed and pairwise
nested or disjoint, and fcall-closed regions are non-empty. -/
structure InvFpi (s : EmitState) : Prop where
  lastLe : s.lastOff ≤ s.ue.bcPos
  stackLt : ∀ o ∈ s.fpiStack, o.fpushOff < s.ue.bcPos
  stackLast : ∀ o ∈ s.fpiStack, o.fpushOff ≤ s.lastOff
  stackOpen : ∀ o ∈ s.fpiStack, o.fpiEndOff = none
  stackOrd : s.fpiStack.Pairwise (fun a b => b.fpushOff < a.fpushOff)
  regsOk : ∀ r ∈ s.fpiRegions, ∃ e, r.fpiEndOff = some e ∧ r.fpushOff ≤ e ∧ e ≤ s.lastOff
  regsNest : s.fpiRegions.Pairwise fpiNest
  crossOk : ∀ r ∈ s.fpiRegions, ∀ o ∈ s.fpiStack,
      o.fpushOff ≤ r.fpushOff ∨ endOf r ≤ o.fpushOff
  regsCloses : s.fpiRegions = s.gCloses.map Prod.fst
  closesOk : ∀ rc ∈ s.gCloses, rc.2 = CloseKind.byFCall →
      ∃ e, rc.1.fpiEndOff = some e ∧ rc.1.fpushOff < e
  stkDelta : ∀ o ∈ s.fpiStack, 0 ≤ o.fpDelta

/-- Defcls invariant: the ghost journal and `defClsMap` agree, and
each class id is recorded at most once. -/
structure InvDef (s : EmitState) : Prop where
  defg : ∀ pr ∈ s.gDefCls, s.defClsMap[pr.1]? = some (some pr.2)
  defNodup : (s.gDefCls.map Prod.fst).Nodup

/-- The master invariant of `emit_bytecode`. -/
structure EInv (s : EmitState) : Prop where
  br : InvBr s
  dep : InvDepth s
  fpi : InvFpi s
  dfs : InvDef s

/-- No opcode is both an fpush and a call that closes an FPI region
(true of the bytecode ISA; needed so an FPI region is never opened
and closed by the same instruction). -/
def BcOk (i : Bc) : Prop := ¬ (i.sig.isFPush = true ∧ i.sig.isFCallStar = true)

/-- All instructions of the function are `BcOk`. -/
def FuncOk (f : Func) : Prop := ∀ b ∈ f.blocks, ∀ i ∈ b.hhbcs, BcOk i

instance (i : Bc) : Decidable (BcOk i) := by unfold BcOk; infer_instance

instance (f : Func) : Decidable (FuncOk f) := by
  unfold FuncOk
  infer_instance

/-- Facts carried by every intermediate emission step inside one
instruction: the position only grows, `lastOff` and the FPI stack are
untouched, and no block offset changes. -/
structure Mid (s t : EmitState) : Prop where
  pos_mono : s.ue.bcPos ≤ t.ue.bcPos
  lastOff_eq : t.lastOff = s.lastOff
  fpiStack_eq : t.fpiStack = s.fpiStack
  offs_eq : ∀ (c : Nat), (t.blockInfo[c]?).map (fun bi => bi.offset) =
      (s.blockInfo[c]?).map (fun bi => bi.offset)
  items_ext : ∃ l : List (Nat × Item), t.ue.bcItems = s.ue.bcItems ++ l

/-- Facts carried by whole-instruction and whole-block steps: the
position only grows and no block offset is newly assigned except by a
block prologue. -/
structure Step (s t : EmitState) : Prop where
  pos_mono : s.ue.bcPos ≤ t.ue.bcPos
  offs_eq : ∀ (c : Nat), (t.blockInfo[c]?).map (fun bi => bi.offset) =
      (s.blockInfo[c]?).map (fun bi => bi.offset)

/-- A two-block function exercising the emitter: a push, an FPI
region opened and closed by a call, a forward branch to the second
block, a `DefCls` and a return. -/
def exWFunc : Func := {
  blocks := [
    { id := 0,
      hhbcs := [
        { sig := { tag := 20 }, pushes := 1 },
        { sig := { tag := 30, isFPush := true } },
        { sig := { tag := 31, isFCallStar := true, isFCallOrD := true } },
        { sig := { tag := 40 }, imms := [Imm.ba 1] } ],
      fallthrough := some 1 },
    { id := 1,
      hhbcs := [
        { sig := { tag := 50, isDefCls := true }, imms := [Imm.iva 0] },
        { sig := { tag := 60, isRet := true, isTF := true }, pops := 1 } ] } ],
  rpoMain := [0, 1],
  rpoWithDVs := [0, 1] }

/-- The result of emitting `exWFunc` into a fresh sink with one
pre-class slot. -/
def exWRes : List Nat × Func × EmitState :=
  (emit_bytecode {} [none] [] exWFunc).getD ([], {}, {})

/-- A one-class unit containing only `exWFunc`. -/
def exWUnit : UnitM := { numClasses := 1, funcs := [exWFunc] }

/-- A function whose first local was killed by DCE and three live
locals follow; `emit_init_func` compacts the live ids. -/
def exC9Func : Func := { locals := [ { killed := true }, {}, {}, {} ] }

/-- The result of emitting the one-class unit `exWUnit`. -/
def exWURes : UnitResult :=
  (emit_unit exWUnit).getD { ue := {}, preClassOff := [], gDefCls := [] }

/-- An EH region built by the block walk of `emit_ehent_tree`
(`EHRegion`): the exception-tree node, the parent region as an index
into the flattened region list (`nullptr` is `none`), and the byte
interval `[start, past)`. -/
structure EHRegionM where
  node : Nat
  parentR : Option Nat := none
  start : Nat
  past : Nat
deriving DecidableEq, Repr

/-- An emitted EH-table entry (`EHEnt`, the fields the flattener
writes): the interval, the parent's table index (`-1` is `none`), and
the region that produced the entry (ghost, for bookkeeping). -/
structure EHEntM where
  base : Nat
  past : Nat
  parentIndex : Option Nat
  region : Nat
deriving DecidableEq, Repr

/-- The `for (auto p = b->parent; p != nullptr; p = p->parent)` chase
of the sort comparator: is `a` an ancestor of the region whose parent
chain starts at the given link. -/
def ancChain (rs : List EHRegionM) : Nat → Option Nat → Nat → Bool
  | 0, _, _ => false
  | _ + 1, none, _ => false
  | fuel + 1, some p, a =>
      if p = a then true
      else
        match rs[p]? with
        | none => false
        | some rp => ancChain rs fuel rp.parentR a

/-- The EH sort comparator of `emit_ehent_tree`: `a` before `b` iff
`a.start < b.start`, or equal starts and `a.past > b.past`, or equal
extents and `a` an ancestor of `b`; regions are compared by identity
(modelled as list index). -/
def ehLtB (rs : List EHRegionM) (a b : Nat) : Bool :=
  if a = b then false
  else
    match rs[a]?, rs[b]? with
    | some ra, some rb =>
      if ra.start = rb.start then
        if ra.past = rb.past then ancChain rs rs.length rb.parentR a
        else decide (rb.past < ra.past)
      else decide (ra.start < rb.start)
    | _, _ => false

/-- Insertion step of the comparison sort (`std::sort` model). -/
def insertLt {α : Type} (lt : α → α → Bool) (x : α) : List α → List α
  | [] => [x]
  | y :: l => if lt y x then y :: insertLt lt x l else x :: y :: l

/-- The comparison sort used on the region list (`std::sort` model). -/
def sortLt {α : Type} (lt : α → α → Bool) : List α → List α
  | [] => []
  | x :: l => insertLt lt x (sortLt lt l)

/-- `emit_eh_region`: skip a region on a single empty block
(`start == past`), otherwise append an `EHEnt` with the interval,
resolve `parentIndex` through `parentIndexMap` (an assertion failure
if the parent was never assigned an index), and record this region's
table index.  The source's `assert(eh.m_past >= eh.m_base)` is a
failure when violated. -/
def emit_eh_region (rs : List EHRegionM) (ri : Nat) (tab : List EHEntM)
    (pim : List (Nat × Nat)) : Option (List EHEntM × List (Nat × Nat)) := do
  let r ← rs[ri]?
  if r.start = r.past then some (tab, pim)
  else if r.past < r.start then none
  else do
    let pi ← (match r.parentR with
      | none => some none
      | some p =>
        match (pim.find? (fun pr => pr.1 = p)).map (fun pr => pr.2) with
        | none => none
        | some ti => some (some ti))
    some (tab ++ [{ base := r.start, past := r.past, parentIndex := pi, region := ri }],
          pim ++ [(ri, tab.length)])

/-- The emission loop over the sorted region list. -/
def emit_eh_regions (rs : List EHRegionM) : List Nat → List EHEntM → List (Nat × Nat) →
    Option (List EHEntM × List (Nat × Nat))
  | [], tab, pim => some (tab, pim)
  | ri :: rest, tab, pim => do
      let (tab2, pim2) ← emit_eh_region rs ri tab pim
      emit_eh_regions rs rest tab2 pim2

/-- The flattening tail of `emit_ehent_tree`: sort the regions by the
comparator, then emit them in order into the EH table. -/
def emit_ehent_tab (rs : List EHRegionM) (idxs : List Nat) :
    Option (List EHEntM × List (Nat × Nat)) :=
  emit_eh_regions rs (sortLt (ehLtB rs) idxs) [] []

/-- Regions for the EH examples: a root region over bytes 0-10, a
child over 2-8, and an empty region over a single empty block. -/
def exEhRs : List EHRegionM := [
  { node := 0, parentR := none, start := 0, past := 10 },
  { node := 1, parentR := some 0, start := 2, past := 8 },
  { node := 2, parentR := some 0, start := 8, past := 8 } ]

/-- The EH table emitted for `exEhRs` when processed in sorted order. -/
def exEhOut : List EHEntM × List (Nat × Nat) :=
  (emit_ehent_tab exEhRs [2, 1, 0]).getD ([], [])

theorem insortKey_perm (key : α → Nat) (x : α) (l : List α) :
    (insortKey key x l).Perm (x :: l) := by
  induction l with
  | nil => simp [insortKey]
  | cons y l ih =>
    by_cases h : key x ≤ key y
    · simp [insortKey, h]
    · simp only [insortKey, if_neg h]
      exact (ih.cons y).trans (List.Perm.swap x y l)

theorem stableSortByKey_perm (key : α → Nat) (l : List α) :
    (stableSortByKey key l).Perm l := by
  induction l with
  | nil => simp [stableSortByKey]
  | cons x l ih => exact (insortKey_perm key x _).trans (ih.cons x)

theorem mem_insortKey {key : α → Nat} {x b : α} {l : List α} :
    b ∈ insortKey key x l ↔ b = x ∨ b ∈ l := by
  rw [(insortKey_perm key x l).mem_iff, List.mem_cons]

theorem insortKey_pairwise (key : α → Nat) (x : α) (l : List α)
    (h : l.Pairwise (fun a b => key a ≤ key b)) :
    (insortKey key x l).Pairwise (fun a b => key a ≤ key b) := by
  induction l with
  | nil => simp [insortKey]
  | cons y l ih =>
    rw [List.pairwise_cons] at h
    obtain ⟨hy, hl⟩ := h
    by_cases hxy : key x ≤ key y
    · simp only [insortKey, if_pos hxy]
      refine List.Pairwise.cons ?_ (List.Pairwise.cons hy hl)
      intro b hb
      rcases List.mem_cons.mp hb with hb | hb
      · exact hb ▸ hxy
      · exact le_trans hxy (hy b hb)
    · simp only [insortKey, if_neg hxy]
      refine List.Pairwise.cons ?_ (ih hl)
      intro b hb
      rcases mem_insortKey.mp hb with hb | hb
      · exact hb ▸ Nat.le_of_not_le hxy
      · exact hy b hb

theorem stableSortByKey_pairwise (key : α → Nat) (l : List α) :
    (stableSortByKey key l).Pairwise (fun a b => key a ≤ key b) := by
  induction l with
  | nil => simp [stableSortByKey]
  | cons x l ih => exact insortKey_pairwise key x _ ih

theorem insortKey_filter (key : α → Nat) (k : Nat) (x : α) (l : List α) :
    (insortKey key x l).filter (fun a => key a == k) =
      if key x = k then x :: l.filter (fun a => key a == k)
      else l.filter (fun a => key a == k) := by
  induction l with
  | nil =>
    by_cases h : key x = k <;> simp [insortKey, List.filter_cons, h, beq_iff_eq]
  | cons y l ih =>
    by_cases hxy : key x ≤ key y
    · simp only [insortKey, if_pos hxy, List.filter_cons]
      by_cases hx : key x = k <;> by_cases hy2 : key y = k <;>
        simp [hx, hy2, beq_iff_eq]
    · have hylt : key y < key x := Nat.lt_of_not_le (fun h => hxy h)
      simp only [insortKey, if_neg hxy, List.filter_cons]
      by_cases hx : key x = k
      · have hy2 : ¬ (key y = k) := by omega
        simp [hx, hy2, ih, beq_iff_eq]
      · by_cases hy2 : key y = k <;> simp [hx, hy2, ih, beq_iff_eq]

theorem stableSortByKey_filter (key : α → Nat) (k : Nat) (l : List α) :
    (stableSortByKey key l).filter (fun a => key a == k) =
      l.filter (fun a => key a == k) := by
  induction l with
  | nil => simp [stableSortByKey]
  | cons x l ih =>
    rw [stableSortByKey, insortKey_filter, List.filter_cons]
    by_cases h : key x = k <;> simp [h, ih]

theorem insortKey_zero (key : α → Nat) (x : α) (l : List α) (h : key x = 0) :
    insortKey key x l = x :: l := by
  cases l with
  | nil => rfl
  | cons y l => simp [insortKey, h]

theorem takeWhile_append_stop (p : α → Bool) (l1 : List α) (x : α) (l2 : List α)
    (h1 : ∀ y ∈ l1, p y = true) (h2 : p x = false) :
    (l1 ++ x :: l2).takeWhile p = l1 := by
  induction l1 with
  | nil =>
    have hx : ¬ p x = true := by simp [h2]
    simp [List.takeWhile_cons_of_neg hx]
  | cons a l1 ih =>
    have ha : p a = true := h1 a (List.mem_cons_self a l1)
    simp only [List.cons_append, List.takeWhile_cons_of_pos ha]
    rw [ih (fun y hy => h1 y (List.mem_cons_of_mem a hy))]

/-- C2: the emitted block order is the reverse-postorder from the main
entry followed by the DV-only suffix of the DV-seeded reverse
postorder, stable-sorted by section (Main = 0 < Fault = 1); the main
entry stays first, sections end up in non-decreasing order, and the
relative order within each section is preserved. -/
theorem C2_block_order (f : Func) (m0 : Nat) (mrest dvOnly : List Nat)
    (hM : f.rpoMain = m0 :: mrest)
    (hsec : sectOf f m0 = 0)
    (hblk : m0 < f.blocks.length)
    (hW : f.rpoWithDVs = dvOnly ++ f.rpoMain)
    (hdv : m0 ∉ dvOnly) :
    ∃ L f2, order_blocks f = some (L, f2) ∧
      L = stableSortByKey (sectOf f) (f.rpoMain ++ dvOnly) ∧
      L.head? = some m0 ∧
      L.Pairwise (fun a b => sectOf f a ≤ sectOf f b) ∧
      (∀ k, L.filter (fun x => sectOf f x == k) =
        (f.rpoMain ++ dvOnly).filter (fun x => sectOf f x == k)) ∧
      L.Perm (f.rpoMain ++ dvOnly) := by
  have hTW : (f.rpoWithDVs.takeWhile (fun x => x ≠ m0)) = dvOnly := by
    rw [hW, hM]
    exact takeWhile_append_stop _ dvOnly m0 mrest
      (fun y hy => by simp; exact fun h => hdv (h ▸ hy)) (by simp)
  have hL : stableSortByKey (sectOf f) (f.rpoMain ++ dvOnly) =
      m0 :: stableSortByKey (sectOf f) (mrest ++ dvOnly) := by
    rw [hM]
    show stableSortByKey (sectOf f) (m0 :: (mrest ++ dvOnly)) = _
    rw [stableSortByKey, insortKey_zero _ _ _ hsec]
  obtain ⟨fb, hfb⟩ : ∃ b, f.blocks[m0]? = some b :=
    ⟨f.blocks[m0], List.getElem?_eq_getElem hblk⟩
  refine ⟨stableSortByKey (sectOf f) (f.rpoMain ++ dvOnly),
    if is_single_nop fb then
      { f with blocks := f.blocks.set m0 { fb with hhbcs := [entryNopBc] } }
    else f, ?_, rfl, ?_, ?_, ?_, ?_⟩
  · simp only [order_blocks, hM, List.head?_cons, Option.bind_eq_bind,
      Option.some_bind, hTW]
    rw [← hM, hL, List.head?_cons]
    simp only [Option.some_bind, hfb]
    rw [← hL]
    by_cases hnop : is_single_nop fb <;> simp [hnop]
  · rw [hL, List.head?_cons]
  · exact stableSortByKey_pairwise _ _
  · exact fun k => stableSortByKey_filter _ _ _
  · exact stableSortByKey_perm _ _

theorem C2_block_order_witness :
    ∃ L f2, order_blocks exC2Func = some (L, f2) ∧
      L = stableSortByKey (sectOf exC2Func) (exC2Func.rpoMain ++ [3]) ∧
      L.head? = some 0 ∧
      L.Pairwise (fun a b => sectOf exC2Func a ≤ sectOf exC2Func b) ∧
      (∀ k, L.filter (fun x => sectOf exC2Func x == k) =
        (exC2Func.rpoMain ++ [3]).filter (fun x => sectOf exC2Func x == k)) ∧
      L.Perm (exC2Func.rpoMain ++ [3]) :=
  C2_block_order exC2Func 0 [1, 2] [3] rfl (by decide) (by decide) rfl (by decide)

theorem Item.size_pos (it : Item) : 1 ≤ it.size := by
  cases it <;> simp only [Item.size]
  all_goals first
    | omega
    | (split <;> omega)

theorem UEwf_emit {ue : UE} (h : UEwf ue) (it : Item) : UEwf (ue.emit it) := by
  obtain ⟨h1, h2⟩ := h
  constructor
  · refine List.pairwise_append.mpr ⟨h1, List.pairwise_singleton _ _, ?_⟩
    intro a ha b hb
    have hb2 : b = (ue.bcPos, it) := by simpa using hb
    have ha2 := h2 a ha
    have ha3 := Item.size_pos a.2
    subst hb2
    show a.1 < ue.bcPos
    omega
  · intro p hp
    rcases List.mem_append.mp hp with hp | hp
    · have hp2 := h2 p hp
      have hp3 := Item.size_pos it
      show p.1 + p.2.size ≤ ue.bcPos + it.size
      omega
    · have hp2 : p = (ue.bcPos, it) := by simpa using hp
      subst hp2
      simp [UE.emit]

theorem UE.emit_pos (ue : UE) (it : Item) : (ue.emit it).bcPos = ue.bcPos + it.size := rfl

theorem itemAt_emit_lt {ue : UE} (it : Item) {o : Nat} (ho : o < ue.bcPos) :
    (ue.emit it).itemAt o = ue.itemAt o := by
  unfold UE.itemAt UE.emit
  simp only
  rw [List.find?_append]
  cases hf : ue.bcItems.find? (fun p => p.1 = o) with
  | some p => simp [hf]
  | none =>
    have hne : ¬ (ue.bcPos = o) := Ne.symm (Nat.ne_of_lt ho)
    simp [hf, List.find?_cons, hne]

theorem itemAt_emit_self {ue : UE} (h : UEwf ue) (it : Item) :
    (ue.emit it).itemAt ue.bcPos = some it := by
  unfold UE.itemAt UE.emit
  simp only
  rw [List.find?_append]
  have hnone : ue.bcItems.find? (fun p => p.1 = ue.bcPos) = none := by
    rw [List.find?_eq_none]
    intro p hp
    have hp2 := h.2 p hp
    have hp3 := Item.size_pos p.2
    simp only [decide_eq_true_eq]
    omega
  simp [hnone, List.find?_cons]

theorem patchItem_fst (off : Nat) (v : Nat) (p : Nat × Item) :
    (patchItem off v p).1 = p.1 := by
  rcases p with ⟨o, it⟩
  cases it <;> simp only [patchItem]
  split <;> rfl

theorem patchItem_size (off : Nat) (v : Nat) (p : Nat × Item) :
    (patchItem off v p).2.size = p.2.size := by
  rcases p with ⟨o, it⟩
  cases it <;> simp only [patchItem] <;> try rfl
  split <;> rfl

theorem patchItem_of_ne (off : Nat) (v : Nat) (p : Nat × Item) (h : p.1 ≠ off) :
    patchItem off v p = p := by
  rcases p with ⟨o, it⟩
  cases it <;> simp only [patchItem]
  simp only at h
  rw [if_neg h]

theorem find?_map_patchItem (off : Nat) (v : Nat) (o : Nat) (l : List (Nat × Item)) :
    (l.map (patchItem off v)).find? (fun p => p.1 = o) =
      (l.find? (fun p => p.1 = o)).map (patchItem off v) := by
  induction l with
  | nil => rfl
  | cons a l ih =>
    rw [List.map_cons, List.find?_cons, List.find?_cons]
    by_cases h : a.1 = o
    · simp [patchItem_fst, h]
    · simp [patchItem_fst, h, ih]

theorem itemAt_patch_ne (ue : UE) (off : Nat) (v : Nat) (o : Nat) (hne : o ≠ off) :
    (ue.patch32 off v).itemAt o = ue.itemAt o := by
  unfold UE.itemAt UE.patch32
  simp only
  rw [find?_map_patchItem]
  cases hf : ue.bcItems.find? (fun p => p.1 = o) with
  | none => rfl
  | some p =>
    have hp : p.1 = o := by
      have := List.find?_some hf
      simpa using this
    simp [patchItem_of_ne off v p (fun h => hne (hp.symm.trans h))]

theorem itemAt_patch_eq (ue : UE) (off : Nat) (v : Nat) (w : Nat)
    (h : ue.itemAt off = some (Item.int32 w)) :
    (ue.patch32 off v).itemAt off = some (Item.int32 v) := by
  unfold UE.itemAt at h ⊢
  unfold UE.patch32
  simp only
  rw [find?_map_patchItem]
  cases hf : ue.bcItems.find? (fun p => p.1 = off) with
  | none => rw [hf] at h; simp at h
  | some p =>
    rw [hf] at h
    have hp2 : p.2 = Item.int32 w := by simpa using h
    have hp1 : p.1 = off := by
      have := List.find?_some hf
      simpa using this
    rcases p with ⟨po, pit⟩
    simp only at hp1 hp2
    subst hp1; subst hp2
    simp [patchItem]

theorem UEwf_patch {ue : UE} (h : UEwf ue) (off : Nat) (v : Nat) :
    UEwf (ue.patch32 off v) := by
  obtain ⟨h1, h2⟩ := h
  constructor
  · unfold UE.patch32
    simp only
    rw [List.pairwise_map]
    exact h1.imp (fun hab => by rw [patchItem_fst, patchItem_fst]; exact hab)
  · intro p hp
    unfold UE.patch32 at hp
    simp only [List.mem_map] at hp
    obtain ⟨q, hq, rfl⟩ := hp
    rw [patchItem_fst, patchItem_size]
    exact h2 q hq

theorem UE.patch32_pos (ue : UE) (off : Nat) (v : Nat) :
    (ue.patch32 off v).bcPos = ue.bcPos := rfl

theorem itemAt_congr {u v : UE} (h : v.bcItems = u.bcItems) (o : Nat) :
    v.itemAt o = u.itemAt o := by
  unfold UE.itemAt
  rw [h]

theorem UEwf_congr {u v : UE} (hi : v.bcItems = u.bcItems) (hp : v.bcPos = u.bcPos)
    (h : UEwf u) : UEwf v := by
  unfold UEwf
  rw [hi, hp]
  exact h

theorem branchResolved_of {s t : EmitState} (r : BranchRec)
    (hbi : t.blockInfo = s.blockInfo)
    (hit : t.ue.itemAt r.jmpImmedOff = s.ue.itemAt r.jmpImmedOff)
    (h : branchResolved s r) : branchResolved t r := by
  obtain ⟨bi, h1, h2⟩ := h
  refine ⟨bi, hbi ▸ h1, ?_⟩
  rcases h2 with ⟨o, ho, hval⟩ | ⟨hnone, hmem, hval⟩
  · exact Or.inl ⟨o, ho, by rw [hit]; exact hval⟩
  · exact Or.inr ⟨hnone, hmem, by rw [hit]; exact hval⟩

theorem EInv_congr {s t : EmitState} (h : EInv s)
    (hitems : t.ue.bcItems = s.ue.bcItems) (hpos : t.ue.bcPos = s.ue.bcPos)
    (hbi : t.blockInfo = s.blockInfo) (hcur : t.curDepth = s.curDepth)
    (hstk : t.fpiStack = s.fpiStack) (hregs : t.fpiRegions = s.fpiRegions)
    (hlast : t.lastOff = s.lastOff) (hdcm : t.defClsMap = s.defClsMap)
    (hgb : t.gBranches = s.gBranches) (hgd : t.gDepthSets = s.gDepthSets)
    (hgf : t.gFpiSets = s.gFpiSets) (hge : t.gEntryDepths = s.gEntryDepths)
    (hgfe : t.gFpiEntries = s.gFpiEntries) (hgdep : t.gDepths = s.gDepths)
    (hgr : t.gRetDepths = s.gRetDepths) (hgdc : t.gDefCls = s.gDefCls)
    (hgc : t.gCloses = s.gCloses) : EInv t := by
  obtain ⟨hbr, hdep, hfpi, hdef⟩ := h
  refine ⟨⟨?_, ?_, ?_, ?_, ?_, ?_⟩,
          ⟨?_, ?_, ?_, ?_, ?_, ?_, ?_, ?_, ?_, ?_⟩,
          ⟨?_, ?_, ?_, ?_, ?_, ?_, ?_, ?_, ?_, ?_, ?_⟩, ⟨?_, ?_⟩⟩
  · exact UEwf_congr hitems hpos hbr.ueWF
  · intro r hr
    rw [hgb] at hr
    exact branchResolved_of r hbi (itemAt_congr hitems _) (hbr.brs r hr)
  · intro r hr
    rw [hgb] at hr
    rw [hpos]
    exact hbr.brsPos r hr
  · rw [hgb]; exact hbr.brsInc
  · intro b bi hb fx hfx
    rw [hbi] at hb
    rw [hgb]
    exact hbr.fixMem b bi hb fx hfx
  · intro b bi hb
    rw [hbi] at hb
    exact hbr.fixInc b bi hb
  · intro pr hpr
    rw [hgd] at hpr
    rw [hbi]
    exact hdep.dset pr hpr
  · intro pr hpr
    rw [hge] at hpr
    rw [hbi]
    exact hdep.dent pr hpr
  · intro b bi d hb hd
    rw [hbi] at hb
    rw [hgd, hge]
    exact hdep.dorigin b bi d hb hd
  · intro pr hpr
    rw [hgf] at hpr
    rw [hbi]
    exact hdep.fset pr hpr
  · intro pr hpr
    rw [hgfe] at hpr
    rw [hbi]
    exact hdep.fent pr hpr
  · intro b bi d hb hd
    rw [hbi] at hb
    rw [hgf, hgfe]
    exact hdep.forigin b bi d hb hd
  · rw [hcur]; exact hdep.curNN
  · intro b bi d hb hd
    rw [hbi] at hb
    exact hdep.expNN b bi d hb hd
  · intro d hd
    rw [hgdep] at hd
    exact hdep.depNN d hd
  · intro d hd
    rw [hgr] at hd
    exact hdep.retOne d hd
  · rw [hlast, hpos]; exact hfpi.lastLe
  · intro o ho
    rw [hstk] at ho
    rw [hpos]
    exact hfpi.stackLt o ho
  · intro o ho
    rw [hstk] at ho
    rw [hlast]
    exact hfpi.stackLast o ho
  · intro o ho
    rw [hstk] at ho
    exact hfpi.stackOpen o ho
  · rw [hstk]; exact hfpi.stackOrd
  · intro r hr
    rw [hregs] at hr
    rw [hlast]
    exact hfpi.regsOk r hr
  · rw [hregs]; exact hfpi.regsNest
  · intro r hr o ho
    rw [hregs] at hr
    rw [hstk] at ho
    exact hfpi.crossOk r hr o ho
  · rw [hregs, hgc]; exact hfpi.regsCloses
  · intro rc hrc
    rw [hgc] at hrc
    exact hfpi.closesOk rc hrc
  · intro o ho
    rw [hstk] at ho
    exact hfpi.stkDelta o ho
  · intro pr hpr
    rw [hgdc] at hpr
    rw [hdcm]
    exact hdef.defg pr hpr
  · rw [hgdc]; exact hdef.defNodup

theorem inv_emitIt {s : EmitState} (h : EInv s) (it : Item) : EInv (emitIt it s) := by
  obtain ⟨hbr, hdep, hfpi, hdef⟩ := h
  refine ⟨⟨UEwf_emit hbr.ueWF it, ?_, ?_, hbr.brsInc, hbr.fixMem, hbr.fixInc⟩,
          ⟨hdep.dset, hdep.dent, hdep.dorigin, hdep.fset, hdep.fent, hdep.forigin,
           hdep.curNN, hdep.expNN, hdep.depNN, hdep.retOne⟩,
          ⟨?_, ?_, hfpi.stackLast, hfpi.stackOpen, hfpi.stackOrd, hfpi.regsOk,
           hfpi.regsNest, hfpi.crossOk, hfpi.regsCloses, hfpi.closesOk, hfpi.stkDelta⟩,
          ⟨hdef.defg, hdef.defNodup⟩⟩
  · intro r hr
    refine branchResolved_of (s := s) (t := emitIt it s) r rfl ?_ (hbr.brs r hr)
    exact itemAt_emit_lt it (by have h4 := hbr.brsPos r hr; omega)
  · intro r hr
    have h4 := hbr.brsPos r hr
    have h5 := Item.size_pos it
    show r.jmpImmedOff + 4 ≤ s.ue.bcPos + it.size
    omega
  · show s.lastOff ≤ s.ue.bcPos + it.size
    have h4 := Item.size_pos it
    have h5 := hfpi.lastLe
    omega
  · intro o ho
    have h4 := hfpi.stackLt o ho
    have h5 := Item.size_pos it
    show o.fpushOff < s.ue.bcPos + it.size
    omega

theorem inv_emitI32 {s : EmitState} (h : EInv s) (v : Int) : EInv (emitI32 v s) :=
  inv_emitIt h _

theorem inv_emitLitstrId {s : EmitState} (h : EInv s) (str : Nat) :
    EInv (emitLitstrId str s) := by
  unfold emitLitstrId UE.mergeLitstr
  cases hio : s.ue.litstrs.indexOf? str with
  | some i => exact inv_emitI32 h _
  | none =>
    apply inv_emitI32
    exact EInv_congr h rfl rfl rfl rfl rfl rfl rfl rfl rfl rfl rfl rfl rfl rfl rfl rfl rfl

theorem inv_emitArrayId {s : EmitState} (h : EInv s) (a : Nat) :
    EInv (emitArrayId a s) := by
  unfold emitArrayId UE.mergeArray
  cases hio : s.ue.arrays.indexOf? a with
  | some i => exact inv_emitI32 h _
  | none =>
    apply inv_emitI32
    exact EInv_congr h rfl rfl rfl rfl rfl rfl rfl rfl rfl rfl rfl rfl rfl rfl rfl rfl rfl

theorem inv_emit_srcloc {s : EmitState} (h : EInv s) (inst : Bc) (so : Nat) :
    EInv (emit_srcloc inst so s) := by
  unfold emit_srcloc
  split
  · exact EInv_congr h rfl rfl rfl rfl rfl rfl rfl rfl rfl rfl rfl rfl rfl rfl rfl rfl rfl
  · exact h

theorem inv_pushD {s : EmitState} (h : EInv s) (n : Nat) : EInv (pushD n s) := by
  obtain ⟨hbr, hdep, hfpi, hdef⟩ := h
  refine ⟨⟨hbr.ueWF, hbr.brs, hbr.brsPos, hbr.brsInc, hbr.fixMem, hbr.fixInc⟩,
          ⟨hdep.dset, hdep.dent, hdep.dorigin, hdep.fset, hdep.fent, hdep.forigin,
           ?_, hdep.expNN, ?_, hdep.retOne⟩,
          ⟨hfpi.lastLe, hfpi.stackLt, hfpi.stackLast, hfpi.stackOpen, hfpi.stackOrd,
           hfpi.regsOk, hfpi.regsNest, hfpi.crossOk, hfpi.regsCloses, hfpi.closesOk,
           hfpi.stkDelta⟩,
          ⟨hdef.defg, hdef.defNodup⟩⟩
  · show 0 ≤ s.curDepth + (n : Int)
    have h4 := hdep.curNN
    omega
  · intro d hd
    rcases List.mem_append.mp hd with hd | hd
    · exact hdep.depNN d hd
    · have hd2 : d = s.curDepth + (n : Int) := by simpa using hd
      have h4 := hdep.curNN
      omega

theorem inv_popD {s t : EmitState} (n : Nat) (h : popD n s = some t) (hi : EInv s) :
    EInv t ∧ t.curDepth = s.curDepth - (n : Int) := by
  unfold popD at h
  split at h
  · exact absurd h (by simp)
  · rename_i hge
    injection h with h
    subst h
    obtain ⟨hbr, hdep, hfpi, hdef⟩ := hi
    refine ⟨⟨⟨hbr.ueWF, hbr.brs, hbr.brsPos, hbr.brsInc, hbr.fixMem, hbr.fixInc⟩,
          ⟨hdep.dset, hdep.dent, hdep.dorigin, hdep.fset, hdep.fent, hdep.forigin,
           ?_, hdep.expNN, ?_, hdep.retOne⟩,
          ⟨hfpi.lastLe, hfpi.stackLt, hfpi.stackLast, hfpi.stackOpen, hfpi.stackOrd,
           hfpi.regsOk, hfpi.regsNest, hfpi.crossOk, hfpi.regsCloses, hfpi.closesOk,
           hfpi.stkDelta⟩,
          ⟨hdef.defg, hdef.defNodup⟩⟩, rfl⟩
    · show 0 ≤ s.curDepth - (n : Int)
      omega
    · intro d hd
      rcases List.mem_append.mp hd with hd | hd
      · exact hdep.depNN d hd
      · have hd2 : d = s.curDepth - (n : Int) := by simpa using hd
        omega

theorem inv_ret_assert {s t : EmitState} (h : ret_assert s = some t) (hi : EInv s) :
    EInv t ∧ s.curDepth = 1 := by
  unfold ret_assert at h
  split at h
  · rename_i hone
    injection h with h
    subst h
    obtain ⟨hbr, hdep, hfpi, hdef⟩ := hi
    refine ⟨⟨⟨hbr.ueWF, hbr.brs, hbr.brsPos, hbr.brsInc, hbr.fixMem, hbr.fixInc⟩,
          ⟨hdep.dset, hdep.dent, hdep.dorigin, hdep.fset, hdep.fent, hdep.forigin,
           hdep.curNN, hdep.expNN, hdep.depNN, ?_⟩,
          ⟨hfpi.lastLe, hfpi.stackLt, hfpi.stackLast, hfpi.stackOpen, hfpi.stackOrd,
           hfpi.regsOk, hfpi.regsNest, hfpi.crossOk, hfpi.regsCloses, hfpi.closesOk,
           hfpi.stkDelta⟩,
          ⟨hdef.defg, hdef.defNodup⟩⟩, hone⟩
    intro d hd
    rcases List.mem_append.mp hd with hd | hd
    · exact hdep.retOne d hd
    · have hd2 : d = s.curDepth := by simpa using hd
      omega
  · exact absurd h (by simp)

theorem lookup_lt {α : Type} {l : List α} {i : Nat} {a : α} (h : l[i]? = some a) :
    i < l.length := by
  rcases List.getElem?_eq_some_iff.mp h with ⟨hlt, _⟩
  exact hlt

theorem updExpStack_spec {cur : Int} {info info2 : BlockInfo}
    (h : updExpStack cur info = some info2) :
    info2.expectedStackDepth = some cur ∧
    info2.offset = info.offset ∧ info2.past = info.past ∧
    info2.regionsToPop = info.regionsToPop ∧
    info2.forwardJumps = info.forwardJumps ∧
    info2.expectedFPIDepth = info.expectedFPIDepth ∧
    (info.expectedStackDepth = none ∨ info.expectedStackDepth = some cur) := by
  unfold updExpStack at h
  cases hesd : info.expectedStackDepth with
  | some d =>
    rw [hesd] at h
    simp only at h
    split at h
    · rename_i hdc
      injection h with h
      subst h
      exact ⟨by simp [hesd, hdc], rfl, rfl, rfl, rfl, rfl, Or.inr (by simp [hesd, hdc])⟩
    · exact absurd h (by simp)
  | none =>
    rw [hesd] at h
    simp only at h
    injection h with h
    subst h
    exact ⟨rfl, rfl, rfl, rfl, rfl, rfl, Or.inl (by simp [hesd])⟩

theorem updExpFpi_spec {fd : Nat} {info info2 : BlockInfo}
    (h : updExpFpi fd info = some info2) :
    info2.expectedFPIDepth = some fd ∧
    info2.offset = info.offset ∧ info2.past = info.past ∧
    info2.regionsToPop = info.regionsToPop ∧
    info2.forwardJumps = info.forwardJumps ∧
    info2.expectedStackDepth = info.expectedStackDepth ∧
    (info.expectedFPIDepth = none ∨ info.expectedFPIDepth = some fd) := by
  unfold updExpFpi at h
  cases hesd : info.expectedFPIDepth with
  | some d =>
    rw [hesd] at h
    simp only at h
    split at h
    · rename_i hdc
      injection h with h
      subst h
      exact ⟨by simp [hesd, hdc], rfl, rfl, rfl, rfl, rfl, Or.inr (by simp [hesd, hdc])⟩
    · exact absurd h (by simp)
  | none =>
    rw [hesd] at h
    simp only at h
    injection h with h
    subst h
    exact ⟨rfl, rfl, rfl, rfl, rfl, rfl, Or.inl (by simp [hesd])⟩

theorem set_expected_depth_spec {s t : EmitState} {bid : Nat}
    (h : set_expected_depth bid s = some t) :
    ∃ info info2, s.blockInfo[bid]? = some info ∧
      info2.offset = info.offset ∧ info2.forwardJumps = info.forwardJumps ∧
      info2.past = info.past ∧ info2.regionsToPop = info.regionsToPop ∧
      info2.expectedStackDepth = some s.curDepth ∧
      info2.expectedFPIDepth = some s.fpiStack.length ∧
      (info.expectedStackDepth = none ∨ info.expectedStackDepth = some s.curDepth) ∧
      (info.expectedFPIDepth = none ∨ info.expectedFPIDepth = some s.fpiStack.length) ∧
      t = { s with blockInfo := s.blockInfo.set bid info2,
                   gDepthSets := s.gDepthSets ++ [(bid, s.curDepth)],
                   gFpiSets := s.gFpiSets ++ [(bid, s.fpiStack.length)] } := by
  unfold set_expected_depth at h
  cases hbi : s.blockInfo[bid]? with
  | none => rw [hbi] at h; exact absurd h (by simp)
  | some info =>
    rw [hbi] at h
    simp only [Option.bind_eq_bind, Option.some_bind] at h
    cases h1 : updExpStack s.curDepth info with
    | none => rw [h1] at h; exact absurd h (by simp)
    | some infoA =>
      rw [h1] at h
      simp only [Option.bind_eq_bind, Option.some_bind] at h
      cases h2 : updExpFpi s.fpiStack.length infoA with
      | none => rw [h2] at h; exact absurd h (by simp)
      | some infoB =>
        rw [h2] at h
        simp only [Option.bind_eq_bind, Option.some_bind] at h
        injection h with h
        obtain ⟨sA1, sA2, sA3, sA4, sA5, sA6, sA7⟩ := updExpStack_spec h1
        obtain ⟨sB1, sB2, sB3, sB4, sB5, sB6, sB7⟩ := updExpFpi_spec h2
        refine ⟨info, infoB, rfl, ?_, ?_, ?_, ?_, ?_, ?_, ?_, ?_, h.symm⟩
        · rw [sB2, sA2]
        · rw [sB5, sA5]
        · rw [sB3, sA3]
        · rw [sB4, sA4]
        · rw [sB6, sA1]
        · exact sB1
        · exact sA7
        · rw [sA6] at sB7
          exact sB7

theorem inv_set_expected_depth {s t : EmitState} {bid : Nat}
    (h : set_expected_depth bid s = some t) (hi : EInv s) : EInv t := by
  obtain ⟨info, info2, hbi, hOff, hFwd, hPast, hRtp, hEsd, hEfd, hOld, hOldF, ht⟩ :=
    set_expected_depth_spec h
  have hlt : bid < s.blockInfo.length := lookup_lt hbi
  obtain ⟨hbr, hdep, hfpi, hdef⟩ := hi
  subst ht
  have hbieq : ∀ {bi : BlockInfo}, s.blockInfo[bid]? = some bi → bi = info := by
    intro bi hb
    rw [hbi] at hb
    exact (Option.some_inj.mp hb).symm
  have hget : ∀ c : Nat, (s.blockInfo.set bid info2)[c]? =
      if c = bid then some info2 else s.blockInfo[c]? := by
    intro c
    by_cases hc : c = bid
    · subst hc
      rw [if_pos rfl]
      exact List.getElem?_set_self hlt
    · rw [if_neg hc]
      exact List.getElem?_set_ne (fun hh => hc hh.symm)
  refine ⟨⟨hbr.ueWF, ?_, hbr.brsPos, hbr.brsInc, ?_, ?_⟩,
          ⟨?_, ?_, ?_, ?_, ?_, ?_, hdep.curNN, ?_, hdep.depNN, hdep.retOne⟩,
          ⟨hfpi.lastLe, hfpi.stackLt, hfpi.stackLast, hfpi.stackOpen, hfpi.stackOrd,
           hfpi.regsOk, hfpi.regsNest, hfpi.crossOk, hfpi.regsCloses, hfpi.closesOk,
           hfpi.stkDelta⟩,
          ⟨hdef.defg, hdef.defNodup⟩⟩
  · intro r hr
    obtain ⟨bi, hbi2, hcase⟩ := hbr.brs r hr
    by_cases hc : r.target = bid
    · subst hc
      have hbeq := hbieq hbi2
      subst hbeq
      refine ⟨info2, ?_, ?_⟩
      · show (s.blockInfo.set _ info2)[r.target]? = some info2
        rw [hget, if_pos rfl]
      · rcases hcase with ⟨o, ho, hv⟩ | ⟨hn, hm, hv⟩
        · exact Or.inl ⟨o, by rw [hOff]; exact ho, hv⟩
        · exact Or.inr ⟨by rw [hOff]; exact hn, by rw [hFwd]; exact hm, hv⟩
    · refine ⟨bi, ?_, hcase⟩
      show (s.blockInfo.set bid info2)[r.target]? = some bi
      rw [hget, if_neg hc]
      exact hbi2
  · intro b bi hb fx hfx
    rw [hget] at hb
    by_cases hc : b = bid
    · rw [if_pos hc] at hb
      have : bi = info2 := (Option.some_inj.mp hb).symm
      subst this
      subst hc
      rw [hFwd] at hfx
      exact hbr.fixMem b info hbi fx hfx
    · rw [if_neg hc] at hb
      exact hbr.fixMem b bi hb fx hfx
  · intro b bi hb
    rw [hget] at hb
    by_cases hc : b = bid
    · rw [if_pos hc] at hb
      have : bi = info2 := (Option.some_inj.mp hb).symm
      subst this
      rw [hFwd]
      exact hbr.fixInc bid info hbi
    · rw [if_neg hc] at hb
      exact hbr.fixInc b bi hb
  · intro pr hpr
    rcases List.mem_append.mp hpr with hpr | hpr
    · obtain ⟨bi, hb, he⟩ := hdep.dset pr hpr
      by_cases hc : pr.1 = bid
      · have hbeq := hbieq (hc ▸ hb)
        subst hbeq
        rcases hOld with hO | hO
        · rw [hO] at he; exact absurd he (by simp)
        · rw [hO] at he
          refine ⟨info2, ?_, ?_⟩
          · rw [hget, if_pos hc]
          · rw [hEsd, he]
      · exact ⟨bi, by rw [hget, if_neg hc]; exact hb, he⟩
    · have hpr2 : pr = (bid, s.curDepth) := by simpa using hpr
      subst hpr2
      exact ⟨info2, by rw [hget, if_pos rfl], hEsd⟩
  · intro pr hpr
    obtain ⟨bi, hb, he⟩ := hdep.dent pr hpr
    by_cases hc : pr.1 = bid
    · have hbeq := hbieq (hc ▸ hb)
      subst hbeq
      rcases hOld with hO | hO
      · rw [hO] at he; exact absurd he (by simp)
      · rw [hO] at he
        exact ⟨info2, by rw [hget, if_pos hc], by rw [hEsd, he]⟩
    · exact ⟨bi, by rw [hget, if_neg hc]; exact hb, he⟩
  · intro b bi d hb he
    rw [hget] at hb
    by_cases hc : b = bid
    · rw [if_pos hc] at hb
      have : bi = info2 := (Option.some_inj.mp hb).symm
      subst this
      rw [hEsd] at he
      have hd : d = s.curDepth := (Option.some_inj.mp he).symm
      subst hd
      subst hc
      exact Or.inl (List.mem_append.mpr (Or.inr (by simp)))
    · rw [if_neg hc] at hb
      rcases hdep.dorigin b bi d hb he with hO | hO
      · exact Or.inl (List.mem_append.mpr (Or.inl hO))
      · exact Or.inr hO
  · intro pr hpr
    rcases List.mem_append.mp hpr with hpr | hpr
    · obtain ⟨bi, hb, he⟩ := hdep.fset pr hpr
      by_cases hc : pr.1 = bid
      · have hbeq := hbieq (hc ▸ hb)
        subst hbeq
        rcases hOldF with hO | hO
        · rw [hO] at he; exact absurd he (by simp)
        · rw [hO] at he
          exact ⟨info2, by rw [hget, if_pos hc], by rw [hEfd, he]⟩
      · exact ⟨bi, by rw [hget, if_neg hc]; exact hb, he⟩
    · have hpr2 : pr = (bid, s.fpiStack.length) := by simpa using hpr
      subst hpr2
      exact ⟨info2, by rw [hget, if_pos rfl], hEfd⟩
  · intro pr hpr
    obtain ⟨bi, hb, he⟩ := hdep.fent pr hpr
    by_cases hc : pr.1 = bid
    · have hbeq := hbieq (hc ▸ hb)
      subst hbeq
      rcases hOldF with hO | hO
      · rw [hO] at he; exact absurd he (by simp)
      · rw [hO] at he
        exact ⟨info2, by rw [hget, if_pos hc], by rw [hEfd, he]⟩
    · exact ⟨bi, by rw [hget, if_neg hc]; exact hb, he⟩
  · intro b bi d hb he
    rw [hget] at hb
    by_cases hc : b = bid
    · rw [if_pos hc] at hb
      have : bi = info2 := (Option.some_inj.mp hb).symm
      subst this
      rw [hEfd] at he
      have hd : d = s.fpiStack.length := (Option.some_inj.mp he).symm
      subst hd
      subst hc
      exact Or.inl (List.mem_append.mpr (Or.inr (by simp)))
    · rw [if_neg hc] at hb
      rcases hdep.forigin b bi d hb he with hO | hO
      · exact Or.inl (List.mem_append.mpr (Or.inl hO))
      · exact Or.inr hO
  · intro b bi d hb he
    rw [hget] at hb
    by_cases hc : b = bid
    · rw [if_pos hc] at hb
      have : bi = info2 := (Option.some_inj.mp hb).symm
      subst this
      rw [hEsd] at he
      have hd : d = s.curDepth := (Option.some_inj.mp he).symm
      subst hd
      exact hdep.curNN
    · rw [if_neg hc] at hb
      exact hdep.expNN b bi d hb he

theorem map_lookup_some {α β : Type} {l : List α} {c : Nat} {f : α → β} {v : β}
    (h : (l[c]?).map f = some v) : ∃ a, l[c]? = some a ∧ f a = v := by
  cases hl : l[c]? with
  | none => rw [hl] at h; exact absurd h (by simp)
  | some a =>
    rw [hl] at h
    exact ⟨a, rfl, by simpa using h⟩

theorem InvBr_transfer {s t : EmitState}
    (hue : t.ue = s.ue) (hgb : t.gBranches = s.gBranches)
    (hoff : ∀ c : Nat, (t.blockInfo[c]?).map (fun bi => bi.offset) =
        (s.blockInfo[c]?).map (fun bi => bi.offset))
    (hfwd : ∀ c : Nat, (t.blockInfo[c]?).map (fun bi => bi.forwardJumps) =
        (s.blockInfo[c]?).map (fun bi => bi.forwardJumps))
    (h : InvBr s) : InvBr t := by
  refine ⟨by rw [hue]; exact h.ueWF, ?_, ?_, by rw [hgb]; exact h.brsInc, ?_, ?_⟩
  · intro r hr
    rw [hgb] at hr
    obtain ⟨bi, hb, hcase⟩ := h.brs r hr
    have h1 := hoff r.target
    have h2 := hfwd r.target
    rw [hb] at h1 h2
    cases hl : t.blockInfo[r.target]? with
    | none => rw [hl] at h1; exact absurd h1 (by simp)
    | some bi2 =>
      rw [hl] at h1 h2
      have e1 : bi2.offset = bi.offset := by simpa using h1
      have e2 : bi2.forwardJumps = bi.forwardJumps := by simpa using h2
      refine ⟨bi2, hl, ?_⟩
      rcases hcase with ⟨o, ho, hv⟩ | ⟨hn, hm, hv⟩
      · exact Or.inl ⟨o, by rw [e1]; exact ho, by rw [hue]; exact hv⟩
      · exact Or.inr ⟨by rw [e1]; exact hn, by rw [e2]; exact hm, by rw [hue]; exact hv⟩
  · intro r hr
    rw [hgb] at hr
    rw [hue]
    exact h.brsPos r hr
  · intro b bi2 hb fx hfx
    have h2 := hfwd b
    rw [hb] at h2
    obtain ⟨bi, hbs, he⟩ := map_lookup_some h2.symm
    rw [hgb]
    have he2 : bi.forwardJumps = bi2.forwardJumps := he
    exact h.fixMem b bi hbs fx (by rw [he2]; exact hfx)
  · intro b bi2 hb
    have h2 := hfwd b
    rw [hb] at h2
    obtain ⟨bi, hbs, he⟩ := map_lookup_some h2.symm
    have he2 : bi.forwardJumps = bi2.forwardJumps := he
    rw [← he2]
    exact h.fixInc b bi hbs

theorem InvDepth_transfer {s t : EmitState}
    (hexp : ∀ c : Nat, (t.blockInfo[c]?).map (fun bi => bi.expectedStackDepth) =
        (s.blockInfo[c]?).map (fun bi => bi.expectedStackDepth))
    (hexpf : ∀ c : Nat, (t.blockInfo[c]?).map (fun bi => bi.expectedFPIDepth) =
        (s.blockInfo[c]?).map (fun bi => bi.expectedFPIDepth))
    (hgd : t.gDepthSets = s.gDepthSets) (hge : t.gEntryDepths = s.gEntryDepths)
    (hgf : t.gFpiSets = s.gFpiSets) (hgfe : t.gFpiEntries = s.gFpiEntries)
    (hcur : t.curDepth = s.curDepth) (hgdep : t.gDepths = s.gDepths)
    (hgr : t.gRetDepths = s.gRetDepths)
    (h : InvDepth s) : InvDepth t := by
  have lkS : ∀ (c : Nat) (bi : BlockInfo), s.blockInfo[c]? = some bi →
      ∃ bi2, t.blockInfo[c]? = some bi2 ∧
        bi2.expectedStackDepth = bi.expectedStackDepth ∧
        bi2.expectedFPIDepth = bi.expectedFPIDepth := by
    intro c bi hb
    have h1 := hexp c
    have h2 := hexpf c
    rw [hb] at h1 h2
    obtain ⟨bi2, hbt, he⟩ := map_lookup_some h1
    rw [hbt] at h2
    exact ⟨bi2, hbt, he, by simpa using h2⟩
  have lkT : ∀ (c : Nat) (bi2 : BlockInfo), t.blockInfo[c]? = some bi2 →
      ∃ bi, s.blockInfo[c]? = some bi ∧
        bi.expectedStackDepth = bi2.expectedStackDepth ∧
        bi.expectedFPIDepth = bi2.expectedFPIDepth := by
    intro c bi2 hb
    have h1 := hexp c
    have h2 := hexpf c
    rw [hb] at h1 h2
    obtain ⟨bi, hbs, he⟩ := map_lookup_some h1.symm
    rw [hbs] at h2
    have h3 : bi2.expectedFPIDepth = bi.expectedFPIDepth := by simpa using h2
    exact ⟨bi, hbs, he, h3.symm⟩
  refine ⟨?_, ?_, ?_, ?_, ?_, ?_, by rw [hcur]; exact h.curNN, ?_, ?_, ?_⟩
  · intro pr hpr
    rw [hgd] at hpr
    obtain ⟨bi, hb, he⟩ := h.dset pr hpr
    obtain ⟨bi2, hbt, he2, _⟩ := lkS pr.1 bi hb
    exact ⟨bi2, hbt, he2.trans he⟩
  · intro pr hpr
    rw [hge] at hpr
    obtain ⟨bi, hb, he⟩ := h.dent pr hpr
    obtain ⟨bi2, hbt, he2, _⟩ := lkS pr.1 bi hb
    exact ⟨bi2, hbt, he2.trans he⟩
  · intro b bi2 d hb he
    obtain ⟨bi, hbs, he2, _⟩ := lkT b bi2 hb
    rw [hgd, hge]
    exact h.dorigin b bi d hbs (he2.trans he)
  · intro pr hpr
    rw [hgf] at hpr
    obtain ⟨bi, hb, he⟩ := h.fset pr hpr
    obtain ⟨bi2, hbt, _, he2⟩ := lkS pr.1 bi hb
    exact ⟨bi2, hbt, he2.trans he⟩
  · intro pr hpr
    rw [hgfe] at hpr
    obtain ⟨bi, hb, he⟩ := h.fent pr hpr
    obtain ⟨bi2, hbt, _, he2⟩ := lkS pr.1 bi hb
    exact ⟨bi2, hbt, he2.trans he⟩
  · intro b bi2 d hb he
    obtain ⟨bi, hbs, _, he2⟩ := lkT b bi2 hb
    rw [hgf, hgfe]
    exact h.forigin b bi d hbs (he2.trans he)
  · intro b bi2 d hb he
    obtain ⟨bi, hbs, he2, _⟩ := lkT b bi2 hb
    exact h.expNN b bi d hbs (he2.trans he)
  · intro d hd
    rw [hgdep] at hd
    exact h.depNN d hd
  · intro d hd
    rw [hgr] at hd
    exact h.retOne d hd

theorem inv_emit_branch {s t : EmitState} {so bid : Nat}
    (h : emit_branch so bid s = some t) (hi : EInv s) : EInv t ∧ Mid s t := by
  unfold emit_branch at h
  cases hsed : set_expected_depth bid s with
  | none => rw [hsed] at h; exact absurd h (by simp)
  | some s1 =>
    rw [hsed] at h
    simp only [Option.bind_eq_bind, Option.some_bind] at h
    obtain ⟨info, infoS, hbi, hOff, hFwd, hPast, hRtp, hEsd, hEfd, hOld, hOldF, ht1⟩ :=
      set_expected_depth_spec hsed
    have hinv1 : EInv s1 := inv_set_expected_depth hsed hi
    have hlt : bid < s.blockInfo.length := lookup_lt hbi
    have hlt1 : bid < s1.blockInfo.length := by
      rw [ht1]
      simpa using hlt
    have hbi1 : s1.blockInfo[bid]? = some infoS := by
      rw [ht1]
      exact List.getElem?_set_self hlt
    rw [hbi1] at h
    simp only [Option.some_bind] at h
    have hue1 : s1.ue = s.ue := by rw [ht1]
    have hlast1 : s1.lastOff = s.lastOff := by rw [ht1]
    have hstk1 : s1.fpiStack = s.fpiStack := by rw [ht1]
    have hg1 : s1.gBranches = s.gBranches := by rw [ht1]
    have hoffs1 : ∀ c : Nat, (s1.blockInfo[c]?).map (fun bi => bi.offset) =
        (s.blockInfo[c]?).map (fun bi => bi.offset) := by
      intro c
      by_cases hc : c = bid
      · subst hc
        rw [hbi1, hbi]
        simp [hOff]
      · have he : s1.blockInfo[c]? = s.blockInfo[c]? := by
          rw [ht1]
          exact List.getElem?_set_ne (fun hh => hc hh.symm)
        rw [he]
    cases hOffc : infoS.offset with
    | some o =>
      rw [hOffc] at h
      simp only at h
      injection h with h
      subst h
      have hE := inv_emitIt hinv1 (Item.int32 (enc32 ((o : Int) - (so : Int))))
      obtain ⟨hbrE, hdepE, hfpiE, hdefE⟩ := hE
      constructor
      · refine ⟨⟨hbrE.ueWF, ?_, ?_, ?_, ?_, hbrE.fixInc⟩,
          ⟨hdepE.dset, hdepE.dent, hdepE.dorigin, hdepE.fset, hdepE.fent, hdepE.forigin,
           hdepE.curNN, hdepE.expNN, hdepE.depNN, hdepE.retOne⟩,
          ⟨hfpiE.lastLe, hfpiE.stackLt, hfpiE.stackLast, hfpiE.stackOpen, hfpiE.stackOrd,
           hfpiE.regsOk, hfpiE.regsNest, hfpiE.crossOk, hfpiE.regsCloses, hfpiE.closesOk,
           hfpiE.stkDelta⟩,
          ⟨hdefE.defg, hdefE.defNodup⟩⟩
        · intro r hr
          rcases List.mem_append.mp hr with hr | hr
          · exact hbrE.brs r hr
          · have hr2 : r = ⟨so, s1.ue.bcPos, bid⟩ := by simpa using hr
            subst hr2
            exact ⟨infoS, hbi1, Or.inl ⟨o, hOffc, itemAt_emit_self hinv1.br.ueWF _⟩⟩
        · intro r hr
          rcases List.mem_append.mp hr with hr | hr
          · exact hbrE.brsPos r hr
          · have hr2 : r = ⟨so, s1.ue.bcPos, bid⟩ := by simpa using hr
            subst hr2
            show s1.ue.bcPos + 4 ≤ s1.ue.bcPos + (4 : Nat)
            omega
        · refine List.pairwise_append.mpr ⟨hinv1.br.brsInc, List.pairwise_singleton _ _, ?_⟩
          intro a ha b hb
          have hb2 : b = ⟨so, s1.ue.bcPos, bid⟩ := by simpa using hb
          subst hb2
          have h4 := hinv1.br.brsPos a ha
          show a.jmpImmedOff < s1.ue.bcPos
          omega
        · intro b bi hb fx hfx
          exact List.mem_append.mpr (Or.inl (hinv1.br.fixMem b bi hb fx hfx))
      · refine ⟨?_, ?_, ?_, ?_, ⟨_, by rw [hue1]; rfl⟩⟩
        · show s.ue.bcPos ≤ s1.ue.bcPos + _
          rw [hue1]
          omega
        · show s1.lastOff = s.lastOff
          exact hlast1
        · show s1.fpiStack = s.fpiStack
          exact hstk1
        · exact hoffs1
    | none =>
      rw [hOffc] at h
      simp only at h
      injection h with h
      subst h
      have hwf1 := hinv1.br.ueWF
      have hlookFbid : (s1.blockInfo.set bid
          { infoS with offset := none, forwardJumps := infoS.forwardJumps ++ [⟨so, s1.ue.bcPos⟩] })[bid]? =
          some { infoS with offset := none, forwardJumps := infoS.forwardJumps ++ [⟨so, s1.ue.bcPos⟩] } :=
        List.getElem?_set_self hlt1
      have hlookFne : ∀ c : Nat, c ≠ bid → (s1.blockInfo.set bid
          { infoS with offset := none, forwardJumps := infoS.forwardJumps ++ [⟨so, s1.ue.bcPos⟩] })[c]? =
          s1.blockInfo[c]? :=
        fun c hc => List.getElem?_set_ne (fun hh => hc hh.symm)
      constructor
      · refine ⟨⟨UEwf_emit hwf1 _, ?_, ?_, ?_, ?_, ?_⟩, ?_,
          ⟨?_, ?_, ?_, ?_, ?_, ?_, ?_, ?_, ?_, ?_, ?_⟩,
          ⟨hinv1.dfs.defg, hinv1.dfs.defNodup⟩⟩
        · intro r hr
          rcases List.mem_append.mp hr with hr | hr
          · obtain ⟨bi, hb, hcase⟩ := hinv1.br.brs r hr
            have hjlt : r.jmpImmedOff < s1.ue.bcPos := by
              have h4 := hinv1.br.brsPos r hr
              omega
            by_cases hc : r.target = bid
            · rw [hc, hbi1] at hb
              have hbeq : bi = infoS := (Option.some_inj.mp hb).symm
              rcases hcase with ⟨o, ho, hv⟩ | ⟨hn, hm, hv⟩
              · rw [hbeq, hOffc] at ho
                exact absurd ho (by simp)
              · refine ⟨_, by rw [hc]; exact hlookFbid, Or.inr ⟨rfl, ?_, ?_⟩⟩
                · rw [hbeq] at hm
                  exact List.mem_append.mpr (Or.inl hm)
                · show (s1.ue.emit _).itemAt r.jmpImmedOff = _
                  rw [itemAt_emit_lt _ hjlt]
                  exact hv
            · refine ⟨bi, (hlookFne r.target hc).trans hb, ?_⟩
              rcases hcase with ⟨o, ho, hv⟩ | ⟨hn, hm, hv⟩
              · refine Or.inl ⟨o, ho, ?_⟩
                show (s1.ue.emit _).itemAt r.jmpImmedOff = _
                rw [itemAt_emit_lt _ hjlt]
                exact hv
              · refine Or.inr ⟨hn, hm, ?_⟩
                show (s1.ue.emit _).itemAt r.jmpImmedOff = _
                rw [itemAt_emit_lt _ hjlt]
                exact hv
          · have hr2 : r = ⟨so, s1.ue.bcPos, bid⟩ := by simpa using hr
            subst hr2
            refine ⟨_, hlookFbid, Or.inr ⟨rfl, ?_, ?_⟩⟩
            · exact List.mem_append.mpr (Or.inr (by simp))
            · exact itemAt_emit_self hwf1 _
        · intro r hr
          rcases List.mem_append.mp hr with hr | hr
          · have h4 := hinv1.br.brsPos r hr
            show r.jmpImmedOff + 4 ≤ s1.ue.bcPos + (Item.int32 (enc32 0)).size
            have h5 : (1 : Nat) ≤ (Item.int32 (enc32 0)).size := Item.size_pos _
            omega
          · have hr2 : r = ⟨so, s1.ue.bcPos, bid⟩ := by simpa using hr
            subst hr2
            show s1.ue.bcPos + 4 ≤ s1.ue.bcPos + (4 : Nat)
            omega
        · refine List.pairwise_append.mpr ⟨hinv1.br.brsInc, List.pairwise_singleton _ _, ?_⟩
          intro a ha b hb
          have hb2 : b = ⟨so, s1.ue.bcPos, bid⟩ := by simpa using hb
          subst hb2
          have h4 := hinv1.br.brsPos a ha
          show a.jmpImmedOff < s1.ue.bcPos
          omega
        · intro b bi hb fx hfx
          have hb2 : (s1.blockInfo.set bid
              { infoS with offset := none, forwardJumps := infoS.forwardJumps ++ [⟨so, s1.ue.bcPos⟩] })[b]? =
              some bi := hb
          by_cases hc : b = bid
          · rw [hc, hlookFbid] at hb2
            have hbeq := (Option.some_inj.mp hb2).symm
            rw [hbeq] at hfx
            simp only at hfx
            rcases List.mem_append.mp hfx with hfx | hfx
            · rw [hc]
              exact List.mem_append.mpr (Or.inl (hinv1.br.fixMem bid infoS hbi1 fx hfx))
            · have hfx2 : fx = ⟨so, s1.ue.bcPos⟩ := by simpa using hfx
              subst hfx2
              rw [hc]
              exact List.mem_append.mpr (Or.inr (by simp))
          · rw [hlookFne b hc] at hb2
            exact List.mem_append.mpr (Or.inl (hinv1.br.fixMem b bi hb2 fx hfx))
        · intro b bi hb
          have hb2 : (s1.blockInfo.set bid
              { infoS with offset := none, forwardJumps := infoS.forwardJumps ++ [⟨so, s1.ue.bcPos⟩] })[b]? =
              some bi := hb
          by_cases hc : b = bid
          · rw [hc, hlookFbid] at hb2
            have hbeq := (Option.some_inj.mp hb2).symm
            rw [hbeq]
            simp only
            refine List.pairwise_append.mpr
              ⟨hinv1.br.fixInc bid infoS hbi1, List.pairwise_singleton _ _, ?_⟩
            intro a ha b2 hb3
            have hb4 : b2 = ⟨so, s1.ue.bcPos⟩ := by simpa using hb3
            subst hb4
            have h4 := hinv1.br.brsPos _ (hinv1.br.fixMem bid infoS hbi1 a ha)
            show a.jmpImmedOff < s1.ue.bcPos
            simp only at h4
            omega
          · rw [hlookFne b hc] at hb2
            exact hinv1.br.fixInc b bi hb2
        · refine InvDepth_transfer (s := s1) ?_ ?_ rfl rfl rfl rfl rfl rfl rfl hinv1.dep
          · intro c
            by_cases hc : c = bid
            · rw [hc]
              exact (congrArg (Option.map (fun bi => bi.expectedStackDepth)) hlookFbid).trans
                (congrArg (Option.map (fun bi => bi.expectedStackDepth)) hbi1).symm
            · exact congrArg (Option.map (fun bi => bi.expectedStackDepth)) (hlookFne c hc)
          · intro c
            by_cases hc : c = bid
            · rw [hc]
              exact (congrArg (Option.map (fun bi => bi.expectedFPIDepth)) hlookFbid).trans
                (congrArg (Option.map (fun bi => bi.expectedFPIDepth)) hbi1).symm
            · exact congrArg (Option.map (fun bi => bi.expectedFPIDepth)) (hlookFne c hc)
        · show s1.lastOff ≤ s1.ue.bcPos + (Item.int32 (enc32 0)).size
          have h5 := hinv1.fpi.lastLe
          omega
        · intro o ho
          have h4 := hinv1.fpi.stackLt o ho
          show o.fpushOff < s1.ue.bcPos + (Item.int32 (enc32 0)).size
          omega
        · exact hinv1.fpi.stackLast
        · exact hinv1.fpi.stackOpen
        · exact hinv1.fpi.stackOrd
        · exact hinv1.fpi.regsOk
        · exact hinv1.fpi.regsNest
        · exact hinv1.fpi.crossOk
        · exact hinv1.fpi.regsCloses
        · exact hinv1.fpi.closesOk
        · exact hinv1.fpi.stkDelta
      · refine ⟨?_, ?_, ?_, ?_, ⟨_, by rw [hue1]; rfl⟩⟩
        · show s.ue.bcPos ≤ s1.ue.bcPos + (Item.int32 (enc32 0)).size
          rw [hue1]
          have h5 : (1 : Nat) ≤ (Item.int32 (enc32 0)).size := Item.size_pos _
          omega
        · show s1.lastOff = s.lastOff
          exact hlast1
        · show s1.fpiStack = s.fpiStack
          exact hstk1
        · intro c
          by_cases hc : c = bid
          · rw [hc]
            have e1 : ((s1.blockInfo.set bid
                { infoS with offset := none, forwardJumps := infoS.forwardJumps ++ [⟨so, s1.ue.bcPos⟩] })[bid]?).map
                (fun bi => bi.offset) = some none := by
              rw [hlookFbid]
              rfl
            have e2 : (s1.blockInfo[bid]?).map (fun bi => bi.offset) = some none := by
              rw [hbi1]
              simp [hOffc]
            exact e1.trans (e2.symm.trans (hoffs1 bid))
          · exact (congrArg (Option.map (fun bi => bi.offset)) (hlookFne c hc)).trans
              (hoffs1 c)

theorem inv_defclsF {s t : EmitState} {id so : Nat} (h : defclsF id so s = some t)
    (hi : EInv s) : EInv t := by
  unfold defclsF at h
  cases hm : s.defClsMap[id]? with
  | none => rw [hm] at h; exact absurd h (by simp)
  | some cur =>
    rw [hm] at h
    simp only [Option.bind_eq_bind, Option.some_bind] at h
    cases cur with
    | some w => exact absurd h (by simp)
    | none =>
      simp only at h
      injection h with h
      subst h
      have hid : id < s.defClsMap.length := lookup_lt hm
      have hnotin : ∀ o2 : Nat, (id, o2) ∉ s.gDefCls := by
        intro o2 hmem
        have hg := hi.dfs.defg (id, o2) hmem
        rw [hm] at hg
        simp at hg
      obtain ⟨hbr, hdep, hfpi, hdef⟩ := hi
      refine ⟨⟨hbr.ueWF, hbr.brs, hbr.brsPos, hbr.brsInc, hbr.fixMem, hbr.fixInc⟩,
        ⟨hdep.dset, hdep.dent, hdep.dorigin, hdep.fset, hdep.fent, hdep.forigin,
         hdep.curNN, hdep.expNN, hdep.depNN, hdep.retOne⟩,
        ⟨hfpi.lastLe, hfpi.stackLt, hfpi.stackLast, hfpi.stackOpen, hfpi.stackOrd,
         hfpi.regsOk, hfpi.regsNest, hfpi.crossOk, hfpi.regsCloses, hfpi.closesOk,
         hfpi.stkDelta⟩, ⟨?_, ?_⟩⟩
      · intro pr hpr
        rcases List.mem_append.mp hpr with hpr | hpr
        · have hg := hdef.defg pr hpr
          have hne : pr.1 ≠ id := fun he =>
            hnotin pr.2 (he ▸ (show (pr.1, pr.2) ∈ s.gDefCls from hpr))
          show (s.defClsMap.set id (some so))[pr.1]? = some (some pr.2)
          rw [List.getElem?_set_ne (Ne.symm hne)]
          exact hg
        · have hpr2 : pr = (id, so) := by simpa using hpr
          subst hpr2
          show (s.defClsMap.set id (some so))[id]? = some (some so)
          exact List.getElem?_set_self hid
      · show ((s.gDefCls ++ [(id, so)]).map Prod.fst).Nodup
        rw [List.map_append]
        refine List.Nodup.append hdef.defNodup (by simp) ?_
        intro a ha hb
        have hb2 : a = id := by simpa using hb
        subst hb2
        obtain ⟨pr, hpr, he⟩ := List.mem_map.mp ha
        exact hnotin pr.2 (he ▸ (show (pr.1, pr.2) ∈ s.gDefCls from hpr))

theorem inv_end_fpi {s t : EmitState} {k : CloseKind} {off : Nat}
    (h : end_fpi k off s = some t) (hoff : off = s.lastOff)
    (hstrict : k = CloseKind.byFCall → ∀ o ∈ s.fpiStack, o.fpushOff < off)
    (hi : EInv s) : EInv t := by
  unfold end_fpi at h
  cases hstk : s.fpiStack with
  | nil => rw [hstk] at h; exact absurd h (by simp)
  | cons top rest =>
    rw [hstk] at h
    simp only at h
    injection h with h
    subst h
    have htopmem : top ∈ s.fpiStack := by rw [hstk]; exact List.mem_cons_self _ _
    have hrestmem : ∀ o ∈ rest, o ∈ s.fpiStack := by
      intro o ho
      rw [hstk]
      exact List.mem_cons_of_mem _ ho
    obtain ⟨hbr, hdep, hfpi, hdef⟩ := hi
    have hendclosed : endOf { top with fpiEndOff := some off } = off := rfl
    refine ⟨⟨hbr.ueWF, hbr.brs, hbr.brsPos, hbr.brsInc, hbr.fixMem, hbr.fixInc⟩,
      ⟨hdep.dset, hdep.dent, hdep.dorigin, hdep.fset, hdep.fent, hdep.forigin,
       hdep.curNN, hdep.expNN, hdep.depNN, hdep.retOne⟩,
      ⟨hfpi.lastLe, ?_, ?_, ?_, ?_, ?_, ?_, ?_, ?_, ?_, ?_⟩,
      ⟨hdef.defg, hdef.defNodup⟩⟩
    · intro o ho
      exact hfpi.stackLt o (hrestmem o ho)
    · intro o ho
      exact hfpi.stackLast o (hrestmem o ho)
    · intro o ho
      exact hfpi.stackOpen o (hrestmem o ho)
    · have hord := hfpi.stackOrd
      rw [hstk] at hord
      exact (List.pairwise_cons.mp hord).2
    · intro r hr
      rcases List.mem_append.mp hr with hr | hr
      · exact hfpi.regsOk r hr
      · have hr2 : r = { top with fpiEndOff := some off } := by simpa using hr
        subst hr2
        refine ⟨off, rfl, ?_, by rw [hoff]⟩
        show top.fpushOff ≤ off
        rw [hoff]
        exact hfpi.stackLast top htopmem
    · refine List.pairwise_append.mpr ⟨hfpi.regsNest, List.pairwise_singleton _ _, ?_⟩
      intro r hr b hb
      have hb2 : b = { top with fpiEndOff := some off } := by simpa using hb
      subst hb2
      obtain ⟨e, he, hfe, hel⟩ := hfpi.regsOk r hr
      have hendr : endOf r = e := by unfold endOf; rw [he]; rfl
      rcases hfpi.crossOk r hr top htopmem with hca | hcb
      · refine Or.inl ⟨hca, ?_⟩
        rw [hendr, hendclosed, hoff]
        exact hel
      · refine Or.inr ?_
        show endOf r ≤ top.fpushOff
        exact hcb
    · intro r hr o ho
      rcases List.mem_append.mp hr with hr | hr
      · exact hfpi.crossOk r hr o (hrestmem o ho)
      · have hr2 : r = { top with fpiEndOff := some off } := by simpa using hr
        subst hr2
        have hord := hfpi.stackOrd
        rw [hstk] at hord
        have hlt := (List.pairwise_cons.mp hord).1 o ho
        exact Or.inl (le_of_lt hlt)
    · show s.fpiRegions ++ _ = (s.gCloses ++ _).map Prod.fst
      rw [List.map_append, hfpi.regsCloses]
      rfl
    · intro rc hrc
      rcases List.mem_append.mp hrc with hrc | hrc
      · exact hfpi.closesOk rc hrc
      · have hrc2 : rc = ({ top with fpiEndOff := some off }, k) := by simpa using hrc
        subst hrc2
        intro hk
        exact ⟨off, rfl, hstrict hk top htopmem⟩
    · intro o ho
      exact hfpi.stkDelta o (hrestmem o ho)

theorem inv_fpushF {s : EmitState} (so : Nat) (hso : so = s.lastOff)
    (hlt : so < s.ue.bcPos)
    (hstk : ∀ o ∈ s.fpiStack, o.fpushOff < so)
    (hi : EInv s) : EInv (fpushF so s) := by
  obtain ⟨hbr, hdep, hfpi, hdef⟩ := hi
  refine ⟨⟨hbr.ueWF, hbr.brs, hbr.brsPos, hbr.brsInc, hbr.fixMem, hbr.fixInc⟩,
    ⟨hdep.dset, hdep.dent, hdep.dorigin, hdep.fset, hdep.fent, hdep.forigin,
     hdep.curNN, hdep.expNN, hdep.depNN, hdep.retOne⟩,
    ⟨hfpi.lastLe, ?_, ?_, ?_, ?_, hfpi.regsOk, hfpi.regsNest, ?_, hfpi.regsCloses,
     hfpi.closesOk, ?_⟩,
    ⟨hdef.defg, hdef.defNodup⟩⟩
  · intro o ho
    rcases List.mem_cons.mp ho with ho | ho
    · subst ho
      exact hlt
    · exact hfpi.stackLt o ho
  · intro o ho
    rcases List.mem_cons.mp ho with ho | ho
    · subst ho
      show so ≤ s.lastOff
      omega
    · exact hfpi.stackLast o ho
  · intro o ho
    rcases List.mem_cons.mp ho with ho | ho
    · subst ho
      rfl
    · exact hfpi.stackOpen o ho
  · exact List.Pairwise.cons (fun o ho => hstk o ho) hfpi.stackOrd
  · intro r hr o ho
    rcases List.mem_cons.mp ho with ho | ho
    · subst ho
      obtain ⟨e, he, hfe, hel⟩ := hfpi.regsOk r hr
      have hendr : endOf r = e := by unfold endOf; rw [he]; rfl
      refine Or.inr ?_
      show endOf r ≤ so
      rw [hendr, hso]
      exact hel
    · exact hfpi.crossOk r hr o ho
  · intro o ho
    rcases List.mem_cons.mp ho with ho | ho
    · subst ho
      exact hdep.curNN
    · exact hfpi.stkDelta o ho

theorem inv_tfReset {s : EmitState} (hi : EInv s) :
    EInv { s with curDepth := 0, gDepths := s.gDepths ++ [0] } := by
  obtain ⟨hbr, hdep, hfpi, hdef⟩ := hi
  refine ⟨⟨hbr.ueWF, hbr.brs, hbr.brsPos, hbr.brsInc, hbr.fixMem, hbr.fixInc⟩,
    ⟨hdep.dset, hdep.dent, hdep.dorigin, hdep.fset, hdep.fent, hdep.forigin,
     le_refl 0, hdep.expNN, ?_, hdep.retOne⟩,
    ⟨hfpi.lastLe, hfpi.stackLt, hfpi.stackLast, hfpi.stackOpen, hfpi.stackOrd,
     hfpi.regsOk, hfpi.regsNest, hfpi.crossOk, hfpi.regsCloses, hfpi.closesOk,
     hfpi.stkDelta⟩,
    ⟨hdef.defg, hdef.defNodup⟩⟩
  intro d hd
  rcases List.mem_append.mp hd with hd | hd
  · exact hdep.depNN d hd
  · have hd2 : d = 0 := by simpa using hd
    omega

theorem mid_refl (s : EmitState) : Mid s s := ⟨le_refl _, rfl, rfl, fun _ => rfl, ⟨[], (List.append_nil _).symm⟩⟩

theorem mid_comp {a b c : EmitState} (h1 : Mid a b) (h2 : Mid b c) : Mid a c := by
  refine ⟨le_trans h1.pos_mono h2.pos_mono, h2.lastOff_eq.trans h1.lastOff_eq,
   h2.fpiStack_eq.trans h1.fpiStack_eq, fun cc => (h2.offs_eq cc).trans (h1.offs_eq cc), ?_⟩
  obtain ⟨l1, he1⟩ := h1.items_ext
  obtain ⟨l2, he2⟩ := h2.items_ext
  exact ⟨l1 ++ l2, by rw [he2, he1, List.append_assoc]⟩

theorem mid_emitIt (it : Item) (s : EmitState) : Mid s (emitIt it s) := by
  refine ⟨?_, rfl, rfl, fun _ => rfl, ⟨[(s.ue.bcPos, it)], rfl⟩⟩
  show s.ue.bcPos ≤ s.ue.bcPos + it.size
  omega

theorem mid_emitLitstrId (str : Nat) (s : EmitState) : Mid s (emitLitstrId str s) := by
  unfold emitLitstrId UE.mergeLitstr
  cases s.ue.litstrs.indexOf? str with
  | some i => exact mid_emitIt _ _
  | none =>
    refine ⟨?_, rfl, rfl, fun _ => rfl, ⟨[(s.ue.bcPos, Item.int32 (enc32 _))], rfl⟩⟩
    show s.ue.bcPos ≤ s.ue.bcPos + _
    omega

theorem mid_emitArrayId (a : Nat) (s : EmitState) : Mid s (emitArrayId a s) := by
  unfold emitArrayId UE.mergeArray
  cases s.ue.arrays.indexOf? a with
  | some i => exact mid_emitIt _ _
  | none =>
    refine ⟨?_, rfl, rfl, fun _ => rfl, ⟨[(s.ue.bcPos, Item.int32 (enc32 _))], rfl⟩⟩
    show s.ue.bcPos ≤ s.ue.bcPos + _
    omega

theorem ret_assert_spec {s t : EmitState} (h : ret_assert s = some t) :
    s.curDepth = 1 ∧ t = { s with gRetDepths := s.gRetDepths ++ [s.curDepth] } := by
  unfold ret_assert at h
  split at h
  · rename_i hone
    injection h with h
    exact ⟨hone, h.symm⟩
  · exact absurd h (by simp)

theorem popD_spec {n : Nat} {s t : EmitState} (h : popD n s = some t) :
    0 ≤ s.curDepth - (n : Int) ∧
    t = { s with curDepth := s.curDepth - (n : Int),
                 gDepths := s.gDepths ++ [s.curDepth - (n : Int)] } := by
  unfold popD at h
  split at h
  · exact absurd h (by simp)
  · rename_i hge
    injection h with h
    exact ⟨by omega, h.symm⟩

theorem defclsF_spec {s t : EmitState} {id so : Nat} (h : defclsF id so s = some t) :
    t = { s with defClsMap := s.defClsMap.set id (some so),
                 gDefCls := s.gDefCls ++ [(id, so)] } := by
  unfold defclsF at h
  cases hm : s.defClsMap[id]? with
  | none => rw [hm] at h; exact absurd h (by simp)
  | some cur =>
    rw [hm] at h
    simp only [Option.bind_eq_bind, Option.some_bind] at h
    cases cur with
    | some w => exact absurd h (by simp)
    | none =>
      simp only at h
      injection h with h
      exact h.symm

theorem inv_mid_itertab_fold :
    ∀ (l : List (Nat × Nat)) (s : EmitState), EInv s →
      EInv (l.foldl (fun s kv => emitI32 (kv.2 : Int) (emitI32 (kv.1 : Int) s)) s) ∧
      Mid s (l.foldl (fun s kv => emitI32 (kv.2 : Int) (emitI32 (kv.1 : Int) s)) s) := by
  intro l
  induction l with
  | nil => exact fun s hi => ⟨hi, mid_refl s⟩
  | cons kv l ih =>
    intro s hi
    have h1 : EInv (emitI32 (kv.2 : Int) (emitI32 (kv.1 : Int) s)) :=
      inv_emitI32 (inv_emitI32 hi _) _
    obtain ⟨h2, h3⟩ := ih _ h1
    exact ⟨h2, mid_comp (mid_comp (mid_emitIt _ _) (mid_emitIt _ _)) h3⟩

theorem inv_mid_vsa_fold :
    ∀ (l : List Nat) (s : EmitState), EInv s →
      EInv (l.foldl (fun s k => emitLitstrId k s) s) ∧
      Mid s (l.foldl (fun s k => emitLitstrId k s) s) := by
  intro l
  induction l with
  | nil => exact fun s hi => ⟨hi, mid_refl s⟩
  | cons k l ih =>
    intro s hi
    obtain ⟨h2, h3⟩ := ih _ (inv_emitLitstrId hi k)
    exact ⟨h2, mid_comp (mid_emitLitstrId k s) h3⟩

theorem inv_mid_encode_mk (mk : MKeyM) {s : EmitState} (hi : EInv s) :
    EInv (encode_member_key mk s) ∧ Mid s (encode_member_key mk s) := by
  cases mk with
  | mec idx =>
    exact ⟨inv_emitIt (inv_emitIt hi _) _, mid_comp (mid_emitIt _ _) (mid_emitIt _ _)⟩
  | mpc idx =>
    exact ⟨inv_emitIt (inv_emitIt hi _) _, mid_comp (mid_emitIt _ _) (mid_emitIt _ _)⟩
  | mel l =>
    exact ⟨inv_emitIt (inv_emitIt hi _) _, mid_comp (mid_emitIt _ _) (mid_emitIt _ _)⟩
  | mpl l =>
    exact ⟨inv_emitIt (inv_emitIt hi _) _, mid_comp (mid_emitIt _ _) (mid_emitIt _ _)⟩
  | met str =>
    exact ⟨inv_emitLitstrId (inv_emitIt hi _) _,
      mid_comp (mid_emitIt _ _) (mid_emitLitstrId _ _)⟩
  | mpt str =>
    exact ⟨inv_emitLitstrId (inv_emitIt hi _) _,
      mid_comp (mid_emitIt _ _) (mid_emitLitstrId _ _)⟩
  | mqt str =>
    exact ⟨inv_emitLitstrId (inv_emitIt hi _) _,
      mid_comp (mid_emitIt _ _) (mid_emitLitstrId _ _)⟩
  | mei v =>
    exact ⟨inv_emitIt (inv_emitIt hi _) _, mid_comp (mid_emitIt _ _) (mid_emitIt _ _)⟩
  | mw => exact ⟨inv_emitIt hi _, mid_emitIt _ _⟩

theorem inv_emit_branches {so : Nat} :
    ∀ (l : List Nat) {s t : EmitState}, emit_branches so l s = some t → EInv s →
      EInv t ∧ Mid s t := by
  intro l
  induction l with
  | nil =>
    intro s t h hi
    unfold emit_branches at h
    injection h with h
    subst h
    exact ⟨hi, mid_refl s⟩
  | cons x l ih =>
    intro s t h hi
    unfold emit_branches at h
    simp only [Option.bind_eq_bind] at h
    rw [Option.bind_eq_some] at h
    obtain ⟨s2, h1, h2⟩ := h
    obtain ⟨hi2, hm2⟩ := inv_emit_branch h1 hi
    obtain ⟨hi3, hm3⟩ := ih h2 hi2
    exact ⟨hi3, mid_comp hm2 hm3⟩

theorem inv_emit_sswitch_cases {so : Nat} :
    ∀ (l : List (Nat × Nat)) {s t : EmitState}, emit_sswitch_cases so l s = some t →
      EInv s → EInv t ∧ Mid s t := by
  intro l
  induction l with
  | nil =>
    intro s t h hi
    unfold emit_sswitch_cases at h
    injection h with h
    subst h
    exact ⟨hi, mid_refl s⟩
  | cons x l ih =>
    intro s t h hi
    rcases x with ⟨str, tgt⟩
    unfold emit_sswitch_cases at h
    simp only [Option.bind_eq_bind] at h
    rw [Option.bind_eq_some] at h
    obtain ⟨s2, h1, h2⟩ := h
    obtain ⟨hi2, hm2⟩ := inv_emit_branch h1 (inv_emitLitstrId hi str)
    obtain ⟨hi3, hm3⟩ := ih h2 hi2
    exact ⟨hi3, mid_comp (mid_comp (mid_emitLitstrId str s) hm2) hm3⟩

theorem inv_emit_sswitch {so : Nat} {targets : List (Nat × Nat)} {s t : EmitState}
    (h : emit_sswitch so targets s = some t) (hi : EInv s) : EInv t ∧ Mid s t := by
  unfold emit_sswitch at h
  cases hgl : targets.getLast? with
  | none => rw [hgl] at h; exact absurd h (by simp)
  | some lastT =>
    rw [hgl] at h
    simp only [Option.bind_eq_bind] at h
    rw [Option.bind_eq_some] at h
    obtain ⟨s2, h1, h2⟩ := h
    obtain ⟨hi2, hm2⟩ := inv_emit_sswitch_cases _ h1 (inv_emitI32 hi _)
    obtain ⟨hi3, hm3⟩ := inv_emit_branch h2 (inv_emitI32 hi2 _)
    refine ⟨hi3, mid_comp (mid_comp (mid_emitIt _ _) hm2)
      (mid_comp (mid_emitIt _ _) hm3)⟩

theorem inv_emit_lar {f : Func} {first cnt : Nat} {s t : EmitState}
    (h : emit_lar f first cnt s = some t) (hi : EInv s) : EInv t ∧ Mid s t := by
  unfold emit_lar at h
  split at h
  · simp only [Option.bind_eq_bind] at h
    rw [Option.bind_eq_some] at h
    obtain ⟨m1, h1, h⟩ := h
    rw [Option.bind_eq_some] at h
    obtain ⟨m2, h2, h⟩ := h
    split at h
    · injection h with h
      subst h
      exact ⟨inv_emitIt (inv_emitIt hi _) _, mid_comp (mid_emitIt _ _) (mid_emitIt _ _)⟩
    · exact absurd h (by simp)
  · exact absurd h (by simp)

theorem inv_emit_imm {f : Func} {so : Nat} {im : Imm} {s t : EmitState}
    (h : emit_imm f so im s = some t) (hi : EInv s) : EInv t ∧ Mid s t := by
  cases im with
  | bla targets =>
    unfold emit_imm emit_switch at h
    obtain ⟨hi2, hm2⟩ := inv_emit_branches _ h (inv_emitI32 hi _)
    exact ⟨hi2, mid_comp (mid_emitIt _ _) hm2⟩
  | sla targets => exact inv_emit_sswitch h hi
  | ila tab =>
    unfold emit_imm emit_itertab at h
    injection h with h
    subst h
    obtain ⟨hi2, hm2⟩ := inv_mid_itertab_fold tab _ (inv_emitI32 hi _)
    exact ⟨hi2, mid_comp (mid_emitIt _ _) hm2⟩
  | iva v =>
    unfold emit_imm at h
    injection h with h
    subst h
    exact ⟨inv_emitIt hi _, mid_emitIt _ _⟩
  | i64a v =>
    unfold emit_imm at h
    injection h with h
    subst h
    exact ⟨inv_emitIt hi _, mid_emitIt _ _⟩
  | la l =>
    unfold emit_imm at h
    simp only [Option.bind_eq_bind] at h
    rw [Option.bind_eq_some] at h
    obtain ⟨m, h1, h⟩ := h
    injection h with h
    subst h
    exact ⟨inv_emitIt hi _, mid_emitIt _ _⟩
  | ia i =>
    unfold emit_imm at h
    injection h with h
    subst h
    exact ⟨inv_emitIt hi _, mid_emitIt _ _⟩
  | car slot =>
    unfold emit_imm at h
    injection h with h
    subst h
    exact ⟨inv_emitIt hi _, mid_emitIt _ _⟩
  | caw slot =>
    unfold emit_imm at h
    injection h with h
    subst h
    exact ⟨inv_emitIt hi _, mid_emitIt _ _⟩
  | da bits =>
    unfold emit_imm at h
    injection h with h
    subst h
    exact ⟨inv_emitIt hi _, mid_emitIt _ _⟩
  | sa str =>
    unfold emit_imm at h
    injection h with h
    subst h
    exact ⟨inv_emitLitstrId hi _, mid_emitLitstrId _ _⟩
  | rata sz =>
    unfold emit_imm at h
    injection h with h
    subst h
    exact ⟨inv_emitIt hi _, mid_emitIt _ _⟩
  | aa a =>
    unfold emit_imm at h
    injection h with h
    subst h
    exact ⟨inv_emitArrayId hi _, mid_emitArrayId _ _⟩
  | oa b =>
    unfold emit_imm at h
    injection h with h
    subst h
    exact ⟨inv_emitIt hi _, mid_emitIt _ _⟩
  | ba tgt =>
    unfold emit_imm at h
    exact inv_emit_branch h hi
  | vsa keys =>
    unfold emit_imm emit_vsa at h
    injection h with h
    subst h
    obtain ⟨hi2, hm2⟩ := inv_mid_vsa_fold keys _ (inv_emitI32 hi _)
    exact ⟨hi2, mid_comp (mid_emitIt _ _) hm2⟩
  | ka mk =>
    unfold emit_imm at h
    simp only [Option.bind_eq_bind] at h
    rw [Option.bind_eq_some] at h
    obtain ⟨mk2, h1, h⟩ := h
    injection h with h
    subst h
    exact inv_mid_encode_mk mk2 hi
  | lar first cnt =>
    unfold emit_imm at h
    exact inv_emit_lar h hi

theorem inv_emit_imms {f : Func} {so : Nat} :
    ∀ (l : List Imm) {s t : EmitState}, emit_imms f so l s = some t → EInv s →
      EInv t ∧ Mid s t := by
  intro l
  induction l with
  | nil =>
    intro s t h hi
    unfold emit_imms at h
    injection h with h
    subst h
    exact ⟨hi, mid_refl s⟩
  | cons im l ih =>
    intro s t h hi
    unfold emit_imms at h
    simp only [Option.bind_eq_bind] at h
    rw [Option.bind_eq_some] at h
    obtain ⟨s2, h1, h2⟩ := h
    obtain ⟨hi2, hm2⟩ := inv_emit_imm h1 hi
    obtain ⟨hi3, hm3⟩ := ih h2 hi2
    exact ⟨hi3, mid_comp hm2 hm3⟩

theorem inv_lastToPos {s : EmitState} (hi : EInv s) :
    EInv { s with lastOff := s.ue.bcPos } := by
  obtain ⟨hbr, hdep, hfpi, hdef⟩ := hi
  refine ⟨⟨hbr.ueWF, hbr.brs, hbr.brsPos, hbr.brsInc, hbr.fixMem, hbr.fixInc⟩,
    ⟨hdep.dset, hdep.dent, hdep.dorigin, hdep.fset, hdep.fent, hdep.forigin,
     hdep.curNN, hdep.expNN, hdep.depNN, hdep.retOne⟩,
    ⟨le_refl _, hfpi.stackLt, ?_, hfpi.stackOpen, hfpi.stackOrd, ?_, hfpi.regsNest,
     hfpi.crossOk, hfpi.regsCloses, hfpi.closesOk, hfpi.stkDelta⟩,
    ⟨hdef.defg, hdef.defNodup⟩⟩
  · intro o ho
    exact le_of_lt (hfpi.stackLt o ho)
  · intro r hr
    obtain ⟨e, he, h1, h2⟩ := hfpi.regsOk r hr
    exact ⟨e, he, h1, le_trans h2 hfpi.lastLe⟩

theorem end_fpi_spec {s t : EmitState} {k : CloseKind} {off : Nat}
    (h : end_fpi k off s = some t) :
    ∃ top rest, s.fpiStack = top :: rest ∧
      t = { s with fpiStack := rest,
                   fpiRegions := s.fpiRegions ++ [{ top with fpiEndOff := some off }],
                   gCloses := s.gCloses ++ [({ top with fpiEndOff := some off }, k)] } := by
  unfold end_fpi at h
  cases hstk : s.fpiStack with
  | nil => rw [hstk] at h; exact absurd h (by simp)
  | cons top rest =>
    rw [hstk] at h
    simp only at h
    injection h with h
    exact ⟨top, rest, rfl, h.symm⟩

theorem emit_srcloc_pos (inst : Bc) (so : Nat) (s : EmitState) :
    (emit_srcloc inst so s).ue.bcPos = s.ue.bcPos := by
  unfold emit_srcloc
  split
  · rfl
  · rfl

theorem emit_srcloc_blockInfo (inst : Bc) (so : Nat) (s : EmitState) :
    (emit_srcloc inst so s).blockInfo = s.blockInfo := by
  unfold emit_srcloc
  split
  · rfl
  · rfl

theorem inv_emit_inst {f : Func} {inst : Bc} {s t : EmitState}
    (h : emit_inst f inst s = some t) (hok : BcOk inst) (hi : EInv s) :
    EInv t ∧ Step s t := by
  simp only [emit_inst] at h
  by_cases hnop : inst.sig.isNop = true
  · rw [if_pos hnop] at h
    injection h with h
    subst h
    exact ⟨inv_lastToPos hi, ⟨le_refl _, fun c => rfl⟩⟩
  · rw [if_neg hnop] at h
    have hi1 : EInv { s with lastOff := s.ue.bcPos } := inv_lastToPos hi
    obtain ⟨s2, h2, h⟩ := Option.bind_eq_some.mp h
    obtain ⟨s3, h3, h⟩ := Option.bind_eq_some.mp h
    obtain ⟨s4, h4, h⟩ := Option.bind_eq_some.mp h
    obtain ⟨s6, h6, h⟩ := Option.bind_eq_some.mp h
    obtain ⟨s8, h8, h⟩ := Option.bind_eq_some.mp h
    obtain ⟨s10, h10, h⟩ := Option.bind_eq_some.mp h
    injection h with h
    have H2 : EInv s2 ∧ s2.ue = s.ue ∧ s2.lastOff = s.ue.bcPos ∧
        s2.fpiStack = s.fpiStack ∧ s2.blockInfo = s.blockInfo := by
      by_cases hc : inst.sig.isDefCls = true
      · rw [if_pos hc] at h2
        have hsp := defclsF_spec h2
        have hiv := inv_defclsF h2 hi1
        subst hsp
        exact ⟨hiv, rfl, rfl, rfl, rfl⟩
      · rw [if_neg hc] at h2
        injection h2 with h2
        subst h2
        exact ⟨hi1, rfl, rfl, rfl, rfl⟩
    obtain ⟨hi2, hue2, hlast2, hstk2, hbi2⟩ := H2
    have H3 : EInv s3 ∧ s3.ue = s.ue ∧ s3.lastOff = s.ue.bcPos ∧
        s3.fpiStack = s.fpiStack ∧ s3.blockInfo = s.blockInfo := by
      by_cases hc : inst.sig.isDefClsNop = true
      · rw [if_pos hc] at h3
        have hsp := defclsF_spec h3
        have hiv := inv_defclsF h3 hi2
        subst hsp
        exact ⟨hiv, hue2, hlast2, hstk2, hbi2⟩
      · rw [if_neg hc] at h3
        injection h3 with h3
        subst h3
        exact ⟨hi2, hue2, hlast2, hstk2, hbi2⟩
    obtain ⟨hi3, hue3, hlast3, hstk3, hbi3⟩ := H3
    have H4 : EInv s4 ∧ s4.ue = s.ue ∧ s4.lastOff = s.ue.bcPos ∧
        s4.fpiStack = s.fpiStack ∧ s4.blockInfo = s.blockInfo := by
      by_cases hc : inst.sig.isRet = true
      · rw [if_pos hc] at h4
        have hsp := (ret_assert_spec h4).2
        have hiv := (inv_ret_assert h4 hi3).1
        subst hsp
        exact ⟨hiv, hue3, hlast3, hstk3, hbi3⟩
      · rw [if_neg hc] at h4
        injection h4 with h4
        subst h4
        exact ⟨hi3, hue3, hlast3, hstk3, hbi3⟩
    obtain ⟨hi4, hue4, hlast4, hstk4, hbi4⟩ := H4
    have hi5 : EInv (emitIt (Item.opTag inst.sig.tag) s4) := inv_emitIt hi4 _
    obtain ⟨hi6, hcur6⟩ := inv_popD _ h6 hi5
    have hsp6 := (popD_spec h6).2
    have hpos6 : s6.ue.bcPos = s.ue.bcPos + 1 := by
      rw [hsp6]
      show s4.ue.bcPos + (Item.opTag inst.sig.tag).size = s.ue.bcPos + 1
      rw [hue4]
      rfl
    have hlast6 : s6.lastOff = s.ue.bcPos := by
      rw [hsp6]
      exact hlast4
    have hstk6 : s6.fpiStack = s.fpiStack := by
      rw [hsp6]
      exact hstk4
    have hbi6 : s6.blockInfo = s.blockInfo := by
      rw [hsp6]
      exact hbi4
    have hi7 : EInv (pushD inst.pushes s6) := inv_pushD hi6 _
    obtain ⟨hi8, hm8⟩ := inv_emit_imms _ h8 hi7
    have hlast8 : s8.lastOff = s.ue.bcPos := by
      rw [hm8.lastOff_eq]
      show s6.lastOff = s.ue.bcPos
      exact hlast6
    have hstk8 : s8.fpiStack = s.fpiStack := by
      rw [hm8.fpiStack_eq]
      show s6.fpiStack = s.fpiStack
      exact hstk6
    have hpos8 : s.ue.bcPos + 1 ≤ s8.ue.bcPos := by
      have hpm := hm8.pos_mono
      have hp : (pushD inst.pushes s6).ue.bcPos = s.ue.bcPos + 1 := hpos6
      omega
    have hoffs8 : ∀ c : Nat, (s8.blockInfo[c]?).map (fun bi => bi.offset) =
        (s.blockInfo[c]?).map (fun bi => bi.offset) := by
      intro c
      refine (hm8.offs_eq c).trans ?_
      show ((s6.blockInfo[c]?).map fun bi => bi.offset) = _
      rw [hbi6]
    have hstklt : ∀ o ∈ s8.fpiStack, o.fpushOff < s.ue.bcPos := by
      intro o ho
      rw [hstk8] at ho
      exact hi.fpi.stackLt o ho
    have H9 : EInv (if inst.sig.isFPush = true then fpushF s.ue.bcPos s8 else s8) := by
      by_cases hc : inst.sig.isFPush = true
      · rw [if_pos hc]
        refine inv_fpushF _ hlast8.symm (by omega) hstklt hi8
      · rw [if_neg hc]
        exact hi8
    have hue9 : (if inst.sig.isFPush = true then fpushF s.ue.bcPos s8 else s8).ue =
        s8.ue := by
      by_cases hc : inst.sig.isFPush = true
      · rw [if_pos hc]
        rfl
      · rw [if_neg hc]
    have hbi9 : (if inst.sig.isFPush = true then fpushF s.ue.bcPos s8 else s8).blockInfo =
        s8.blockInfo := by
      by_cases hc : inst.sig.isFPush = true
      · rw [if_pos hc]
        rfl
      · rw [if_neg hc]
    have H10 : EInv s10 ∧ s10.ue = s8.ue ∧ s10.blockInfo = s8.blockInfo := by
      by_cases hc : inst.sig.isFCallStar = true
      · rw [if_pos hc] at h10
        have hnofp : inst.sig.isFPush = false := by
          cases hfp : inst.sig.isFPush
          · rfl
          · exact absurd ⟨hfp, hc⟩ hok
        rw [hnofp] at h10
        simp only [Bool.false_eq_true, if_false] at h10
        have hiv := inv_end_fpi h10 hlast8.symm
          (fun _ o ho => hstklt o ho) hi8
        obtain ⟨top, rest, hsk, hsp⟩ := end_fpi_spec h10
        subst hsp
        exact ⟨hiv, rfl, rfl⟩
      · rw [if_neg hc] at h10
        injection h10 with h10
        subst h10
        exact ⟨H9, hue9, hbi9⟩
    obtain ⟨hi10, hue10, hbi10⟩ := H10
    subst h
    have H11 : EInv (if inst.sig.isTF = true then
        { s10 with curDepth := 0, gDepths := s10.gDepths ++ [0] } else s10) := by
      by_cases hc : inst.sig.isTF = true
      · rw [if_pos hc]
        exact inv_tfReset hi10
      · rw [if_neg hc]
        exact hi10
    have hue11 : (if inst.sig.isTF = true then
        { s10 with curDepth := 0, gDepths := s10.gDepths ++ [0] } else s10).ue =
        s10.ue := by
      by_cases hc : inst.sig.isTF = true
      · rw [if_pos hc]
      · rw [if_neg hc]
    have hbi11 : (if inst.sig.isTF = true then
        { s10 with curDepth := 0, gDepths := s10.gDepths ++ [0] } else s10).blockInfo =
        s10.blockInfo := by
      by_cases hc : inst.sig.isTF = true
      · rw [if_pos hc]
      · rw [if_neg hc]
    have H12 : EInv (if inst.sig.isFCallOrD = true then
        { (if inst.sig.isTF = true then
            { s10 with curDepth := 0, gDepths := s10.gDepths ++ [0] } else s10) with
          containsCalls := true }
        else (if inst.sig.isTF = true then
            { s10 with curDepth := 0, gDepths := s10.gDepths ++ [0] } else s10)) := by
      by_cases hc : inst.sig.isFCallOrD = true
      · rw [if_pos hc]
        exact EInv_congr H11 rfl rfl rfl rfl rfl rfl rfl rfl rfl rfl rfl rfl rfl
          rfl rfl rfl rfl
      · rw [if_neg hc]
        exact H11
    have hue12 : (if inst.sig.isFCallOrD = true then
        { (if inst.sig.isTF = true then
            { s10 with curDepth := 0, gDepths := s10.gDepths ++ [0] } else s10) with
          containsCalls := true }
        else (if inst.sig.isTF = true then
            { s10 with curDepth := 0, gDepths := s10.gDepths ++ [0] } else s10)).ue =
        s10.ue := by
      by_cases hc : inst.sig.isFCallOrD = true
      · rw [if_pos hc]
        exact hue11
      · rw [if_neg hc]
        exact hue11
    have hbi12 : (if inst.sig.isFCallOrD = true then
        { (if inst.sig.isTF = true then
            { s10 with curDepth := 0, gDepths := s10.gDepths ++ [0] } else s10) with
          containsCalls := true }
        else (if inst.sig.isTF = true then
            { s10 with curDepth := 0, gDepths := s10.gDepths ++ [0] } else s10)).blockInfo =
        s10.blockInfo := by
      by_cases hc : inst.sig.isFCallOrD = true
      · rw [if_pos hc]
        exact hbi11
      · rw [if_neg hc]
        exact hbi11
    refine ⟨inv_emit_srcloc H12 inst s.ue.bcPos, ?_, ?_⟩
    · rw [emit_srcloc_pos, hue12, hue10]
      omega
    · intro c
      rw [emit_srcloc_blockInfo, hbi12, hbi10]
      exact hoffs8 c

theorem step_refl (s : EmitState) : Step s s := ⟨le_refl _, fun _ => rfl⟩

theorem step_comp {a b c : EmitState} (h1 : Step a b) (h2 : Step b c) : Step a c :=
  ⟨le_trans h1.pos_mono h2.pos_mono, fun d => (h2.offs_eq d).trans (h1.offs_eq d)⟩

theorem inv_emit_insts {f : Func} :
    ∀ (l : List Bc) {s t : EmitState}, emit_insts f l s = some t →
      (∀ i ∈ l, BcOk i) → EInv s → EInv t ∧ Step s t := by
  intro l
  induction l with
  | nil =>
    intro s t h _ hi
    unfold emit_insts at h
    injection h with h
    subst h
    exact ⟨hi, step_refl s⟩
  | cons i rest ih =>
    intro s t h hok hi
    unfold emit_insts at h
    obtain ⟨s2, h1, h2⟩ := Option.bind_eq_some.mp h
    obtain ⟨hi2, hst2⟩ := inv_emit_inst h1 (hok i (List.mem_cons_self i rest)) hi
    obtain ⟨hi3, hst3⟩ := ih h2 (fun j hj => hok j (List.mem_cons_of_mem i hj)) hi2
    exact ⟨hi3, step_comp hst2 hst3⟩

theorem pairwise_mem_eq {α : Type} {R : α → α → Prop} :
    ∀ {l : List α}, l.Pairwise R → ∀ {a b : α}, a ∈ l → b ∈ l →
      (R a b → False) → (R b a → False) → a = b := by
  intro l hp
  induction hp with
  | nil =>
    intro a b ha _ _ _
    exact absurd ha (List.not_mem_nil a)
  | cons hx _ ih =>
    intro a b ha hb hab hba
    rcases List.mem_cons.mp ha with rfl | ha2
    · rcases List.mem_cons.mp hb with rfl | hb2
      · rfl
      · exact absurd (hx b hb2) hab
    · rcases List.mem_cons.mp hb with rfl | hb2
      · exact absurd (hx a ha2) hba
      · exact ih ha2 hb2 hab hba

theorem patch_fold_pos (v : JmpFixup → Nat) :
    ∀ (l : List JmpFixup) (ue : UE),
      (l.foldl (fun u fx => u.patch32 fx.jmpImmedOff (v fx)) ue).bcPos = ue.bcPos := by
  intro l
  induction l with
  | nil => intro ue; rfl
  | cons fx l ih =>
    intro ue
    rw [List.foldl_cons, ih]
    rfl

theorem patch_fold32 (v : JmpFixup → Nat) :
    ∀ (l : List JmpFixup) (ue : UE), UEwf ue →
      (∀ fx ∈ l, ∃ w, ue.itemAt fx.jmpImmedOff = some (Item.int32 w)) →
      l.Pairwise (fun a b => a.jmpImmedOff < b.jmpImmedOff) →
      UEwf (l.foldl (fun u fx => u.patch32 fx.jmpImmedOff (v fx)) ue) ∧
      (∀ fx ∈ l, (l.foldl (fun u fx => u.patch32 fx.jmpImmedOff (v fx)) ue).itemAt
          fx.jmpImmedOff = some (Item.int32 (v fx))) ∧
      (∀ p : Nat, (∀ fx ∈ l, p ≠ fx.jmpImmedOff) →
        (l.foldl (fun u fx => u.patch32 fx.jmpImmedOff (v fx)) ue).itemAt p =
          ue.itemAt p) := by
  intro l
  induction l with
  | nil =>
    intro ue hwf _ _
    exact ⟨hwf, fun fx hfx => absurd hfx (List.not_mem_nil fx), fun p _ => rfl⟩
  | cons fx l ih =>
    intro ue hwf hph hinc
    rw [List.pairwise_cons] at hinc
    obtain ⟨hhd, htl⟩ := hinc
    obtain ⟨w, hw⟩ := hph fx (List.mem_cons_self fx l)
    have hph2 : ∀ fy ∈ l, ∃ w2,
        (ue.patch32 fx.jmpImmedOff (v fx)).itemAt fy.jmpImmedOff =
          some (Item.int32 w2) := by
      intro fy hfy
      obtain ⟨w2, hw2⟩ := hph fy (List.mem_cons_of_mem fx hfy)
      refine ⟨w2, ?_⟩
      rw [itemAt_patch_ne _ _ _ _ (Nat.ne_of_gt (hhd fy hfy))]
      exact hw2
    obtain ⟨ihwf, ihset, ihun⟩ := ih (ue.patch32 fx.jmpImmedOff (v fx))
      (UEwf_patch hwf _ _) hph2 htl
    rw [List.foldl_cons]
    refine ⟨ihwf, ?_, ?_⟩
    · intro fy hfy
      rcases List.mem_cons.mp hfy with rfl | hfy2
      · rw [ihun fy.jmpImmedOff (fun fz hfz => Nat.ne_of_lt (hhd fz hfz))]
        exact itemAt_patch_eq ue _ _ w hw
      · exact ihset fy hfy2
    · intro p hp
      rw [ihun p (fun fz hfz => hp fz (List.mem_cons_of_mem fx hfz))]
      exact itemAt_patch_ne _ _ _ _ (hp fx (List.mem_cons_self fx l))

theorem inv_block_prologue {s : EmitState} {bid : Nat} {info : BlockInfo}
    (hbi : s.blockInfo[bid]? = some info)
    (hoffn : info.offset = none)
    (hi : EInv s) :
    EInv { s with
      ue := info.forwardJumps.foldl
        (fun ue fx => ue.patch32 fx.jmpImmedOff
          (enc32 ((s.ue.bcPos : Int) - (fx.instrOff : Int)))) s.ue,
      blockInfo := s.blockInfo.set bid
        { info with offset := some s.ue.bcPos,
                    expectedStackDepth := some (info.expectedStackDepth.getD 0),
                    expectedFPIDepth := some (info.expectedFPIDepth.getD 0) },
      curDepth := info.expectedStackDepth.getD 0,
      gEntryDepths := s.gEntryDepths ++ [(bid, info.expectedStackDepth.getD 0)],
      gFpiEntries := s.gFpiEntries ++ [(bid, info.expectedFPIDepth.getD 0)] } := by
  obtain ⟨hbr, hdep, hfpi, hdef⟩ := hi
  have hph : ∀ fx ∈ info.forwardJumps, ∃ w,
      s.ue.itemAt fx.jmpImmedOff = some (Item.int32 w) := by
    intro fx hfx
    have hrec := hbr.fixMem bid info hbi fx hfx
    obtain ⟨bi', hbi', hcase⟩ := hbr.brs _ hrec
    rw [hbi] at hbi'
    have hbeq : bi' = info := (Option.some_inj.mp hbi').symm
    subst hbeq
    rcases hcase with ⟨o, ho, _⟩ | ⟨_, _, hval⟩
    · rw [hoffn] at ho
      exact absurd ho (by simp)
    · exact ⟨enc32 0, hval⟩
  obtain ⟨hwf2, hset2, hun2⟩ := patch_fold32
    (fun fx => enc32 ((s.ue.bcPos : Int) - (fx.instrOff : Int)))
    info.forwardJumps s.ue hbr.ueWF hph (hbr.fixInc bid info hbi)
  have hpos2 : (info.forwardJumps.foldl
      (fun ue fx => ue.patch32 fx.jmpImmedOff
        (enc32 ((s.ue.bcPos : Int) - (fx.instrOff : Int)))) s.ue).bcPos =
      s.ue.bcPos := patch_fold_pos _ _ _
  have hlt : bid < s.blockInfo.length := lookup_lt hbi
  have hgetbid : (s.blockInfo.set bid
      { info with offset := some s.ue.bcPos,
                  expectedStackDepth := some (info.expectedStackDepth.getD 0),
                  expectedFPIDepth := some (info.expectedFPIDepth.getD 0) })[bid]? =
      some { info with offset := some s.ue.bcPos,
                       expectedStackDepth := some (info.expectedStackDepth.getD 0),
                       expectedFPIDepth := some (info.expectedFPIDepth.getD 0) } :=
    List.getElem?_set_self hlt
  have hgetne : ∀ c : Nat, c ≠ bid → (s.blockInfo.set bid
      { info with offset := some s.ue.bcPos,
                  expectedStackDepth := some (info.expectedStackDepth.getD 0),
                  expectedFPIDepth := some (info.expectedFPIDepth.getD 0) })[c]? =
      s.blockInfo[c]? := by
    intro c hc
    exact List.getElem?_set_ne (fun hh => hc hh.symm)
  have hENN : (0 : Int) ≤ info.expectedStackDepth.getD 0 := by
    cases hesd : info.expectedStackDepth with
    | none => exact le_refl 0
    | some d => exact hdep.expNN bid info d hbi hesd
  have himm : ∀ (r : BranchRec), r ∈ s.gBranches → r.target ≠ bid →
      ∀ fx ∈ info.forwardJumps, r.jmpImmedOff ≠ fx.jmpImmedOff := by
    intro r hr hrt fx hfx he
    have hrec := hbr.fixMem bid info hbi fx hfx
    have heq : r = ⟨fx.instrOff, fx.jmpImmedOff, bid⟩ :=
      pairwise_mem_eq hbr.brsInc hr hrec
        (fun hl => by rw [he] at hl; exact lt_irrefl _ hl)
        (fun hl => by rw [he] at hl; exact lt_irrefl _ hl)
    exact hrt (by rw [heq])
  refine ⟨⟨hwf2, ?_, ?_, hbr.brsInc, ?_, ?_⟩,
          ⟨?_, ?_, ?_, ?_, ?_, ?_, hENN, ?_, hdep.depNN, hdep.retOne⟩,
          ⟨?_, ?_, hfpi.stackLast, hfpi.stackOpen, hfpi.stackOrd, hfpi.regsOk,
           hfpi.regsNest, hfpi.crossOk, hfpi.regsCloses, hfpi.closesOk,
           hfpi.stkDelta⟩,
          ⟨hdef.defg, hdef.defNodup⟩⟩
  · -- brs
    intro r hr
    obtain ⟨bi', hbi', hcase⟩ := hbr.brs r hr
    by_cases hc : r.target = bid
    · rw [hc, hbi] at hbi'
      have hbeq : info = bi' := Option.some_inj.mp hbi'
      subst hbeq
      rcases hcase with ⟨o, ho, _⟩ | ⟨_, hmem, _⟩
      · rw [hoffn] at ho
        exact absurd ho (by simp)
      · refine ⟨{ info with offset := some s.ue.bcPos, expectedStackDepth := some (info.expectedStackDepth.getD 0), expectedFPIDepth := some (info.expectedFPIDepth.getD 0) }, ?_, Or.inl ⟨s.ue.bcPos, rfl, ?_⟩⟩
        · show (s.blockInfo.set bid _)[r.target]? = some _
          rw [hc]
          exact hgetbid
        · exact hset2 ⟨r.instrOff, r.jmpImmedOff⟩ hmem
    · refine ⟨bi', ?_, ?_⟩
      · show (s.blockInfo.set bid _)[r.target]? = some bi'
        rw [hgetne r.target hc]
        exact hbi'
      · rcases hcase with ⟨o, ho, hval⟩ | ⟨hn, hm, hval⟩
        · exact Or.inl ⟨o, ho, (hun2 r.jmpImmedOff (himm r hr hc)).trans hval⟩
        · exact Or.inr ⟨hn, hm, (hun2 r.jmpImmedOff (himm r hr hc)).trans hval⟩
  · -- brsPos
    intro r hr
    exact le_of_le_of_eq (hbr.brsPos r hr) hpos2.symm
  · -- fixMem
    intro b bi hb fx hfx
    by_cases hc : b = bid
    · subst hc
      rw [hgetbid] at hb
      have hbeq : bi = _ := (Option.some_inj.mp hb).symm
      subst hbeq
      exact hbr.fixMem b info hbi fx hfx
    · rw [hgetne b hc] at hb
      exact hbr.fixMem b bi hb fx hfx
  · -- fixInc
    intro b bi hb
    by_cases hc : b = bid
    · subst hc
      rw [hgetbid] at hb
      have hbeq : bi = _ := (Option.some_inj.mp hb).symm
      subst hbeq
      exact hbr.fixInc b info hbi
    · rw [hgetne b hc] at hb
      exact hbr.fixInc b bi hb
  · -- dset
    intro pr hpr
    obtain ⟨bi, hb, he⟩ := hdep.dset pr hpr
    by_cases hc : pr.1 = bid
    · rw [hc, hbi] at hb
      have hbeq : info = bi := Option.some_inj.mp hb
      subst hbeq
      refine ⟨{ info with offset := some s.ue.bcPos, expectedStackDepth := some (info.expectedStackDepth.getD 0), expectedFPIDepth := some (info.expectedFPIDepth.getD 0) }, ?_, ?_⟩
      · rw [hc]
        exact hgetbid
      · show some (info.expectedStackDepth.getD 0) = some pr.2
        rw [he]
        rfl
    · exact ⟨bi, by rw [hgetne pr.1 hc]; exact hb, he⟩
  · -- dent
    intro pr hpr
    rcases List.mem_append.mp hpr with hpr | hpr
    · obtain ⟨bi, hb, he⟩ := hdep.dent pr hpr
      by_cases hc : pr.1 = bid
      · rw [hc, hbi] at hb
        have hbeq : info = bi := Option.some_inj.mp hb
        subst hbeq
        refine ⟨{ info with offset := some s.ue.bcPos, expectedStackDepth := some (info.expectedStackDepth.getD 0), expectedFPIDepth := some (info.expectedFPIDepth.getD 0) }, ?_, ?_⟩
        · rw [hc]
          exact hgetbid
        · show some (info.expectedStackDepth.getD 0) = some pr.2
          rw [he]
          rfl
      · exact ⟨bi, by rw [hgetne pr.1 hc]; exact hb, he⟩
    · have hpr2 : pr = (bid, info.expectedStackDepth.getD 0) := by simpa using hpr
      subst hpr2
      exact ⟨_, hgetbid, rfl⟩
  · -- dorigin
    intro b bi d hb he
    by_cases hc : b = bid
    · subst hc
      rw [hgetbid] at hb
      have hbeq : bi = _ := (Option.some_inj.mp hb).symm
      subst hbeq
      have hd : d = info.expectedStackDepth.getD 0 := (Option.some_inj.mp he).symm
      subst hd
      cases hesd : info.expectedStackDepth with
      | none =>
        exact Or.inr ⟨rfl, List.mem_append.mpr (Or.inr (List.mem_singleton.mpr rfl))⟩
      | some d0 =>
        rcases hdep.dorigin b info d0 hbi hesd with hO | ⟨hz, hO⟩
        · exact Or.inl hO
        · exact Or.inr ⟨hz, List.mem_append.mpr (Or.inl hO)⟩
    · rw [hgetne b hc] at hb
      rcases hdep.dorigin b bi d hb he with hO | ⟨hz, hO⟩
      · exact Or.inl hO
      · exact Or.inr ⟨hz, List.mem_append.mpr (Or.inl hO)⟩
  · -- fset
    intro pr hpr
    obtain ⟨bi, hb, he⟩ := hdep.fset pr hpr
    by_cases hc : pr.1 = bid
    · rw [hc, hbi] at hb
      have hbeq : info = bi := Option.some_inj.mp hb
      subst hbeq
      refine ⟨{ info with offset := some s.ue.bcPos, expectedStackDepth := some (info.expectedStackDepth.getD 0), expectedFPIDepth := some (info.expectedFPIDepth.getD 0) }, ?_, ?_⟩
      · rw [hc]
        exact hgetbid
      · show some (info.expectedFPIDepth.getD 0) = some pr.2
        rw [he]
        rfl
    · exact ⟨bi, by rw [hgetne pr.1 hc]; exact hb, he⟩
  · -- fent
    intro pr hpr
    rcases List.mem_append.mp hpr with hpr | hpr
    · obtain ⟨bi, hb, he⟩ := hdep.fent pr hpr
      by_cases hc : pr.1 = bid
      · rw [hc, hbi] at hb
        have hbeq : info = bi := Option.some_inj.mp hb
        subst hbeq
        refine ⟨{ info with offset := some s.ue.bcPos, expectedStackDepth := some (info.expectedStackDepth.getD 0), expectedFPIDepth := some (info.expectedFPIDepth.getD 0) }, ?_, ?_⟩
        · rw [hc]
          exact hgetbid
        · show some (info.expectedFPIDepth.getD 0) = some pr.2
          rw [he]
          rfl
      · exact ⟨bi, by rw [hgetne pr.1 hc]; exact hb, he⟩
    · have hpr2 : pr = (bid, info.expectedFPIDepth.getD 0) := by simpa using hpr
      subst hpr2
      exact ⟨_, hgetbid, rfl⟩
  · -- forigin
    intro b bi d hb he
    by_cases hc : b = bid
    · subst hc
      rw [hgetbid] at hb
      have hbeq : bi = _ := (Option.some_inj.mp hb).symm
      subst hbeq
      have hd : d = info.expectedFPIDepth.getD 0 := (Option.some_inj.mp he).symm
      subst hd
      cases hesd : info.expectedFPIDepth with
      | none =>
        exact Or.inr ⟨rfl, List.mem_append.mpr (Or.inr (List.mem_singleton.mpr rfl))⟩
      | some d0 =>
        rcases hdep.forigin b info d0 hbi hesd with hO | ⟨hz, hO⟩
        · exact Or.inl hO
        · exact Or.inr ⟨hz, List.mem_append.mpr (Or.inl hO)⟩
    · rw [hgetne b hc] at hb
      rcases hdep.forigin b bi d hb he with hO | ⟨hz, hO⟩
      · exact Or.inl hO
      · exact Or.inr ⟨hz, List.mem_append.mpr (Or.inl hO)⟩
  · -- expNN
    intro b bi d hb he
    by_cases hc : b = bid
    · subst hc
      rw [hgetbid] at hb
      have hbeq : bi = _ := (Option.some_inj.mp hb).symm
      subst hbeq
      have hd : d = info.expectedStackDepth.getD 0 := (Option.some_inj.mp he).symm
      subst hd
      exact hENN
    · rw [hgetne b hc] at hb
      exact hdep.expNN b bi d hb he
  · -- lastLe
    exact le_of_le_of_eq hfpi.lastLe hpos2.symm
  · -- stackLt
    intro o ho
    exact lt_of_lt_of_eq (hfpi.stackLt o ho) hpos2.symm

theorem InvFpi_transfer {s t : EmitState}
    (hpos : t.ue.bcPos = s.ue.bcPos) (hlast : t.lastOff = s.lastOff)
    (hstk : t.fpiStack = s.fpiStack) (hregs : t.fpiRegions = s.fpiRegions)
    (hgc : t.gCloses = s.gCloses) (h : InvFpi s) : InvFpi t := by
  refine ⟨?_, ?_, ?_, ?_, ?_, ?_, ?_, ?_, ?_, ?_, ?_⟩
  · rw [hlast, hpos]
    exact h.lastLe
  · intro o ho
    rw [hstk] at ho
    rw [hpos]
    exact h.stackLt o ho
  · intro o ho
    rw [hstk] at ho
    rw [hlast]
    exact h.stackLast o ho
  · intro o ho
    rw [hstk] at ho
    exact h.stackOpen o ho
  · rw [hstk]
    exact h.stackOrd
  · intro r hr
    rw [hregs] at hr
    obtain ⟨e, h1, h2, h3⟩ := h.regsOk r hr
    exact ⟨e, h1, h2, by rw [hlast]; exact h3⟩
  · rw [hregs]
    exact h.regsNest
  · intro r hr o ho
    rw [hregs] at hr
    rw [hstk] at ho
    exact h.crossOk r hr o ho
  · rw [hregs, hgc]
    exact h.regsCloses
  · intro rc hrc
    rw [hgc] at hrc
    exact h.closesOk rc hrc
  · intro o ho
    rw [hstk] at ho
    exact h.stkDelta o ho

theorem InvDef_transfer {s t : EmitState} (hdcm : t.defClsMap = s.defClsMap)
    (hg : t.gDefCls = s.gDefCls) (h : InvDef s) : InvDef t := by
  refine ⟨?_, ?_⟩
  · intro pr hpr
    rw [hg] at hpr
    rw [hdcm]
    exact h.defg pr hpr
  · rw [hg]
    exact h.defNodup

theorem set_field_maps {γ : Type} {l : List BlockInfo} {bid : Nat} {info : BlockInfo}
    (info2 : BlockInfo) (hbi : l[bid]? = some info)
    (g : BlockInfo → γ) (hg : g info2 = g info) :
    ∀ c : Nat, ((l.set bid info2)[c]?).map g = (l[c]?).map g := by
  intro c
  by_cases hc : c = bid
  · subst hc
    rw [List.getElem?_set_self (lookup_lt hbi), hbi]
    show some (g info2) = some (g info)
    rw [hg]
  · rw [List.getElem?_set_ne (fun hh => hc hh.symm)]

theorem inv_setBlockPast {s t : EmitState} {bid p : Nat}
    (h : setBlockPast bid p s = some t) (hi : EInv s) :
    EInv t ∧ t.ue = s.ue ∧ t.lastOff = s.lastOff ∧ t.fpiStack = s.fpiStack ∧
    t.curDepth = s.curDepth ∧
    (∀ c : Nat, (t.blockInfo[c]?).map (fun bi => bi.offset) =
      (s.blockInfo[c]?).map (fun bi => bi.offset)) := by
  unfold setBlockPast at h
  cases hbl : s.blockInfo[bid]? with
  | none => rw [hbl] at h; exact absurd h (by simp)
  | some info =>
    rw [hbl] at h
    simp only [Option.bind_eq_bind, Option.some_bind] at h
    injection h with h
    subst h
    have hoffs := set_field_maps (l := s.blockInfo) { info with past := some p } hbl
      (fun bi => bi.offset) rfl
    refine ⟨⟨?_, ?_, ?_, ?_⟩, rfl, rfl, rfl, rfl, hoffs⟩
    · exact InvBr_transfer (s := s) rfl rfl hoffs
        (set_field_maps (l := s.blockInfo) _ hbl (fun bi => bi.forwardJumps) rfl) hi.br
    · exact InvDepth_transfer (s := s)
        (set_field_maps (l := s.blockInfo) _ hbl (fun bi => bi.expectedStackDepth) rfl)
        (set_field_maps (l := s.blockInfo) _ hbl (fun bi => bi.expectedFPIDepth) rfl)
        rfl rfl rfl rfl rfl rfl rfl hi.dep
    · exact InvFpi_transfer (s := s) rfl rfl rfl rfl rfl hi.fpi
    · exact InvDef_transfer (s := s) rfl rfl hi.dfs

theorem inv_setRegionsToPop {s t : EmitState} {bid n : Nat}
    (h : setRegionsToPop bid n s = some t) (hi : EInv s) :
    EInv t ∧ t.ue = s.ue ∧ t.lastOff = s.lastOff ∧ t.fpiStack = s.fpiStack ∧
    t.curDepth = s.curDepth ∧
    (∀ c : Nat, (t.blockInfo[c]?).map (fun bi => bi.offset) =
      (s.blockInfo[c]?).map (fun bi => bi.offset)) := by
  unfold setRegionsToPop at h
  cases hbl : s.blockInfo[bid]? with
  | none => rw [hbl] at h; exact absurd h (by simp)
  | some info =>
    rw [hbl] at h
    simp only [Option.bind_eq_bind, Option.some_bind] at h
    injection h with h
    subst h
    have hoffs := set_field_maps (l := s.blockInfo) { info with regionsToPop := n } hbl
      (fun bi => bi.offset) rfl
    refine ⟨⟨?_, ?_, ?_, ?_⟩, rfl, rfl, rfl, rfl, hoffs⟩
    · exact InvBr_transfer (s := s) rfl rfl hoffs
        (set_field_maps (l := s.blockInfo) _ hbl (fun bi => bi.forwardJumps) rfl) hi.br
    · exact InvDepth_transfer (s := s)
        (set_field_maps (l := s.blockInfo) _ hbl (fun bi => bi.expectedStackDepth) rfl)
        (set_field_maps (l := s.blockInfo) _ hbl (fun bi => bi.expectedFPIDepth) rfl)
        rfl rfl rfl rfl rfl rfl rfl hi.dep
    · exact InvFpi_transfer (s := s) rfl rfl rfl rfl rfl hi.fpi
    · exact InvDef_transfer (s := s) rfl rfl hi.dfs

theorem sed_mid {s t : EmitState} {bid : Nat} (h : set_expected_depth bid s = some t) :
    t.ue = s.ue ∧ t.lastOff = s.lastOff ∧ t.fpiStack = s.fpiStack ∧
    t.curDepth = s.curDepth ∧
    (∀ c : Nat, (t.blockInfo[c]?).map (fun bi => bi.offset) =
      (s.blockInfo[c]?).map (fun bi => bi.offset)) := by
  obtain ⟨info, info2, hbi, hOff, _, _, _, _, _, _, _, ht⟩ := set_expected_depth_spec h
  subst ht
  exact ⟨rfl, rfl, rfl, rfl, set_field_maps info2 hbi (fun bi => bi.offset) hOff⟩

theorem inv_drainFpi : ∀ (k : Nat) {off : Nat} {s t : EmitState},
    drainFpi k off s = some t → off = s.lastOff → EInv s →
    EInv t ∧ t.ue = s.ue ∧ t.blockInfo = s.blockInfo ∧ t.lastOff = s.lastOff ∧
      t.curDepth = s.curDepth := by
  intro k
  induction k with
  | zero =>
    intro off s t h _ hi
    unfold drainFpi at h
    injection h with h
    subst h
    exact ⟨hi, rfl, rfl, rfl, rfl⟩
  | succ k ih =>
    intro off s t h hoff hi
    unfold drainFpi at h
    obtain ⟨s2, h1, h2⟩ := Option.bind_eq_some.mp h
    have hiv := inv_end_fpi h1 hoff (fun hk => nomatch hk) hi
    obtain ⟨top, rest, hsk, hsp⟩ := end_fpi_spec h1
    subst hsp
    obtain ⟨hi3, hue3, hbi3, hlast3, hcur3⟩ := ih h2 hoff hiv
    exact ⟨hi3, hue3, hbi3, hlast3, hcur3⟩

theorem bcOk_mkJmp (t : Nat) : BcOk (mkJmp t) := by
  intro hcon
  simp [mkJmp] at hcon

theorem bcOk_mkJmpNS (t : Nat) : BcOk (mkJmpNS t) := by
  intro hcon
  simp [mkJmpNS] at hcon

theorem inv_emit_block {f : Func} {b : Block} {next : Option Nat} {s t : EmitState}
    (h : emit_block f b next s = some t)
    (hoks : ∀ i ∈ b.hhbcs, BcOk i)
    (hoffn : (s.blockInfo[b.id]?).map (fun bi => bi.offset) = some none)
    (hi : EInv s) :
    EInv t ∧ s.ue.bcPos ≤ t.ue.bcPos ∧
    (∀ c : Nat, c ≠ b.id →
      (t.blockInfo[c]?).map (fun bi => bi.offset) =
        (s.blockInfo[c]?).map (fun bi => bi.offset)) ∧
    (t.blockInfo[b.id]?).map (fun bi => bi.offset) = some (some s.ue.bcPos) := by
  obtain ⟨info, hbl, hoffi0⟩ := map_lookup_some hoffn
  have hoffi : info.offset = none := hoffi0
  unfold emit_block at h
  obtain ⟨info0, hbl0, h⟩ := Option.bind_eq_some.mp h
  rw [hbl] at hbl0
  have hinfo : info = info0 := Option.some_inj.mp hbl0
  subst hinfo
  simp only [] at h
  split at h
  · exact absurd h (by simp)
  · obtain ⟨s3, h3, h⟩ := Option.bind_eq_some.mp h
    obtain ⟨hi3, hue3, hbi3, hlast3, hcur3⟩ :=
      inv_drainFpi _ h3 rfl (inv_block_prologue hbl hoffi hi)
    have hp3 : s3.ue.bcPos = s.ue.bcPos := by
      rw [hue3]
      exact patch_fold_pos _ _ _
    have hPbid : (s3.blockInfo[b.id]?).map (fun bi => bi.offset) =
        some (some s.ue.bcPos) := by
      rw [hbi3]
      show ((s.blockInfo.set b.id { info with offset := some s.ue.bcPos, expectedStackDepth := some (info.expectedStackDepth.getD 0), expectedFPIDepth := some (info.expectedFPIDepth.getD 0) })[b.id]?).map (fun bi => bi.offset) = some (some s.ue.bcPos)
      rw [List.getElem?_set_self (lookup_lt hbl)]
      rfl
    have hPne : ∀ c : Nat, c ≠ b.id →
        (s3.blockInfo[c]?).map (fun bi => bi.offset) =
          (s.blockInfo[c]?).map (fun bi => bi.offset) := by
      intro c hc
      rw [hbi3]
      show ((s.blockInfo.set b.id { info with offset := some s.ue.bcPos, expectedStackDepth := some (info.expectedStackDepth.getD 0), expectedFPIDepth := some (info.expectedFPIDepth.getD 0) })[c]?).map (fun bi => bi.offset) = (s.blockInfo[c]?).map (fun bi => bi.offset)
      rw [List.getElem?_set_ne (fun hh => hc hh.symm)]
    obtain ⟨s4, h4, h⟩ := Option.bind_eq_some.mp h
    obtain ⟨hi4, hst4⟩ := inv_emit_insts b.hhbcs h4 hoks hi3
    obtain ⟨s5, h5, h⟩ := Option.bind_eq_some.mp h
    obtain ⟨hi5, hue5, hlast5, hstk5, hcur5, hoffs5⟩ := inv_setBlockPast h5 hi4
    have hp4 := hst4.pos_mono
    rw [hp3] at hp4
    have hp5 : s.ue.bcPos ≤ s5.ue.bcPos := by
      rw [hue5]
      exact hp4
    have hPbid5 : (s5.blockInfo[b.id]?).map (fun bi => bi.offset) =
        some (some s.ue.bcPos) :=
      (hoffs5 b.id).trans ((hst4.offs_eq b.id).trans hPbid)
    have hPne5 : ∀ c : Nat, c ≠ b.id →
        (s5.blockInfo[c]?).map (fun bi => bi.offset) =
          (s.blockInfo[c]?).map (fun bi => bi.offset) :=
      fun c hc => (hoffs5 c).trans ((hst4.offs_eq c).trans (hPne c hc))
    cases hft : b.fallthrough with
    | none =>
      rw [hft] at h
      injection h with h
      subst h
      exact ⟨hi5, hp5, hPne5, hPbid5⟩
    | some ft =>
      rw [hft] at h
      obtain ⟨s6, h6, h⟩ := Option.bind_eq_some.mp h
      have hi6 := inv_set_expected_depth h6 hi5
      obtain ⟨hue6, hlast6, hstk6, hcur6, hoffs6⟩ := sed_mid h6
      have hp6 : s.ue.bcPos ≤ s6.ue.bcPos := by
        rw [hue6]
        exact hp5
      have hPbid6 : (s6.blockInfo[b.id]?).map (fun bi => bi.offset) =
          some (some s.ue.bcPos) := (hoffs6 b.id).trans hPbid5
      have hPne6 : ∀ c : Nat, c ≠ b.id →
          (s6.blockInfo[c]?).map (fun bi => bi.offset) =
            (s.blockInfo[c]?).map (fun bi => bi.offset) :=
        fun c hc => (hoffs6 c).trans (hPne5 c hc)
      split at h
      · injection h with h
        subst h
        exact ⟨hi6, hp6, hPne6, hPbid6⟩
      · obtain ⟨s7, h7, h⟩ := Option.bind_eq_some.mp h
        have hokj : BcOk (if b.fallthroughNS = true then mkJmpNS ft else mkJmp ft) := by
          split
          · exact bcOk_mkJmpNS ft
          · exact bcOk_mkJmp ft
        obtain ⟨hi7, hst7⟩ := inv_emit_inst h7 hokj hi6
        have hp7 : s.ue.bcPos ≤ s7.ue.bcPos := le_trans hp6 hst7.pos_mono
        have hPbid7 : (s7.blockInfo[b.id]?).map (fun bi => bi.offset) =
            some (some s.ue.bcPos) := (hst7.offs_eq b.id).trans hPbid6
        have hPne7 : ∀ c : Nat, c ≠ b.id →
            (s7.blockInfo[c]?).map (fun bi => bi.offset) =
              (s.blockInfo[c]?).map (fun bi => bi.offset) :=
          fun c hc => (hst7.offs_eq c).trans (hPne6 c hc)
        obtain ⟨ftBlk, hftb, h⟩ := Option.bind_eq_some.mp h
        obtain ⟨parent, hpar, h⟩ := Option.bind_eq_some.mp h
        cases hbe : b.exnNode with
        | none =>
          rw [hbe] at h
          obtain ⟨hiT, hueT, hlastT, hstkT, hcurT, hoffsT⟩ := inv_setRegionsToPop h hi7
          exact ⟨hiT, by rw [hueT]; exact hp7,
            fun c hc => (hoffsT c).trans (hPne7 c hc), (hoffsT b.id).trans hPbid7⟩
        | some bn =>
          rw [hbe] at h
          obtain ⟨bd, hbd, h⟩ := Option.bind_eq_some.mp h
          obtain ⟨pd, hpd, h⟩ := Option.bind_eq_some.mp h
          split at h
          · exact absurd h (by simp)
          · obtain ⟨hiT, hueT, hlastT, hstkT, hcurT, hoffsT⟩ := inv_setRegionsToPop h hi7
            exact ⟨hiT, by rw [hueT]; exact hp7,
              fun c hc => (hoffsT c).trans (hPne7 c hc), (hoffsT b.id).trans hPbid7⟩

theorem lookup_mem {α : Type} {l : List α} {i : Nat} {a : α} (h : l[i]? = some a) :
    a ∈ l := by
  rcases List.getElem?_eq_some_iff.mp h with ⟨hlt, he⟩
  rw [← he]
  exact List.getElem_mem hlt

theorem EInv_init {ue0 : UE} {dcm : List (Option Nat)} {g0 : List (Nat × Nat)} {f : Func}
    (hwf : UEwf ue0)
    (hdefg : ∀ pr ∈ g0, dcm[pr.1]? = some (some pr.2))
    (hnd : (g0.map Prod.fst).Nodup) :
    EInv (initState ue0 dcm g0 f) := by
  have hrep : ∀ (c : Nat) (bi : BlockInfo),
      (List.replicate f.blocks.length ({} : BlockInfo))[c]? = some bi → bi = {} := by
    intro c bi hb
    rw [List.getElem?_replicate] at hb
    split at hb
    · exact (Option.some_inj.mp hb).symm
    · exact absurd hb (by simp)
  refine ⟨⟨hwf, ?_, ?_, List.Pairwise.nil, ?_, ?_⟩,
          ⟨?_, ?_, ?_, ?_, ?_, ?_, le_refl 0, ?_, ?_, ?_⟩,
          ⟨Nat.zero_le _, ?_, ?_, ?_, List.Pairwise.nil, ?_, List.Pairwise.nil, ?_,
           rfl, ?_, ?_⟩,
          ⟨hdefg, hnd⟩⟩
  · intro r hr
    exact absurd hr (List.not_mem_nil r)
  · intro r hr
    exact absurd hr (List.not_mem_nil r)
  · intro b bi hb fx hfx
    have hb2 := hrep b bi hb
    subst hb2
    exact absurd hfx (List.not_mem_nil fx)
  · intro b bi hb
    have hb2 := hrep b bi hb
    subst hb2
    exact List.Pairwise.nil
  · intro pr hpr
    exact absurd hpr (List.not_mem_nil pr)
  · intro pr hpr
    exact absurd hpr (List.not_mem_nil pr)
  · intro b bi d hb he
    have hb2 := hrep b bi hb
    subst hb2
    exact absurd he (by simp)
  · intro pr hpr
    exact absurd hpr (List.not_mem_nil pr)
  · intro pr hpr
    exact absurd hpr (List.not_mem_nil pr)
  · intro b bi d hb he
    have hb2 := hrep b bi hb
    subst hb2
    exact absurd he (by simp)
  · intro b bi d hb he
    have hb2 := hrep b bi hb
    subst hb2
    exact absurd he (by simp)
  · intro d hd
    exact absurd hd (List.not_mem_nil d)
  · intro d hd
    exact absurd hd (List.not_mem_nil d)
  · intro o ho
    exact absurd ho (List.not_mem_nil o)
  · intro o ho
    exact absurd ho (List.not_mem_nil o)
  · intro o ho
    exact absurd ho (List.not_mem_nil o)
  · intro r hr
    exact absurd hr (List.not_mem_nil r)
  · intro r hr o ho
    exact absurd hr (List.not_mem_nil r)
  · intro rc hrc
    exact absurd hrc (List.not_mem_nil rc)
  · intro o ho
    exact absurd ho (List.not_mem_nil o)

theorem order_blocks_facts {f : Func} {layout : List Nat} {f2 : Func}
    (h : order_blocks f = some (layout, f2)) :
    f2.blocks.length = f.blocks.length ∧
    ((∀ (bid : Nat) (blk : Block), f.blocks[bid]? = some blk → blk.id = bid) →
      ∀ (bid : Nat) (blk : Block), f2.blocks[bid]? = some blk → blk.id = bid) ∧
    (FuncOk f → FuncOk f2) := by
  unfold order_blocks at h
  obtain ⟨hd, hhd, h⟩ := Option.bind_eq_some.mp h
  obtain ⟨fstId, hfst, h⟩ := Option.bind_eq_some.mp h
  obtain ⟨fb, hfb, h⟩ := Option.bind_eq_some.mp h
  split at h
  · injection h with h
    have hf2 : f2 = { f with blocks := f.blocks.set fstId { fb with hhbcs := [entryNopBc] } } := by
      have hsnd := congrArg Prod.snd h
      exact hsnd.symm
    subst hf2
    refine ⟨List.length_set f.blocks fstId _, ?_, ?_⟩
    · intro hids bid blk hb
      by_cases hc : bid = fstId
      · subst hc
        rw [List.getElem?_set_self (lookup_lt hfb)] at hb
        have hblk : blk = { fb with hhbcs := [entryNopBc] } :=
          (Option.some_inj.mp hb).symm
        subst hblk
        exact hids bid fb hfb
      · rw [List.getElem?_set_ne (fun hh => hc hh.symm)] at hb
        exact hids bid blk hb
    · intro hok blk hblk i hi
      rcases List.mem_or_eq_of_mem_set hblk with hmem | heq
      · exact hok blk hmem i hi
      · subst heq
        have hi2 : i = entryNopBc := by simpa using hi
        subst hi2
        intro hcon
        simp [entryNopBc] at hcon
  · injection h with h
    have hf2 : f2 = f := by
      have := congrArg Prod.snd h
      exact this.symm
    subst hf2
    exact ⟨rfl, fun hids => hids, fun hok => hok⟩

theorem inv_emit_blocks {f : Func} :
    ∀ (layout : List Nat) {s t : EmitState},
      emit_blocks f layout s = some t →
      (∀ (bid : Nat) (blk : Block), f.blocks[bid]? = some blk → blk.id = bid) →
      FuncOk f →
      (∀ bid ∈ layout, (s.blockInfo[bid]?).map (fun bi => bi.offset) = some none) →
      layout.Nodup →
      EInv s →
      EInv t ∧ s.ue.bcPos ≤ t.ue.bcPos ∧
      (∀ c : Nat, c ∉ layout →
        (t.blockInfo[c]?).map (fun bi => bi.offset) =
          (s.blockInfo[c]?).map (fun bi => bi.offset)) ∧
      (∀ bid ∈ layout, ∃ o : Nat, (t.blockInfo[bid]?).map (fun bi => bi.offset) =
        some (some o)) := by
  intro layout
  induction layout with
  | nil =>
    intro s t h _ _ _ _ hi
    unfold emit_blocks at h
    injection h with h
    subst h
    exact ⟨hi, le_refl _, fun c _ => rfl, fun bid hbid => absurd hbid (List.not_mem_nil bid)⟩
  | cons bid rest ih =>
    intro s t h hids hok hnone hnd hi
    unfold emit_blocks at h
    obtain ⟨blk, hblk, h⟩ := Option.bind_eq_some.mp h
    obtain ⟨s2, hb2, h⟩ := Option.bind_eq_some.mp h
    have hbid : blk.id = bid := hids bid blk hblk
    have hoffn : (s.blockInfo[blk.id]?).map (fun bi => bi.offset) = some none := by
      rw [hbid]
      exact hnone bid (List.mem_cons_self bid rest)
    obtain ⟨hi2, hp2, hne2, hbid2⟩ :=
      inv_emit_block hb2 (hok blk (lookup_mem hblk)) hoffn hi
    rw [List.nodup_cons] at hnd
    obtain ⟨hnotin, hndr⟩ := hnd
    have hnone2 : ∀ b ∈ rest, (s2.blockInfo[b]?).map (fun bi => bi.offset) = some none := by
      intro b hb
      have hne : b ≠ blk.id := by
        rw [hbid]
        intro hh
        exact hnotin (hh ▸ hb)
      exact (hne2 b hne).trans (hnone b (List.mem_cons_of_mem bid hb))
    obtain ⟨hi3, hp3, hne3, hsome3⟩ := ih h hids hok hnone2 hndr hi2
    refine ⟨hi3, le_trans hp2 hp3, ?_, ?_⟩
    · intro c hc
      rw [List.mem_cons] at hc
      push_neg at hc
      obtain ⟨hc1, hc2⟩ := hc
      refine (hne3 c hc2).trans (hne2 c ?_)
      rw [hbid]
      exact hc1
    · intro b hb
      rcases List.mem_cons.mp hb with rfl | hb2
      · refine ⟨s.ue.bcPos, ?_⟩
        have hb3 : b ∉ rest := hnotin
        refine (hne3 b hb3).trans ?_
        rw [← hbid]
        exact hbid2
      · exact hsome3 b hb2

theorem inv_drainAllFpi : ∀ (k : Nat) {s t : EmitState},
    drainAllFpi k s = some t → EInv s →
    EInv t ∧ t.ue = s.ue ∧ t.blockInfo = s.blockInfo ∧
      (s.fpiStack.length ≤ k → t.fpiStack = []) := by
  intro k
  induction k with
  | zero =>
    intro s t h hi
    unfold drainAllFpi at h
    injection h with h
    subst h
    refine ⟨hi, rfl, rfl, ?_⟩
    intro hlen
    exact List.eq_nil_of_length_eq_zero (Nat.le_zero.mp hlen)
  | succ k ih =>
    intro s t h hi
    unfold drainAllFpi at h
    cases hstk : s.fpiStack with
    | nil =>
      rw [hstk] at h
      injection h with h
      subst h
      exact ⟨hi, rfl, rfl, fun _ => hstk⟩
    | cons top rest =>
      rw [hstk] at h
      obtain ⟨s2, h1, h2⟩ := Option.bind_eq_some.mp h
      have hiv := inv_end_fpi h1 rfl (fun hk => nomatch hk) hi
      obtain ⟨top2, rest2, hsk2, hsp⟩ := end_fpi_spec h1
      subst hsp
      obtain ⟨hi3, hue3, hbi3, hstk3⟩ := ih h2 hiv
      refine ⟨hi3, hue3, hbi3, ?_⟩
      intro hlen
      refine hstk3 ?_
      show rest2.length ≤ k
      have hre : rest = rest2 := by
        rw [hstk] at hsk2
        injection hsk2
      subst hre
      have hlen2 : rest.length + 1 ≤ k + 1 := by simpa using hlen
      omega

theorem inv_emit_bytecode {ue0 : UE} {dcm : List (Option Nat)} {g0 : List (Nat × Nat)}
    {f : Func} {layout : List Nat} {f2 : Func} {s : EmitState}
    (h : emit_bytecode ue0 dcm g0 f = some (layout, f2, s))
    (hwf : UEwf ue0)
    (hdefg : ∀ pr ∈ g0, dcm[pr.1]? = some (some pr.2))
    (hnd : (g0.map Prod.fst).Nodup)
    (hids : ∀ (bid : Nat) (blk : Block), f.blocks[bid]? = some blk → blk.id = bid)
    (hok : FuncOk f)
    (hlay : layout.Nodup)
    (hrange : ∀ bid ∈ layout, bid < f.blocks.length) :
    EInv s ∧
    (∀ bid ∈ layout, ∃ o : Nat,
      (s.blockInfo[bid]?).map (fun bi => bi.offset) = some (some o)) ∧
    s.fpiStack = [] := by
  unfold emit_bytecode at h
  obtain ⟨p, hord, h⟩ := Option.bind_eq_some.mp h
  obtain ⟨layout0, f20⟩ := p
  obtain ⟨s1, hebs, h⟩ := Option.bind_eq_some.mp h
  obtain ⟨s2, hda, h⟩ := Option.bind_eq_some.mp h
  injection h with h
  have he1 : layout0 = layout := congrArg Prod.fst h
  have he2 : f20 = f2 := congrArg (fun x => x.2.1) h
  have he3 : s2 = s := congrArg (fun x => x.2.2) h
  subst he1
  subst he2
  subst he3
  obtain ⟨hlen2, hids2f, hok2f⟩ := order_blocks_facts hord
  have hnone : ∀ bid ∈ layout0,
      (((initState ue0 dcm g0 f20).blockInfo)[bid]?).map (fun bi => bi.offset) =
        some none := by
    intro bid hbid
    show ((List.replicate f20.blocks.length ({} : BlockInfo))[bid]?).map
      (fun bi => bi.offset) = some none
    rw [List.getElem?_replicate, if_pos (by rw [hlen2]; exact hrange bid hbid)]
    rfl
  obtain ⟨hi1, hp1, hne1, hsome1⟩ := inv_emit_blocks layout0 hebs (hids2f hids)
    (hok2f hok) hnone hlay (EInv_init hwf hdefg hnd)
  obtain ⟨hiF, hueF, hbiF, hstkF⟩ := inv_drainAllFpi _ hda hi1
  refine ⟨hiF, ?_, hstkF (le_refl _)⟩
  intro bid hbid
  obtain ⟨o, ho⟩ := hsome1 bid hbid
  refine ⟨o, ?_⟩
  rw [hbiF]
  exact ho

/-- C7: throughout emission of a function the tracked evaluation-stack
depth stays non-negative (`pop` asserts this fatally), and every
return-family opcode is emitted at tracked depth exactly one
(`ret_assert`); the journals `gDepths`/`gRetDepths` record every
tracked depth and every return-site depth. -/
theorem C7_depth_nonneg_ret_one {ue0 : UE} {dcm : List (Option Nat)}
    {g0 : List (Nat × Nat)} {f : Func} {layout : List Nat} {f2 : Func} {s : EmitState}
    (h : emit_bytecode ue0 dcm g0 f = some (layout, f2, s))
    (hwf : UEwf ue0)
    (hdefg : ∀ pr ∈ g0, dcm[pr.1]? = some (some pr.2))
    (hnd : (g0.map Prod.fst).Nodup)
    (hids : ∀ (bid : Nat) (blk : Block), f.blocks[bid]? = some blk → blk.id = bid)
    (hok : FuncOk f)
    (hlay : layout.Nodup)
    (hrange : ∀ bid ∈ layout, bid < f.blocks.length) :
    (∀ d ∈ s.gDepths, 0 ≤ d) ∧ (∀ d ∈ s.gRetDepths, d = 1) := by
  obtain ⟨hiF, _, _⟩ := inv_emit_bytecode h hwf hdefg hnd hids hok hlay hrange
  exact ⟨hiF.dep.depNN, hiF.dep.retOne⟩

/-- C3: all `set_expected_depth` sites targeting a block agree on the
entry stack depth, the depth at block entry equals that expected depth,
a block entered with no prior set is entered at depth 0, and the same
holds for the expected FPI depth. -/
theorem C3_expected_depths {ue0 : UE} {dcm : List (Option Nat)}
    {g0 : List (Nat × Nat)} {f : Func} {layout : List Nat} {f2 : Func} {s : EmitState}
    (h : emit_bytecode ue0 dcm g0 f = some (layout, f2, s))
    (hwf : UEwf ue0)
    (hdefg : ∀ pr ∈ g0, dcm[pr.1]? = some (some pr.2))
    (hnd : (g0.map Prod.fst).Nodup)
    (hids : ∀ (bid : Nat) (blk : Block), f.blocks[bid]? = some blk → blk.id = bid)
    (hok : FuncOk f)
    (hlay : layout.Nodup)
    (hrange : ∀ bid ∈ layout, bid < f.blocks.length) :
    (∀ (b : Nat) (d d' : Int), (b, d) ∈ s.gDepthSets → (b, d') ∈ s.gDepthSets → d = d') ∧
    (∀ (b : Nat) (d d' : Int), (b, d) ∈ s.gDepthSets → (b, d') ∈ s.gEntryDepths → d = d') ∧
    (∀ (b : Nat) (d : Int), (b, d) ∈ s.gEntryDepths →
      (∀ d' : Int, (b, d') ∉ s.gDepthSets) → d = 0) ∧
    (∀ (b : Nat) (d d' : Nat), (b, d) ∈ s.gFpiSets → (b, d') ∈ s.gFpiSets → d = d') ∧
    (∀ (b : Nat) (d d' : Nat), (b, d) ∈ s.gFpiSets → (b, d') ∈ s.gFpiEntries → d = d') ∧
    (∀ (b : Nat) (d : Nat), (b, d) ∈ s.gFpiEntries →
      (∀ d' : Nat, (b, d') ∉ s.gFpiSets) → d = 0) := by
  obtain ⟨hiF, _, _⟩ := inv_emit_bytecode h hwf hdefg hnd hids hok hlay hrange
  refine ⟨?_, ?_, ?_, ?_, ?_, ?_⟩
  · intro b d d' h1 h2
    obtain ⟨bi, hb, he⟩ := hiF.dep.dset (b, d) h1
    obtain ⟨bi', hb', he'⟩ := hiF.dep.dset (b, d') h2
    rw [hb] at hb'
    have : bi = bi' := Option.some_inj.mp hb'
    subst this
    rw [he] at he'
    exact Option.some_inj.mp he'
  · intro b d d' h1 h2
    obtain ⟨bi, hb, he⟩ := hiF.dep.dset (b, d) h1
    obtain ⟨bi', hb', he'⟩ := hiF.dep.dent (b, d') h2
    rw [hb] at hb'
    have : bi = bi' := Option.some_inj.mp hb'
    subst this
    rw [he] at he'
    exact Option.some_inj.mp he'
  · intro b d h1 h2
    obtain ⟨bi, hb, he⟩ := hiF.dep.dent (b, d) h1
    rcases hiF.dep.dorigin b bi d hb he with hO | ⟨hz, _⟩
    · exact absurd hO (h2 d)
    · exact hz
  · intro b d d' h1 h2
    obtain ⟨bi, hb, he⟩ := hiF.dep.fset (b, d) h1
    obtain ⟨bi', hb', he'⟩ := hiF.dep.fset (b, d') h2
    rw [hb] at hb'
    have : bi = bi' := Option.some_inj.mp hb'
    subst this
    rw [he] at he'
    exact Option.some_inj.mp he'
  · intro b d d' h1 h2
    obtain ⟨bi, hb, he⟩ := hiF.dep.fset (b, d) h1
    obtain ⟨bi', hb', he'⟩ := hiF.dep.fent (b, d') h2
    rw [hb] at hb'
    have : bi = bi' := Option.some_inj.mp hb'
    subst this
    rw [he] at he'
    exact Option.some_inj.mp he'
  · intro b d h1 h2
    obtain ⟨bi, hb, he⟩ := hiF.dep.fent (b, d) h1
    rcases hiF.dep.forigin b bi d hb he with hO | ⟨hz, _⟩
    · exact absurd hO (h2 d)
    · exact hz

/-- C1: after a function is fully emitted, every journalled branch
record has its target's offset resolved and the 32-bit immediate in the
stream equals target offset minus the branch opcode's start offset; in
particular no forward-jump fixup is left pending. -/
theorem C1_branch_fixups {ue0 : UE} {dcm : List (Option Nat)}
    {g0 : List (Nat × Nat)} {f : Func} {layout : List Nat} {f2 : Func} {s : EmitState}
    (h : emit_bytecode ue0 dcm g0 f = some (layout, f2, s))
    (hwf : UEwf ue0)
    (hdefg : ∀ pr ∈ g0, dcm[pr.1]? = some (some pr.2))
    (hnd : (g0.map Prod.fst).Nodup)
    (hids : ∀ (bid : Nat) (blk : Block), f.blocks[bid]? = some blk → blk.id = bid)
    (hok : FuncOk f)
    (hlay : layout.Nodup)
    (hrange : ∀ bid ∈ layout, bid < f.blocks.length)
    (htgt : ∀ r ∈ s.gBranches, r.target ∈ layout) :
    ∀ r ∈ s.gBranches, ∃ (bi : BlockInfo) (o : Nat),
      s.blockInfo[r.target]? = some bi ∧ bi.offset = some o ∧
      s.ue.itemAt r.jmpImmedOff =
        some (Item.int32 (enc32 ((o : Int) - (r.instrOff : Int)))) := by
  obtain ⟨hiF, hcov, _⟩ := inv_emit_bytecode h hwf hdefg hnd hids hok hlay hrange
  intro r hr
  obtain ⟨bi, hb, hcase⟩ := hiF.br.brs r hr
  rcases hcase with ⟨o, ho, hv⟩ | ⟨hn, _, _⟩
  · exact ⟨bi, o, hb, ho, hv⟩
  · obtain ⟨o, ho⟩ := hcov r.target (htgt r hr)
    rw [hb] at ho
    have ho2 : bi.offset = some o := by simpa using ho
    rw [hn] at ho2
    exact absurd ho2 (by simp)

theorem ids_of_forall_fin {l : List Block}
    (h : ∀ i : Fin l.length, (l.get i).id = (i : Nat)) :
    ∀ (bid : Nat) (blk : Block), l[bid]? = some blk → blk.id = bid := by
  intro bid blk hb
  rcases List.getElem?_eq_some_iff.mp hb with ⟨hlt, he⟩
  rw [← he]
  exact h ⟨bid, hlt⟩

theorem UEwf_empty : UEwf {} :=
  ⟨List.Pairwise.nil, fun p hp => absurd hp (List.not_mem_nil p)⟩

theorem C7_depth_nonneg_ret_one_witness :
    (∀ d ∈ exWRes.2.2.gDepths, 0 ≤ d) ∧ (∀ d ∈ exWRes.2.2.gRetDepths, d = 1) :=
  @C7_depth_nonneg_ret_one {} [none] [] exWFunc exWRes.1 exWRes.2.1 exWRes.2.2
    rfl UEwf_empty (by decide) (by decide) (ids_of_forall_fin (by decide))
    (by decide) (by decide) (by decide)

theorem C3_expected_depths_witness :
    (∀ (b : Nat) (d d' : Int), (b, d) ∈ exWRes.2.2.gDepthSets →
      (b, d') ∈ exWRes.2.2.gDepthSets → d = d') ∧
    (∀ (b : Nat) (d d' : Int), (b, d) ∈ exWRes.2.2.gDepthSets →
      (b, d') ∈ exWRes.2.2.gEntryDepths → d = d') ∧
    (∀ (b : Nat) (d : Int), (b, d) ∈ exWRes.2.2.gEntryDepths →
      (∀ d' : Int, (b, d') ∉ exWRes.2.2.gDepthSets) → d = 0) ∧
    (∀ (b : Nat) (d d' : Nat), (b, d) ∈ exWRes.2.2.gFpiSets →
      (b, d') ∈ exWRes.2.2.gFpiSets → d = d') ∧
    (∀ (b : Nat) (d d' : Nat), (b, d) ∈ exWRes.2.2.gFpiSets →
      (b, d') ∈ exWRes.2.2.gFpiEntries → d = d') ∧
    (∀ (b : Nat) (d : Nat), (b, d) ∈ exWRes.2.2.gFpiEntries →
      (∀ d' : Nat, (b, d') ∉ exWRes.2.2.gFpiSets) → d = 0) :=
  @C3_expected_depths {} [none] [] exWFunc exWRes.1 exWRes.2.1 exWRes.2.2
    rfl UEwf_empty (by decide) (by decide) (ids_of_forall_fin (by decide))
    (by decide) (by decide) (by decide)

theorem C1_branch_fixups_witness :
    (⟨3, 4, 1⟩ : BranchRec) ∈ exWRes.2.2.gBranches ∧
    ∃ (bi : BlockInfo) (o : Nat),
      exWRes.2.2.blockInfo[(⟨3, 4, 1⟩ : BranchRec).target]? = some bi ∧
      bi.offset = some o ∧
      exWRes.2.2.ue.itemAt (⟨3, 4, 1⟩ : BranchRec).jmpImmedOff =
        some (Item.int32 (enc32 ((o : Int) - ((⟨3, 4, 1⟩ : BranchRec).instrOff : Int)))) :=
  ⟨by decide,
   @C1_branch_fixups {} [none] [] exWFunc exWRes.1 exWRes.2.1 exWRes.2.2
     rfl UEwf_empty (by decide) (by decide) (ids_of_forall_fin (by decide))
     (by decide) (by decide) (by decide) (by decide) ⟨3, 4, 1⟩ (by decide)⟩

theorem emit_srcloc_items (inst : Bc) (so : Nat) (s : EmitState) :
    (emit_srcloc inst so s).ue.bcItems = s.ue.bcItems := by
  unfold emit_srcloc
  split
  · rfl
  · rfl

/-- C6 (corrected): a `Nop` is skipped by the dispatch switch and
appends nothing to the stream; every other instruction appends exactly
the one-byte opcode tag at its start offset followed by its immediate
payload. -/
theorem C6_opcode_byte {f : Func} {inst : Bc} {s t : EmitState}
    (h : emit_inst f inst s = some t) (hi : EInv s) :
    (inst.sig.isNop = true → t.ue.bcItems = s.ue.bcItems) ∧
    (inst.sig.isNop = false → ∃ l : List (Nat × Item),
      t.ue.bcItems = s.ue.bcItems ++ (s.ue.bcPos, Item.opTag inst.sig.tag) :: l) := by
  simp only [emit_inst] at h
  by_cases hnop : inst.sig.isNop = true
  · rw [if_pos hnop] at h
    injection h with h
    subst h
    refine ⟨fun _ => rfl, fun hn => absurd hnop (by rw [hn]; exact Bool.false_ne_true)⟩
  · rw [if_neg hnop] at h
    refine ⟨fun hy => absurd hy hnop, fun _ => ?_⟩
    have hi1 : EInv { s with lastOff := s.ue.bcPos } := inv_lastToPos hi
    obtain ⟨s2, h2, h⟩ := Option.bind_eq_some.mp h
    have H2 : EInv s2 ∧ s2.ue = s.ue := by
      by_cases hc : inst.sig.isDefCls = true
      · rw [if_pos hc] at h2
        have hsp := defclsF_spec h2
        have hiv := inv_defclsF h2 hi1
        subst hsp
        exact ⟨hiv, rfl⟩
      · rw [if_neg hc] at h2
        injection h2 with h2
        subst h2
        exact ⟨hi1, rfl⟩
    obtain ⟨hi2, hue2⟩ := H2
    obtain ⟨s3, h3, h⟩ := Option.bind_eq_some.mp h
    have H3 : EInv s3 ∧ s3.ue = s.ue := by
      by_cases hc : inst.sig.isDefClsNop = true
      · rw [if_pos hc] at h3
        have hsp := defclsF_spec h3
        have hiv := inv_defclsF h3 hi2
        subst hsp
        exact ⟨hiv, hue2⟩
      · rw [if_neg hc] at h3
        injection h3 with h3
        subst h3
        exact ⟨hi2, hue2⟩
    obtain ⟨hi3, hue3⟩ := H3
    obtain ⟨s4, h4, h⟩ := Option.bind_eq_some.mp h
    have H4 : EInv s4 ∧ s4.ue = s.ue := by
      by_cases hc : inst.sig.isRet = true
      · rw [if_pos hc] at h4
        have hsp := (ret_assert_spec h4).2
        have hiv := (inv_ret_assert h4 hi3).1
        subst hsp
        exact ⟨hiv, hue3⟩
      · rw [if_neg hc] at h4
        injection h4 with h4
        subst h4
        exact ⟨hi3, hue3⟩
    obtain ⟨hi4, hue4⟩ := H4
    obtain ⟨s6, h6, h⟩ := Option.bind_eq_some.mp h
    have hi5 : EInv (emitIt (Item.opTag inst.sig.tag) s4) := inv_emitIt hi4 _
    obtain ⟨hi6, _⟩ := inv_popD _ h6 hi5
    have hsp6 := (popD_spec h6).2
    have hit6 : s6.ue.bcItems = s.ue.bcItems ++ [(s.ue.bcPos, Item.opTag inst.sig.tag)] := by
      rw [hsp6]
      show s4.ue.bcItems ++ [(s4.ue.bcPos, Item.opTag inst.sig.tag)] = _
      rw [hue4]
    obtain ⟨s8, h8, h⟩ := Option.bind_eq_some.mp h
    have hi7 : EInv (pushD inst.pushes s6) := inv_pushD hi6 _
    obtain ⟨hi8, hm8⟩ := inv_emit_imms _ h8 hi7
    obtain ⟨l8, hl8⟩ := hm8.items_ext
    have hit8 : s8.ue.bcItems =
        s.ue.bcItems ++ (s.ue.bcPos, Item.opTag inst.sig.tag) :: l8 := by
      rw [hl8]
      show s6.ue.bcItems ++ l8 = _
      rw [hit6, List.append_assoc]
      rfl
    have hit9 : (if inst.sig.isFPush = true then fpushF s.ue.bcPos s8 else s8).ue.bcItems =
        s8.ue.bcItems := by
      by_cases hc : inst.sig.isFPush = true
      · rw [if_pos hc]
        rfl
      · rw [if_neg hc]
    obtain ⟨s10, h10, h⟩ := Option.bind_eq_some.mp h
    have hit10 : s10.ue.bcItems = s8.ue.bcItems := by
      by_cases hc : inst.sig.isFCallStar = true
      · rw [if_pos hc] at h10
        obtain ⟨top, rest, hsk, hsp⟩ := end_fpi_spec h10
        subst hsp
        show (if inst.sig.isFPush = true then fpushF s.ue.bcPos s8 else s8).ue.bcItems =
          s8.ue.bcItems
        exact hit9
      · rw [if_neg hc] at h10
        injection h10 with h10
        subst h10
        exact hit9
    injection h with h
    subst h
    refine ⟨l8, ?_⟩
    rw [emit_srcloc_items]
    have hit11 : (if inst.sig.isFCallOrD = true then
        { (if inst.sig.isTF = true then
            { s10 with curDepth := 0, gDepths := s10.gDepths ++ [0] } else s10) with
          containsCalls := true }
        else (if inst.sig.isTF = true then
            { s10 with curDepth := 0, gDepths := s10.gDepths ++ [0] } else s10)).ue.bcItems =
        s10.ue.bcItems := by
      by_cases hc1 : inst.sig.isFCallOrD = true
      · rw [if_pos hc1]
        by_cases hc2 : inst.sig.isTF = true
        · rw [if_pos hc2]
        · rw [if_neg hc2]
      · rw [if_neg hc1]
        by_cases hc2 : inst.sig.isTF = true
        · rw [if_pos hc2]
        · rw [if_neg hc2]
    rw [hit11, hit10, hit8]

/-- C6 counterexample: emitting a `Nop` instruction succeeds but
appends no opcode byte at all — the stream and position are untouched,
refuting "every instruction contributes its opcode byte". -/
theorem C6_opcode_byte_counterexample :
    emit_inst exWFunc { sig := { tag := 0, isNop := true } }
        (initState {} [none] [] exWFunc) =
      some { initState {} [none] [] exWFunc with lastOff := 0 } ∧
    ({ initState {} [none] [] exWFunc with lastOff := 0 } : EmitState).ue.bcItems =
      (initState {} [none] [] exWFunc).ue.bcItems ∧
    ({ initState {} [none] [] exWFunc with lastOff := 0 } : EmitState).ue.bcPos =
      (initState {} [none] [] exWFunc).ue.bcPos := by
  exact ⟨by decide, rfl, rfl⟩

theorem C6_opcode_byte_witness :
    ((({ sig := { tag := 20 }, pushes := 1 } : Bc).sig.isNop = true →
      ((emit_inst exWFunc { sig := { tag := 20 }, pushes := 1 }
          (initState {} [none] [] exWFunc)).getD {}).ue.bcItems =
        (initState {} [none] [] exWFunc).ue.bcItems) ∧
     (({ sig := { tag := 20 }, pushes := 1 } : Bc).sig.isNop = false →
      ∃ l : List (Nat × Item),
        ((emit_inst exWFunc { sig := { tag := 20 }, pushes := 1 }
            (initState {} [none] [] exWFunc)).getD {}).ue.bcItems =
          (initState {} [none] [] exWFunc).ue.bcItems ++
            ((initState {} [none] [] exWFunc).ue.bcPos,
              Item.opTag ({ sig := { tag := 20 }, pushes := 1 } : Bc).sig.tag) :: l)) :=
  C6_opcode_byte (f := exWFunc) rfl (EInv_init UEwf_empty (by decide) (by decide))

theorem assign_ids_spec : ∀ (l : List LocalT) (n i : Nat),
    (∀ loc ∈ l, loc.killed = false) → i < l.length →
    ∃ loc2, (assign_ids l n)[i]? = some loc2 ∧ loc2.killed = false ∧ loc2.id = n + i := by
  intro l
  induction l with
  | nil =>
    intro n i _ hlt
    exact absurd hlt (by simp)
  | cons loc rest ih =>
    intro n i hnk hlt
    have hk : loc.killed = false := hnk loc (List.mem_cons_self loc rest)
    have hrw : assign_ids (loc :: rest) n =
        { loc with id := n } :: assign_ids rest (n + 1) := by
      simp [assign_ids, hk]
    rw [hrw]
    cases i with
    | zero =>
      refine ⟨{ loc with id := n }, by simp, hk, by show n = n + 0; omega⟩
    | succ i =>
      obtain ⟨loc2, hl, hk2, hid⟩ := ih (n + 1) i
        (fun lc hlc => hnk lc (List.mem_cons_of_mem loc hlc)) (by simpa using hlt)
      refine ⟨loc2, ?_, hk2, by omega⟩
      simpa using hl

/-- C9 (corrected): `map_local` after `emit_init_func` is the identity
when no local was killed (hence idempotent in that case), and in
general maps every id to one no larger; idempotence fails in general
(see the counterexample). -/
theorem C9_map_local {f : Func} (hnk : ∀ loc ∈ f.locals, loc.killed = false) :
    (∀ id : Nat, id < f.locals.length → map_local (emit_init_func f) id = some id) ∧
    (∀ (g : Func) (id v : Nat), map_local g id = some v → v ≤ id) := by
  constructor
  · intro id hlt
    obtain ⟨loc2, hl, hk2, hid⟩ := assign_ids_spec f.locals 0 id hnk hlt
    unfold map_local
    show ((assign_ids f.locals 0)[id]?).bind _ = some id
    rw [hl]
    simp only [Option.some_bind]
    rw [hk2, hid]
    simp
  · intro g id v h
    unfold map_local at h
    cases hl : g.locals[id]? with
    | none => rw [hl] at h; exact absurd h (by simp)
    | some loc =>
      rw [hl] at h
      simp only [Option.bind_eq_bind, Option.some_bind] at h
      split at h
      · exact absurd h (by simp)
      · split at h
        · rename_i hle
          injection h with h
          rw [← h]
          exact hle
        · exact absurd h (by simp)

/-- C9 counterexample: with locals `[killed, live, live, live]` the
compaction maps raw id 3 to 2 and raw id 2 to 1, so applying
`map_local` twice to 3 yields 1 ≠ 2 — `map_local` is not idempotent. -/
theorem C9_map_local_counterexample :
    (map_local (emit_init_func exC9Func) 3).bind (map_local (emit_init_func exC9Func)) ≠
      map_local (emit_init_func exC9Func) 3 := by decide

theorem C9_map_local_witness :
    (∀ id : Nat, id < ({ locals := [{}, {}] } : Func).locals.length →
      map_local (emit_init_func { locals := [{}, {}] }) id = some id) ∧
    (∀ (g : Func) (id v : Nat), map_local g id = some v → v ≤ id) :=
  C9_map_local (f := { locals := [{}, {}] }) (by decide)

theorem emit_bytecode_order {ue0 : UE} {dcm : List (Option Nat)} {g0 : List (Nat × Nat)}
    {f : Func} {layout : List Nat} {f2 : Func} {s : EmitState}
    (h : emit_bytecode ue0 dcm g0 f = some (layout, f2, s)) :
    order_blocks f = some (layout, f2) := by
  unfold emit_bytecode at h
  obtain ⟨p, hord, h⟩ := Option.bind_eq_some.mp h
  obtain ⟨layout0, f20⟩ := p
  obtain ⟨s1, _, h⟩ := Option.bind_eq_some.mp h
  obtain ⟨s2, _, h⟩ := Option.bind_eq_some.mp h
  injection h with h
  have he1 : layout0 = layout := congrArg Prod.fst h
  have he2 : f20 = f2 := congrArg (fun x => x.2.1) h
  rw [he1, he2] at hord
  exact hord

theorem emit_unit_funcs_inv :
    ∀ (l : List Func) (ue : UE) (dcm : List (Option Nat)) (g : List (Nat × Nat))
      (res : UE × List (Option Nat) × List (Nat × Nat)),
      emit_unit_funcs l ue dcm g = some res →
      (∀ f0 ∈ l,
        (∀ (bid : Nat) (blk : Block), f0.blocks[bid]? = some blk → blk.id = bid) ∧
        FuncOk f0 ∧
        (∀ (lay : List Nat) (f2 : Func),
          order_blocks (emit_init_func f0) = some (lay, f2) →
          lay.Nodup ∧ ∀ bid ∈ lay, bid < f0.blocks.length)) →
      UEwf ue →
      (∀ pr ∈ g, dcm[pr.1]? = some (some pr.2)) →
      (g.map Prod.fst).Nodup →
      UEwf res.1 ∧ (∀ pr ∈ res.2.2, res.2.1[pr.1]? = some (some pr.2)) ∧
        (res.2.2.map Prod.fst).Nodup := by
  intro l
  induction l with
  | nil =>
    intro ue dcm g res h _ hwf hdefg hnd
    unfold emit_unit_funcs at h
    injection h with h
    subst h
    exact ⟨hwf, hdefg, hnd⟩
  | cons f0 rest ih =>
    intro ue dcm g res h hfs hwf hdefg hnd
    unfold emit_unit_funcs at h
    obtain ⟨tri, htri, h⟩ := Option.bind_eq_some.mp h
    obtain ⟨lay0, f20, s0⟩ := tri
    obtain ⟨hids0, hok0, hlay0⟩ := hfs f0 (List.mem_cons_self f0 rest)
    have hord := emit_bytecode_order htri
    obtain ⟨hnodup0, hrange0⟩ := hlay0 lay0 f20 hord
    obtain ⟨hiF, _, _⟩ := inv_emit_bytecode htri hwf hdefg hnd hids0 hok0 hnodup0 hrange0
    exact ih s0.ue s0.defClsMap s0.gDefCls res h
      (fun f1 hf1 => hfs f1 (List.mem_cons_of_mem f0 hf1))
      hiF.br.ueWF hiF.dfs.defg hiF.dfs.defNodup

/-- C8: every `DefCls`/`DefClsNop` emission records its start offset
in `defClsMap` under its class-id immediate; double recording is a
fatal assertion, so ids are recorded at most once; after all functions
are emitted, each recorded offset is copied into the pre-class entry,
so each journalled `(classId, offset)` pair satisfies
`preClassOff[classId] = offset`. -/
theorem C8_defcls_offsets {u : UnitM} {res : UnitResult}
    (h : emit_unit u = some res)
    (hfs : ∀ f0 ∈ u.funcs,
      (∀ (bid : Nat) (blk : Block), f0.blocks[bid]? = some blk → blk.id = bid) ∧
      FuncOk f0 ∧
      (∀ (lay : List Nat) (f2 : Func),
        order_blocks (emit_init_func f0) = some (lay, f2) →
        lay.Nodup ∧ ∀ bid ∈ lay, bid < f0.blocks.length))
    (hspan : ∀ pr ∈ res.gDefCls, pr.1 < u.numClasses) :
    (∀ pr ∈ res.gDefCls, res.preClassOff[pr.1]? = some (some pr.2)) ∧
    (res.gDefCls.map Prod.fst).Nodup := by
  unfold emit_unit at h
  obtain ⟨tri, htri, h⟩ := Option.bind_eq_some.mp h
  obtain ⟨ueF, dcmF, gF⟩ := tri
  injection h with h
  subst h
  obtain ⟨_, hdefgF, hndF⟩ := emit_unit_funcs_inv u.funcs {} (List.replicate u.numClasses none)
    [] (ueF, dcmF, gF) htri hfs UEwf_empty
    (fun pr hpr => absurd hpr (List.not_mem_nil pr))
    (by simp)
  refine ⟨?_, hndF⟩
  intro pr hpr
  have hlt := hspan pr hpr
  have hd := hdefgF pr hpr
  show ((List.range u.numClasses).map _)[pr.1]?  = some (some pr.2)
  rw [List.getElem?_map, List.getElem?_range hlt]
  show some (match dcmF[pr.1]? with
    | some (some off) => some off
    | _ => none) = some (some pr.2)
  rw [hd]

theorem order_clause_of_concrete {f0 : Func}
    (h1 : ((order_blocks (emit_init_func f0)).getD ([], {})).1.Nodup)
    (h2 : ∀ bid ∈ ((order_blocks (emit_init_func f0)).getD ([], {})).1,
      bid < f0.blocks.length)
    (hs : (order_blocks (emit_init_func f0)).isSome = true) :
    ∀ (lay : List Nat) (f2 : Func), order_blocks (emit_init_func f0) = some (lay, f2) →
      lay.Nodup ∧ ∀ bid ∈ lay, bid < f0.blocks.length := by
  intro lay f2 hyp
  rw [hyp] at h1 h2
  exact ⟨h1, h2⟩

theorem C8_defcls_offsets_witness :
    (∀ pr ∈ exWURes.gDefCls, exWURes.preClassOff[pr.1]? = some (some pr.2)) ∧
    (exWURes.gDefCls.map Prod.fst).Nodup :=
  C8_defcls_offsets (u := exWUnit) rfl
    (fun f0 hf0 => by
      have hf : f0 = exWFunc := by simpa [exWUnit] using hf0
      subst hf
      exact ⟨ids_of_forall_fin (by decide), by decide,
        order_clause_of_concrete (by decide) (by decide) (by decide)⟩)
    (by decide)

theorem insertLt_perm {α : Type} (lt : α → α → Bool) (x : α) (l : List α) :
    (insertLt lt x l).Perm (x :: l) := by
  induction l with
  | nil => exact List.Perm.refl _
  | cons y l ih =>
    unfold insertLt
    by_cases hc : lt y x = true
    · rw [if_pos hc]
      exact (ih.cons y).trans (List.Perm.swap x y l)
    · rw [if_neg hc]

theorem sortLt_perm {α : Type} (lt : α → α → Bool) (l : List α) :
    (sortLt lt l).Perm l := by
  induction l with
  | nil => exact List.Perm.refl _
  | cons x l ih =>
    unfold sortLt
    exact (insertLt_perm lt x (sortLt lt l)).trans (ih.cons x)

theorem insertLt_pairwise_mem {α : Type} {lt : α → α → Bool} {S : List α}
    (htrans : ∀ a ∈ S, ∀ b ∈ S, ∀ c ∈ S,
      lt a b = false → lt b c = false → lt a c = false)
    (hasym : ∀ a ∈ S, ∀ b ∈ S, lt a b = true → lt b a = false)
    {x : α} (hx : x ∈ S) :
    ∀ {l : List α}, (∀ y ∈ l, y ∈ S) →
      l.Pairwise (fun a b => lt b a = false) →
      (insertLt lt x l).Pairwise (fun a b => lt b a = false) := by
  intro l
  induction l with
  | nil =>
    intro _ _
    exact List.pairwise_singleton _ _
  | cons y l ih =>
    intro hmem hp
    rw [List.pairwise_cons] at hp
    obtain ⟨hy, hl⟩ := hp
    have hyS : y ∈ S := hmem y (List.mem_cons_self y l)
    unfold insertLt
    by_cases hc : lt y x = true
    · rw [if_pos hc]
      rw [List.pairwise_cons]
      refine ⟨?_, ih (fun z hz => hmem z (List.mem_cons_of_mem y hz)) hl⟩
      intro z hz
      rcases List.mem_cons.mp ((insertLt_perm lt x l).mem_iff.mp hz) with rfl | hz2
      · exact hasym y hyS z hx hc
      · exact hy z hz2
    · rw [if_neg hc]
      rw [List.pairwise_cons]
      refine ⟨?_, List.pairwise_cons.mpr ⟨hy, hl⟩⟩
      intro z hz
      rcases List.mem_cons.mp hz with rfl | hz2
      · exact Bool.eq_false_iff.mpr (fun hcc => hc hcc)
      · exact htrans z (hmem z (List.mem_cons_of_mem y hz2)) y hyS x hx
          (hy z hz2) (Bool.eq_false_iff.mpr (fun hcc => hc hcc))

theorem sortLt_sorted_mem {α : Type} {lt : α → α → Bool} {S : List α}
    (htrans : ∀ a ∈ S, ∀ b ∈ S, ∀ c ∈ S,
      lt a b = false → lt b c = false → lt a c = false)
    (hasym : ∀ a ∈ S, ∀ b ∈ S, lt a b = true → lt b a = false) :
    ∀ {l : List α}, (∀ y ∈ l, y ∈ S) →
      (sortLt lt l).Pairwise (fun a b => lt b a = false) := by
  intro l
  induction l with
  | nil =>
    intro _
    exact List.Pairwise.nil
  | cons x l ih =>
    intro hmem
    unfold sortLt
    refine insertLt_pairwise_mem htrans hasym (hmem x (List.mem_cons_self x l))
      ?_ (ih (fun y hy => hmem y (List.mem_cons_of_mem x hy)))
    intro y hy
    exact hmem y (List.mem_cons_of_mem x ((sortLt_perm lt l).mem_iff.mp hy))

theorem sortLt_id_of_sorted {α : Type} {lt : α → α → Bool} :
    ∀ {l : List α}, l.Pairwise (fun a b => lt b a = false) → sortLt lt l = l := by
  intro l
  induction l with
  | nil => intro _; rfl
  | cons x l ih =>
    intro hp
    rw [List.pairwise_cons] at hp
    obtain ⟨hx, hl⟩ := hp
    unfold sortLt
    rw [ih hl]
    cases l with
    | nil => rfl
    | cons y t =>
      unfold insertLt
      have hyx : lt y x = false := hx y (List.mem_cons_self y t)
      rw [hyx]
      simp

theorem emit_eh_region_spec {rs : List EHRegionM} {ri : Nat} {tab : List EHEntM}
    {pim : List (Nat × Nat)} {tab2 : List EHEntM} {pim2 : List (Nat × Nat)}
    (h : emit_eh_region rs ri tab pim = some (tab2, pim2)) :
    ∃ r, rs[ri]? = some r ∧
      ((r.start = r.past ∧ tab2 = tab ∧ pim2 = pim) ∨
       (r.start < r.past ∧ ∃ pi,
         tab2 = tab ++ [{ base := r.start, past := r.past, parentIndex := pi, region := ri }] ∧
         pim2 = pim ++ [(ri, tab.length)] ∧
         ((r.parentR = none ∧ pi = none) ∨
          (∃ p ti, r.parentR = some p ∧ pi = some ti ∧
            (pim.find? (fun pr => pr.1 = p)).map (fun pr => pr.2) = some ti)))) := by
  unfold emit_eh_region at h
  obtain ⟨r, hr, h⟩ := Option.bind_eq_some.mp h
  refine ⟨r, hr, ?_⟩
  split at h
  · rename_i heq
    injection h with h
    exact Or.inl ⟨heq, (congrArg Prod.fst h).symm, (congrArg Prod.snd h).symm⟩
  · rename_i hne
    split at h
    · exact absurd h (by simp)
    · rename_i hnlt
      obtain ⟨pi, hpi, h⟩ := Option.bind_eq_some.mp h
      injection h with h
      refine Or.inr ⟨by omega, pi, (congrArg Prod.fst h).symm, (congrArg Prod.snd h).symm, ?_⟩
      cases hpr : r.parentR with
      | none =>
        rw [hpr] at hpi
        have hpi2 : some (none : Option Nat) = some pi := hpi
        injection hpi2 with hpi2
        exact Or.inl ⟨rfl, hpi2.symm⟩
      | some p =>
        rw [hpr] at hpi
        have hpi2 : (match (pim.find? (fun pr => pr.1 = p)).map (fun pr => pr.2) with
          | none => none
          | some ti => some (some ti)) = some pi := hpi
        cases hf : (pim.find? (fun pr => pr.1 = p)).map (fun pr => pr.2) with
        | none => rw [hf] at hpi2; exact absurd hpi2 (by simp)
        | some ti =>
          rw [hf] at hpi2
          have hpi3 : some (some ti) = some pi := hpi2
          injection hpi3 with hpi3
          exact Or.inr ⟨p, ti, rfl, hpi3.symm, hf⟩

theorem eh_fold_inv {rs : List EHRegionM} :
    ∀ (order : List Nat) (tab : List EHEntM) (pim : List (Nat × Nat))
      (tab2 : List EHEntM) (pim2 : List (Nat × Nat)),
      emit_eh_regions rs order tab pim = some (tab2, pim2) →
      (∀ pr ∈ pim, ∃ pe, tab[pr.2]? = some pe ∧ pe.region = pr.1) →
      (∀ e ∈ tab, e.base < e.past ∧
        (match e.parentIndex with
         | none => ∃ r, rs[e.region]? = some r ∧ r.parentR = none
         | some pi => ∃ (r : EHRegionM) (p : Nat) (pe : EHEntM),
             rs[e.region]? = some r ∧ r.parentR = some p ∧
             tab[pi]? = some pe ∧ pe.region = p)) →
      ((∀ pr ∈ pim2, ∃ pe, tab2[pr.2]? = some pe ∧ pe.region = pr.1) ∧
       (∀ e ∈ tab2, e.base < e.past ∧
         (match e.parentIndex with
          | none => ∃ r, rs[e.region]? = some r ∧ r.parentR = none
          | some pi => ∃ (r : EHRegionM) (p : Nat) (pe : EHEntM),
              rs[e.region]? = some r ∧ r.parentR = some p ∧
              tab2[pi]? = some pe ∧ pe.region = p)) ∧
       ∃ sub, tab2.map (fun e => e.region) = tab.map (fun e => e.region) ++ sub ∧
         sub.Sublist order) := by
  intro order
  induction order with
  | nil =>
    intro tab pim tab2 pim2 h hpim htab
    unfold emit_eh_regions at h
    injection h with h
    have e1 : tab = tab2 := congrArg Prod.fst h
    have e2 : pim = pim2 := congrArg Prod.snd h
    subst e1
    subst e2
    exact ⟨hpim, htab, [], by simp, List.Sublist.refl _⟩
  | cons ri rest ih =>
    intro tab pim tab2 pim2 h hpim htab
    unfold emit_eh_regions at h
    obtain ⟨pr2, hstep, h⟩ := Option.bind_eq_some.mp h
    obtain ⟨tabM, pimM⟩ := pr2
    obtain ⟨r, hr, hcase⟩ := emit_eh_region_spec hstep
    rcases hcase with ⟨_, htm, hpm⟩ | ⟨hlt, pi, htm, hpm, hpar⟩
    · rw [htm, hpm] at h
      obtain ⟨h1, h2, sub, h3, h4⟩ := ih tab pim tab2 pim2 h hpim htab
      exact ⟨h1, h2, sub, h3, h4.cons ri⟩
    · set e0 : EHEntM := { base := r.start, past := r.past, parentIndex := pi, region := ri } with he0
      rw [htm, hpm] at h
      have hpimM : ∀ pr ∈ pim ++ [(ri, tab.length)],
          ∃ pe, (tab ++ [e0])[pr.2]? = some pe ∧ pe.region = pr.1 := by
        intro pr hpr
        rcases List.mem_append.mp hpr with hold | hnew
        · obtain ⟨pe, hl, hre⟩ := hpim pr hold
          refine ⟨pe, ?_, hre⟩
          rw [List.getElem?_append_left (lookup_lt hl)]
          exact hl
        · have hpe : pr = (ri, tab.length) := by simpa using hnew
          subst hpe
          refine ⟨e0, ?_, rfl⟩
          show (tab ++ [e0])[tab.length]? = some e0
          exact List.getElem?_concat_length tab e0
      have htabM : ∀ e ∈ tab ++ [e0], e.base < e.past ∧
          (match e.parentIndex with
           | none => ∃ r, rs[e.region]? = some r ∧ r.parentR = none
           | some pi => ∃ (r : EHRegionM) (p : Nat) (pe : EHEntM),
               rs[e.region]? = some r ∧ r.parentR = some p ∧
               (tab ++ [e0])[pi]? = some pe ∧ pe.region = p) := by
        intro e he
        rcases List.mem_append.mp he with hold | hnew
        · obtain ⟨hb, hm⟩ := htab e hold
          refine ⟨hb, ?_⟩
          cases hcpi : e.parentIndex with
          | none =>
            rw [hcpi] at hm
            exact hm
          | some pi2 =>
            rw [hcpi] at hm
            obtain ⟨r2, p2, pe2, ha, hb2, hc2, hd2⟩ := hm
            refine ⟨r2, p2, pe2, ha, hb2, ?_, hd2⟩
            rw [List.getElem?_append_left (lookup_lt hc2)]
            exact hc2
        · have hee : e = e0 := by simpa using hnew
          subst hee
          refine ⟨hlt, ?_⟩
          rcases hpar with ⟨hpn, rfl⟩ | ⟨p, ti, hps, rfl, hfind⟩
          · exact ⟨r, hr, hpn⟩
          · obtain ⟨pr0, hf0, hm0⟩ := Option.map_eq_some'.mp hfind
            have hp0 : pr0.1 = p := by
              have := List.find?_some hf0
              simpa using this
            have hmem0 : pr0 ∈ pim := List.mem_of_find?_eq_some hf0
            obtain ⟨pe, hl, hre⟩ := hpim pr0 hmem0
            refine ⟨r, p, pe, hr, hps, ?_, by rw [hre, hp0]⟩
            show (tab ++ [e0])[ti]? = some pe
            rw [← hm0]
            rw [List.getElem?_append_left (lookup_lt hl)]
            exact hl
      obtain ⟨h1, h2, sub, h3, h4⟩ := ih (tab ++ [e0]) (pim ++ [(ri, tab.length)])
        tab2 pim2 h hpimM htabM
      refine ⟨h1, h2, ri :: sub, ?_, h4.cons₂ ri⟩
      rw [h3, List.map_append]
      simp

/-- C10: an EH region spanning an empty byte interval
(`start == past`) is skipped by `emit_eh_region` — no table entry and
no parent-index record is made for it — and every entry actually
appended to the EH table satisfies `base < past`. -/
theorem C10_eh_skip_empty {rs : List EHRegionM} {ri : Nat} {tab : List EHEntM}
    {pim : List (Nat × Nat)} {r : EHRegionM}
    (hr : rs[ri]? = some r)
    {order : List Nat} {tab2 : List EHEntM} {pim2 : List (Nat × Nat)}
    (hfold : emit_eh_regions rs order [] [] = some (tab2, pim2)) :
    (r.start = r.past → emit_eh_region rs ri tab pim = some (tab, pim)) ∧
    (∀ e ∈ tab2, e.base < e.past) := by
  constructor
  · intro heq
    unfold emit_eh_region
    rw [hr]
    show (if r.start = r.past then some (tab, pim) else _) = some (tab, pim)
    rw [if_pos heq]
  · obtain ⟨_, h2, _⟩ := eh_fold_inv order [] [] tab2 pim2 hfold
      (fun pr hpr => absurd hpr (List.not_mem_nil pr))
      (fun e he => absurd he (List.not_mem_nil e))
    exact fun e he => (h2 e he).1

theorem C10_eh_skip_empty_witness :
    (({ node := 2, parentR := some 0, start := 8, past := 8 } : EHRegionM).start =
        ({ node := 2, parentR := some 0, start := 8, past := 8 } : EHRegionM).past →
      emit_eh_region exEhRs 2 [] [] = some ([], [])) ∧
    (∀ e ∈ exEhOut.1, e.base < e.past) :=
  @C10_eh_skip_empty exEhRs 2 [] []
    { node := 2, parentR := some 0, start := 8, past := 8 } rfl
    (sortLt (ehLtB exEhRs) [2, 1, 0]) exEhOut.1 exEhOut.2 rfl

/-- C4: the regions are emitted in the order of the comparator (start
ascending, then extent descending, then ancestors first); the sort is
idempotent, the emitted table is sorted (a sublist of the sorted
region order), and each entry's `parentIndex` is the table index
earlier assigned to its parent's entry, or none for a root. -/
theorem C4_eh_table_order {rs : List EHRegionM} {idxs : List Nat}
    {tab : List EHEntM} {pim : List (Nat × Nat)}
    (h : emit_ehent_tab rs idxs = some (tab, pim))
    (htrans : ∀ a ∈ idxs, ∀ b ∈ idxs, ∀ c ∈ idxs,
      ehLtB rs a b = false → ehLtB rs b c = false → ehLtB rs a c = false)
    (hasym : ∀ a ∈ idxs, ∀ b ∈ idxs, ehLtB rs a b = true → ehLtB rs b a = false) :
    sortLt (ehLtB rs) (sortLt (ehLtB rs) idxs) = sortLt (ehLtB rs) idxs ∧
    (tab.map (fun e => e.region)).Pairwise (fun a b => ehLtB rs b a = false) ∧
    (∀ e ∈ tab,
      (e.parentIndex = none → ∃ r, rs[e.region]? = some r ∧ r.parentR = none) ∧
      (∀ pi, e.parentIndex = some pi → ∃ (r : EHRegionM) (p : Nat) (pe : EHEntM),
        rs[e.region]? = some r ∧ r.parentR = some p ∧
        tab[pi]? = some pe ∧ pe.region = p)) := by
  unfold emit_ehent_tab at h
  obtain ⟨hp, ht, sub, hsub, hsl⟩ := eh_fold_inv _ [] [] tab pim h
    (fun pr hpr => absurd hpr (List.not_mem_nil pr))
    (fun e he => absurd he (List.not_mem_nil e))
  have hsorted : (sortLt (ehLtB rs) idxs).Pairwise (fun a b => ehLtB rs b a = false) :=
    sortLt_sorted_mem htrans hasym (fun y hy => hy)
  refine ⟨sortLt_id_of_sorted hsorted, ?_, ?_⟩
  · have hsb : (tab.map (fun e => e.region)).Sublist (sortLt (ehLtB rs) idxs) := by
      rw [hsub]
      simpa using hsl
    exact hsorted.sublist hsb
  · intro e he
    obtain ⟨_, hm⟩ := ht e he
    constructor
    · intro hn
      rw [hn] at hm
      exact hm
    · intro pi hpi
      rw [hpi] at hm
      exact hm

theorem C4_eh_table_order_witness :
    sortLt (ehLtB exEhRs) (sortLt (ehLtB exEhRs) [2, 1, 0]) =
      sortLt (ehLtB exEhRs) [2, 1, 0] ∧
    (exEhOut.1.map (fun e => e.region)).Pairwise
      (fun a b => ehLtB exEhRs b a = false) ∧
    (∀ e ∈ exEhOut.1,
      (e.parentIndex = none →
        ∃ r, exEhRs[e.region]? = some r ∧ r.parentR = none) ∧
      (∀ pi, e.parentIndex = some pi →
        ∃ (r : EHRegionM) (p : Nat) (pe : EHEntM),
          exEhRs[e.region]? = some r ∧ r.parentR = some p ∧
          exEhOut.1[pi]? = some pe ∧ pe.region = p)) :=
  @C4_eh_table_order exEhRs [2, 1, 0] exEhOut.1 exEhOut.2 rfl (by decide) (by decide)

